import Mathlib

/-!
# libevpl: byte-vector rings and the TCP socket handlers

A shallow embedding of `src/core/buffer.h` (the `evpl_bvec_ring` operations)
and of the read/write handlers of `src/core/socket/tcp.c`.  The definitions
come first, the lemmas and theorems after them.

Conventions of the embedding.

* C `int` / `unsigned int` / `size_t` values that are indices, sizes, lengths
  or addresses are natural numbers; the development does not cover
  arithmetic overflow of these quantities.  A ring's `size` is at least 1, so
  `size - 1` on naturals is the C value of `mask`.
* Two places keep the width of the C type, because the result depends on it:
  the accumulator `int total` of `evpl_bvec_ring_iov` (`int_wrap`), and the
  comparison of the `uint64_t` byte total with the `int` returned by the
  segment callback in `evpl_socket_tcp_read` (`int_to_uint64`).
* A pointer into the ring array (`struct evpl_bvec *`) is the index of the
  slot; `NULL` is `none`.
* Memory returned by `evpl_valloc` is uninitialised: every allocation takes
  the contents of the fresh memory as an argument (`mem`).
* The struct `evpl_bvec` is declared in `core/evpl.h`; its fields are taken
  from their uses in `buffer.h` (`buffer`, `data`, `length`, `eom`).
-/

namespace Evpl

/-! ## Data model -/

/-- A byte vector: owning buffer (an identifier), start address, length and
end-of-message flag. -/
structure evpl_bvec where
  buffer : Nat
  data : Nat
  length : Nat
  eom : Nat
deriving DecidableEq, Repr, Inhabited

/-- The ring of byte vectors, `struct evpl_bvec_ring`.  The array `bvec` is a
map from slot index to contents. -/
structure evpl_bvec_ring where
  bvec : Nat → evpl_bvec
  size : Nat
  mask : Nat
  alignment : Nat
  head : Nat
  tail : Nat
  length : Nat

instance : Inhabited evpl_bvec_ring :=
  ⟨{ bvec := fun _ => default, size := 0, mask := 0, alignment := 0,
     head := 0, tail := 0, length := 0 }⟩

/-- The effect of `memcpy(&dst[doff], &src[soff], n * sizeof(struct evpl_bvec))`
on the destination array. -/
def memcpy (dst : Nat → evpl_bvec) (doff : Nat) (src : Nat → evpl_bvec)
    (soff n : Nat) : Nat → evpl_bvec :=
  fun i => if doff ≤ i ∧ i < doff + n then src (soff + (i - doff)) else dst i

/-! ## Ring operations of `buffer.h` -/

/-- The function `evpl_bvec_ring_alloc`: sets every field but `length`; `mem` is the
content of the freshly allocated array. -/
def evpl_bvec_ring_alloc (ring : evpl_bvec_ring) (mem : Nat → evpl_bvec)
    (size alignment : Nat) : evpl_bvec_ring :=
  { ring with
    bvec := mem, size := size, mask := size - 1, alignment := alignment,
    head := 0, tail := 0 }

/-- The function `evpl_bvec_ring_resize`: doubles the array, copying the live entries to
the front of the new array (`mem` is the fresh array). -/
def evpl_bvec_ring_resize (mem : Nat → evpl_bvec) (ring : evpl_bvec_ring) :
    evpl_bvec_ring :=
  let new_size := ring.size <<< 1
  let new_bvec :=
    if ring.head > ring.tail then
      memcpy mem 0 ring.bvec ring.tail (ring.head - ring.tail)
    else
      memcpy (memcpy mem 0 ring.bvec ring.tail (ring.size - ring.tail))
        (ring.size - ring.tail) ring.bvec 0 ring.head
  { ring with
    head := ring.size - 1, tail := 0, bvec := new_bvec, size := new_size,
    mask := new_size - 1 }

/-- The function `evpl_bvec_ring_is_empty`. -/
def evpl_bvec_ring_is_empty (ring : evpl_bvec_ring) : Bool :=
  decide (ring.head = ring.tail)

/-- The function `evpl_bvec_ring_is_full`. -/
def evpl_bvec_ring_is_full (ring : evpl_bvec_ring) : Bool :=
  decide (((ring.head + 1) &&& ring.mask) = ring.tail)

/-- The function `evpl_bvec_ring_head`: `NULL` on an empty ring, else the address of the
slot at index `head`. -/
def evpl_bvec_ring_head (ring : evpl_bvec_ring) : Option Nat :=
  if ring.head = ring.tail then none else some ring.head

/-- The function `evpl_bvec_ring_tail`: `NULL` on an empty ring, else the address of the
slot at index `tail`. -/
def evpl_bvec_ring_tail (ring : evpl_bvec_ring) : Option Nat :=
  if ring.head = ring.tail then none else some ring.tail

/-- The function `evpl_bvec_ring_next`: the slot after `cur`, or `NULL` when that slot is
the tail. -/
def evpl_bvec_ring_next (ring : evpl_bvec_ring) (cur : Nat) : Option Nat :=
  let index := (cur + 1) &&& ring.mask
  if index = ring.tail then none else some index

/-- The function `evpl_bvec_ring_add`: returns the ring and the slot written (`res`). -/
def evpl_bvec_ring_add (mem : Nat → evpl_bvec) (ring : evpl_bvec_ring)
    (bvec : evpl_bvec) (eom : Nat) : evpl_bvec_ring × Nat :=
  let ring := if evpl_bvec_ring_is_full ring then evpl_bvec_ring_resize mem ring else ring
  let res := ring.head
  ({ ring with
     bvec := Function.update ring.bvec ring.head { bvec with eom := eom },
     head := (ring.head + 1) &&& ring.mask }, res)

/-- The function `evpl_bvec_ring_remove`. -/
def evpl_bvec_ring_remove (ring : evpl_bvec_ring) : evpl_bvec_ring :=
  { ring with tail := (ring.tail + 1) &&& ring.mask }

/-! ## Reading a ring -/

/-- The entries met by walking from `pos` to `head` the way the loops of
`buffer.h` do (`pos = (pos + 1) & mask` until `pos == head`), at most `fuel`
steps. -/
def ring_walk (ring : evpl_bvec_ring) : Nat → Nat → List evpl_bvec
  | 0, _ => []
  | fuel + 1, pos =>
    if pos = ring.head then []
    else ring.bvec pos :: ring_walk ring fuel ((pos + 1) &&& ring.mask)

/-- The entries of the ring from `tail` up to (not including) `head`. -/
def ring_entries (ring : evpl_bvec_ring) : List evpl_bvec :=
  ring_walk ring ring.size ring.tail

/-- The sum of the lengths of a list of byte vectors. -/
def bvec_bytes (l : List evpl_bvec) : Nat :=
  (l.map (fun b => b.length)).sum

/-- A call of the ring interface: an add (with the fresh memory a resize
would use) or a remove. -/
inductive ring_op where
  | add (mem : Nat → evpl_bvec) (bvec : evpl_bvec) (eom : Nat)
  | remove

/-- One call applied to a ring. -/
def ring_step (ring : evpl_bvec_ring) : ring_op → evpl_bvec_ring
  | ring_op.add mem bvec eom => (evpl_bvec_ring_add mem ring bvec eom).1
  | ring_op.remove => evpl_bvec_ring_remove ring

/-- A sequence of calls applied to a ring. -/
def ring_run (ring : evpl_bvec_ring) (ops : List ring_op) : evpl_bvec_ring :=
  ops.foldl ring_step ring

/-- The queue the calls describe: the added and not yet removed byte vectors
in the order of their addition, each with the `eom` passed to add. -/
def fifo_step (q : List evpl_bvec) : ring_op → List evpl_bvec
  | ring_op.add _ bvec eom => q ++ [{ bvec with eom := eom }]
  | ring_op.remove => q.tail

/-- The queue described by a sequence of calls. -/
def fifo_run (q : List evpl_bvec) (ops : List ring_op) : List evpl_bvec :=
  ops.foldl fifo_step q

/-- No remove of the sequence is issued while the queue (of `n` entries at
the start) is empty. -/
def removes_guarded : Nat → List ring_op → Bool
  | _, [] => true
  | n, ring_op.add _ _ _ :: ops => removes_guarded (n + 1) ops
  | 0, ring_op.remove :: _ => false
  | n + 1, ring_op.remove :: ops => removes_guarded n ops

/-! ## Well-formed rings -/

/-- The shape of a ring: power-of-two size, the matching mask, indices inside
the array. -/
def ring_wf (ring : evpl_bvec_ring) : Prop :=
  (∃ k, ring.size = 2 ^ k) ∧ ring.mask = ring.size - 1 ∧
    ring.head < ring.size ∧ ring.tail < ring.size

/-- The ring `ring` holds exactly the list `l`, in order, from `tail`. -/
def ring_repr (ring : evpl_bvec_ring) (l : List evpl_bvec) : Prop :=
  ring_wf ring ∧ l.length < ring.size ∧
    ring.head = (ring.tail + l.length) % ring.size ∧
    ∀ i (h : i < l.length), ring.bvec ((ring.tail + i) % ring.size) = l[i]


/-- Sample byte vectors used by the concrete checks. -/
def sample_bvec (i : Nat) : evpl_bvec :=
  { buffer := i, data := 100 * i, length := i, eom := 0 }

/-- Fresh memory filled with zeroes. -/
def zero_mem : Nat → evpl_bvec := fun _ => default

/-- A call sequence that makes a size-2 ring grow twice: first full with
`tail = 1, head = 0` (wrapped), then full with `tail = 0, head = 3`
(unwrapped). -/
def sample_ops : List ring_op :=
  [ring_op.add zero_mem (sample_bvec 1) 0, ring_op.remove,
   ring_op.add zero_mem (sample_bvec 2) 1, ring_op.add zero_mem (sample_bvec 3) 0,
   ring_op.add zero_mem (sample_bvec 4) 1, ring_op.add zero_mem (sample_bvec 5) 0,
   ring_op.remove, ring_op.add zero_mem (sample_bvec 6) 7]


/-! ## Buffers and reference counts -/

/-- The reference counts of the buffers (`refcnt` of `struct evpl_buffer`, by
buffer identifier), the log of the buffers passed to `evpl_buffer_release`,
and the buffers returned to their pool. -/
structure evpl_buffers where
  refcnt : Nat → Int
  released : List Nat
  pool : List Nat

/-- Modelled from the spec: `evpl_buffer_release` is declared in `buffer.h`
and defined elsewhere.  Spec 4.A: release decrements the buffer's refcount
and, if zero, returns it to its pool. -/
def evpl_buffer_release (bufs : evpl_buffers) (buffer : Nat) : evpl_buffers :=
  { refcnt := Function.update bufs.refcnt buffer (bufs.refcnt buffer - 1),
    released := bufs.released ++ [buffer],
    pool := if bufs.refcnt buffer - 1 = 0 then bufs.pool ++ [buffer] else bufs.pool }

/-- The function `evpl_bvec_decref`: `none` is the abort of `evpl_core_abort_if`. -/
def evpl_bvec_decref (bufs : evpl_buffers) (bvec : evpl_bvec) : Option evpl_buffers :=
  if bufs.refcnt bvec.buffer = 0 then none
  else some (evpl_buffer_release bufs bvec.buffer)

/-- The function `evpl_bvec_incref`. -/
def evpl_bvec_incref (bufs : evpl_buffers) (bvec : evpl_bvec) : evpl_buffers :=
  { bufs with refcnt := Function.update bufs.refcnt bvec.buffer (bufs.refcnt bvec.buffer + 1) }

/-- The function `evpl_bvec_ring_append`, for `0 ≤ length ≤ append.length`.  Returns the
buffers, the ring and the caller's `append` vector after the call; `none` is
the abort inside `evpl_bvec_decref`. -/
def evpl_bvec_ring_append (mem : Nat → evpl_bvec) (bufs : evpl_buffers)
    (ring : evpl_bvec_ring) (append : evpl_bvec) (length eom : Nat) :
    Option (evpl_buffers × evpl_bvec_ring × evpl_bvec) :=
  let head := evpl_bvec_ring_head ring
  let st : evpl_buffers × evpl_bvec_ring :=
    match head with
    | some h =>
      if (ring.bvec h).eom = 0 ∧ (ring.bvec h).data + (ring.bvec h).length = append.data then
        (bufs, { ring with
                 bvec := Function.update ring.bvec h
                   { ring.bvec h with length := (ring.bvec h).length + length } })
      else
        let bufs := evpl_bvec_incref bufs append
        let (ring, h) := evpl_bvec_ring_add mem ring append eom
        (bufs, { ring with
                 bvec := Function.update ring.bvec h { ring.bvec h with length := length } })
    | none =>
      let bufs := evpl_bvec_incref bufs append
      let (ring, h) := evpl_bvec_ring_add mem ring append eom
      (bufs, { ring with
               bvec := Function.update ring.bvec h { ring.bvec h with length := length } })
  let append := { append with data := append.data + length, length := append.length - length }
  if append.length = 0 then
    (evpl_bvec_decref st.1 append).map (fun bufs => (bufs, st.2, append))
  else
    some (st.1, st.2, append)

/-- The number of byte vectors in the ring, `(head - tail) & mask` on C
ints. -/
def ring_count (ring : evpl_bvec_ring) : Int :=
  Int.land ((ring.head : Int) - (ring.tail : Int)) (ring.mask : Int)

/-- Buffers with every reference count equal to 1. -/
def sample_buffers : evpl_buffers :=
  { refcnt := fun _ => 1, released := [], pool := [] }

/-- The last entry of the ring in the coalescing scenario. -/
def coalesce_last : evpl_bvec := { buffer := 1, data := 100, length := 10, eom := 0 }

/-- The vector appended in the coalescing scenario: it starts where
`coalesce_last` ends. -/
def coalesce_src : evpl_bvec := { buffer := 1, data := 110, length := 20, eom := 0 }

/-- A 16-slot ring whose only entry is `coalesce_last`; `mem` is the content
of the array as allocated. -/
def coalesce_ring (mem : Nat → evpl_bvec) : evpl_bvec_ring :=
  (evpl_bvec_ring_add zero_mem (evpl_bvec_ring_alloc default mem 16 64) coalesce_last 0).1

/-! ## Consuming bytes from the tail -/

/-- The function `evpl_bvec_ring_consume`.  Returns the ring and the byte vectors passed to
`evpl_bvec_release`, in call order; `fuel` bounds the number of loop
iterations and `none` means the bound was hit. -/
def evpl_bvec_ring_consume : Nat → evpl_bvec_ring → Nat →
    Option (evpl_bvec_ring × List evpl_bvec)
  | fuel, ring, length =>
    if length > 0 ∧ ring.tail ≠ ring.head then
      match fuel with
      | 0 => none
      | fuel + 1 =>
        let bvec := ring.bvec ring.tail
        if bvec.length ≤ length then
          (evpl_bvec_ring_consume fuel
              { ring with tail := (ring.tail + 1) &&& ring.mask }
              (length - bvec.length)).map
            (fun r => (r.1, bvec :: r.2))
        else
          evpl_bvec_ring_consume fuel
            { ring with
              bvec := Function.update ring.bvec ring.tail
                { bvec with data := bvec.data + length, length := bvec.length - length } }
            0
    else some (ring, [])

/-- The `n` bytes of `memory` starting at address `addr`. -/
def read_bytes (memory : Nat → Nat) : Nat → Nat → List Nat
  | _, 0 => []
  | addr, n + 1 => memory addr :: read_bytes memory (addr + 1) n

/-- The bytes a list of byte vectors denotes, concatenated in order. -/
def bvecs_content (memory : Nat → Nat) : List evpl_bvec → List Nat
  | [] => []
  | b :: l => read_bytes memory b.data b.length ++ bvecs_content memory l

/-- The bytes held by a ring, from `tail` to `head`. -/
def ring_content (memory : Nat → Nat) (ring : evpl_bvec_ring) : List Nat :=
  bvecs_content memory (ring_entries ring)

/-- The total number of bytes held by a ring. -/
def ring_bytes (ring : evpl_bvec_ring) : Nat :=
  bvec_bytes (ring_entries ring)

/-- The consume loop on the list of entries: what stays and what is
released. -/
def consume_list : List evpl_bvec → Nat → List evpl_bvec × List evpl_bvec
  | [], _ => ([], [])
  | b :: l, n =>
    if n = 0 then (b :: l, [])
    else if b.length ≤ n then
      ((consume_list l (n - b.length)).1, b :: (consume_list l (n - b.length)).2)
    else ({ b with data := b.data + n, length := b.length - n } :: l, [])

/-! ## Clearing a ring, and mixed call sequences -/

/-- The function `evpl_bvec_ring_clear`.  Returns the ring and the byte vectors passed to
`evpl_bvec_release`, in call order; `fuel` bounds the number of loop
iterations and `none` means the bound was hit. -/
def evpl_bvec_ring_clear : Nat → evpl_bvec_ring → Option (evpl_bvec_ring × List evpl_bvec)
  | fuel, ring =>
    if ring.tail ≠ ring.head then
      match fuel with
      | 0 => none
      | fuel + 1 =>
        let bvec := ring.bvec ring.tail
        (evpl_bvec_ring_clear fuel { ring with tail := (ring.tail + 1) &&& ring.mask }).map
          (fun r => (r.1, bvec :: r.2))
    else some ({ ring with head := 0, tail := 0 }, [])

/-- Modelled from the spec: `evpl_bvec_release` is declared in `core/evpl.h`
and defined outside `buffer.h`.  Spec 4.A: release decrements the underlying
buffer's refcount and, if zero, returns it to its pool; it aborts (`none`) on
a byte vector whose buffer refcount is already zero. -/
def evpl_bvec_release (bufs : evpl_buffers) (bvec : evpl_bvec) : Option evpl_buffers :=
  if bufs.refcnt bvec.buffer = 0 then none
  else some (evpl_buffer_release bufs bvec.buffer)

/-- The releases of a list of byte vectors, in order. -/
def release_all (bufs : evpl_buffers) : List evpl_bvec → Option evpl_buffers
  | [] => some bufs
  | b :: l => (evpl_bvec_release bufs b).bind (fun bufs => release_all bufs l)

/-- A call of the ring interface in a mixed sequence.  The loops of consume
and clear carry their iteration bound. -/
inductive ring_call where
  | add (mem : Nat → evpl_bvec) (bvec : evpl_bvec) (eom : Nat)
  | append (mem : Nat → evpl_bvec) (bvec : evpl_bvec) (length eom : Nat)
  | consume (fuel n : Nat)
  | clear (fuel : Nat)

/-- One call applied to the buffers and the ring; `none` when the call aborts
or hits its iteration bound. -/
def call_step (s : evpl_buffers × evpl_bvec_ring) :
    ring_call → Option (evpl_buffers × evpl_bvec_ring)
  | ring_call.add mem bvec eom => some (s.1, (evpl_bvec_ring_add mem s.2 bvec eom).1)
  | ring_call.append mem bvec length eom =>
    (evpl_bvec_ring_append mem s.1 s.2 bvec length eom).map (fun r => (r.1, r.2.1))
  | ring_call.consume fuel n =>
    (evpl_bvec_ring_consume fuel s.2 n).bind
      (fun r => (release_all s.1 r.2).map (fun bufs => (bufs, r.1)))
  | ring_call.clear fuel =>
    (evpl_bvec_ring_clear fuel s.2).bind
      (fun r => (release_all s.1 r.2).map (fun bufs => (bufs, r.1)))

/-- A sequence of calls applied to the buffers and the ring. -/
def call_run (s : evpl_buffers × evpl_bvec_ring) :
    List ring_call → Option (evpl_buffers × evpl_bvec_ring)
  | [] => some s
  | c :: cs => (call_step s c).bind (fun s => call_run s cs)

/-- A mixed call sequence on a fresh 4-slot ring: an add, an append, a
consume that releases one vector and eats into the next, a clear, an add. -/
def sample_calls : List ring_call :=
  [ring_call.add zero_mem (sample_bvec 3) 0, ring_call.append zero_mem (sample_bvec 5) 2 0,
   ring_call.consume 4 4, ring_call.clear 4, ring_call.add zero_mem (sample_bvec 6) 0]

/-! ## Export to scatter-gather descriptors -/

/-- A C `struct iovec`. -/
structure iovec where
  iov_base : Nat
  iov_len : Nat
deriving DecidableEq, Repr

/-- The value of a C `int` (32 bits, two's complement) that holds the integer
`x` reduced modulo `2^32`: the result of an addition on `int` as the machine
computes it. -/
def int_wrap (x : Int) : Int := (x + 2147483648) % 4294967296 - 2147483648

/-- The loop of `evpl_bvec_ring_iov`, from position `pos` with `left` more
descriptors allowed (`left = max_iov - niov`, so the test `niov < max_iov` is
`left > 0`) and the accumulator `int total`.  Returns the descriptors written
from `iov[niov]` on, and `total` on leaving the loop; `total += bvec->length`
is an addition on `int`. -/
def evpl_bvec_ring_iov_loop (ring : evpl_bvec_ring) (stop_on_eom : Nat) :
    Nat → Nat → Int → List iovec × Int
  | 0, _, total => ([], total)
  | left + 1, pos, total =>
    if pos ≠ ring.head then
      let bvec := ring.bvec pos
      let iov : iovec := { iov_base := bvec.data, iov_len := bvec.length }
      let total := int_wrap (total + (bvec.length : Int))
      if stop_on_eom ≠ 0 ∧ bvec.eom ≠ 0 then ([iov], total)
      else
        let r := evpl_bvec_ring_iov_loop ring stop_on_eom left ((pos + 1) &&& ring.mask) total
        (iov :: r.1, r.2)
    else ([], total)

/-- The function `evpl_bvec_ring_iov`: returns `niov`, the value stored in `*r_total`
(the `int total`, widened to `ssize_t`), and the descriptors written to
`iov[0 .. niov)`. -/
def evpl_bvec_ring_iov (max_iov : Int) (stop_on_eom : Nat) (ring : evpl_bvec_ring) :
    Nat × Int × List iovec :=
  let r := evpl_bvec_ring_iov_loop ring stop_on_eom max_iov.toNat ring.tail 0
  (r.1.length, r.2, r.1)

/-- The descriptor of a byte vector. -/
def bvec_iovec (b : evpl_bvec) : iovec :=
  { iov_base := b.data, iov_len := b.length }

/-- The entries the export loop takes from a list of entries. -/
def iov_list (stop_on_eom : Nat) : Nat → List evpl_bvec → List evpl_bvec
  | 0, _ => []
  | _ + 1, [] => []
  | left + 1, b :: l =>
    if stop_on_eom ≠ 0 ∧ b.eom ≠ 0 then [b] else b :: iov_list stop_on_eom left l

/-- A 4-slot ring with the three entries of lengths 3, 4, 5, the second one
carrying `eom`. -/
def three_ring : evpl_bvec_ring :=
  ring_run (evpl_bvec_ring_alloc default zero_mem 4 64)
    [ring_op.add zero_mem (sample_bvec 3) 0, ring_op.add zero_mem (sample_bvec 4) 1,
     ring_op.add zero_mem (sample_bvec 5) 0]

/-- A 4-slot ring with two entries, of 2147483647 bytes and of 1 byte, the
second one carrying `eom`. -/
def wide_ring : evpl_bvec_ring :=
  ring_run (evpl_bvec_ring_alloc default zero_mem 4 64)
    [ring_op.add zero_mem { buffer := 1, data := 4096, length := 2147483647, eom := 0 } 0,
     ring_op.add zero_mem { buffer := 2, data := 64, length := 1, eom := 0 } 1]

/-! ## Growth under repeated adds -/

/-- The ring after `n` adds; the `i`-th add has the arguments `f i`. -/
def ring_add_n (f : Nat → (Nat → evpl_bvec) × evpl_bvec × Nat) :
    Nat → evpl_bvec_ring → evpl_bvec_ring
  | 0, ring => ring
  | n + 1, ring =>
    (evpl_bvec_ring_add (f n).1 (ring_add_n f n ring) (f n).2.1 (f n).2.2).1

/-! ## The TCP handlers of `tcp.c`

`tcp.c` calls the ring through `evpl_iovec_ring_*`, the later names of the
`evpl_bvec_ring_*` interface; these functions, the deferral and event calls
and the flag macros are not part of `buffer.h`.  The ring of a bind is
represented by the queue of byte vectors it holds, tail first.  The calls a
handler makes to the runtime and to the user's notify callback are recorded,
in order, in a trace.  The user's callbacks act on the user's state
(`private_data`) only: they do not re-enter the runtime. -/

/-- Modelled from the spec: the ring of a bind as used by `tcp.c`
(`struct evpl_iovec_ring`), the queue of its byte vectors from tail to
head (spec 3, Iovec ring). -/
abbrev evpl_iovec_ring := List evpl_bvec

/-- Modelled from the spec: `evpl_iovec_ring_bytes`, the total length held by
the ring (spec 4.B, `bytes`). -/
def evpl_iovec_ring_bytes (ring : evpl_iovec_ring) : Nat :=
  bvec_bytes ring

/-- Modelled from the spec: `evpl_iovec_ring_is_empty`. -/
def evpl_iovec_ring_is_empty (ring : evpl_iovec_ring) : Bool :=
  ring.isEmpty

/-- Modelled from the spec: `evpl_iovec_ring_consume` (spec 4.B, `consume`):
whole vectors leave from the tail while their length is at most the rest of
`n`, the next one is advanced and shrunk. -/
def evpl_iovec_ring_consume (ring : evpl_iovec_ring) (n : Nat) : evpl_iovec_ring :=
  (consume_list ring n).1

/-- Modelled from the spec: `evpl_iovec_ring_copyv` (spec 4.F, "copy out `n`
bytes into a scratch iovec array"): the first `length` bytes leave the ring;
returns the number of vectors written to the scratch array and the ring. -/
def evpl_iovec_ring_copyv (ring : evpl_iovec_ring) (length : Nat) : Nat × evpl_iovec_ring :=
  ((consume_list ring length).2.length +
      (if bvec_bytes (consume_list ring length).2 < min length (bvec_bytes ring) then 1 else 0),
    (consume_list ring length).1)

/-- Modelled from the spec: `evpl_iovec_ring_iov` as called by `tcp.c`
(spec 4.B, `iov`): the descriptors of the first `max_iov` vectors; returns
`niov`, `*r_total` and the descriptors. -/
def evpl_iovec_ring_iov (max_iov : Int) (ring : evpl_iovec_ring) : Nat × Nat × List iovec :=
  ((ring.take max_iov.toNat).length, bvec_bytes (ring.take max_iov.toNat),
    (ring.take max_iov.toNat).map bvec_iovec)

/-- Modelled from the spec: `evpl_iovec_ring_append` as called by `tcp.c`
(spec 4.B, `append`): extends the last vector when it is non-eom and ends
where `iovec` starts, else adds a vector of `length` bytes; the source is
advanced.  Returns the ring and the source. -/
def evpl_iovec_ring_append (ring : evpl_iovec_ring) (iovec : evpl_bvec) (length : Nat) :
    evpl_iovec_ring × evpl_bvec :=
  ((match ring.getLast? with
    | some h =>
      if h.eom = 0 ∧ h.data + h.length = iovec.data then
        ring.dropLast ++ [{ h with length := h.length + length }]
      else ring ++ [{ iovec with length := length, eom := 0 }]
    | none => ring ++ [{ iovec with length := length, eom := 0 }]),
   { iovec with data := iovec.data + length, length := iovec.length - length })

/-- A notification passed to the notify callback (`struct evpl_notify`): its
type with the fields the handlers fill in. -/
inductive evpl_notify where
  | CONNECTED
  | RECV_DATA
  | RECV_MSG (niov : Nat) (length : Int)
  | SENT (bytes : Int) (msgs : Nat)
deriving DecidableEq, Repr

/-- A call made by a handler: `evpl_defer` on the close deferral of the bind,
the notify callback, `evpl_iovec_release` on a scratch vector, or one of the
event calls. -/
inductive tcp_action where
  | defer_close
  | notify (n : evpl_notify)
  | iovec_release
  | mark_unreadable
  | mark_unwritable
  | write_disinterest
deriving DecidableEq, Repr

/-- The part of `struct evpl_bind` the handlers use.  `sent_notify` and
`finish` are the tests `flags & EVPL_BIND_SENT_NOTIFY` and
`flags & EVPL_BIND_FINISH`. -/
structure evpl_bind (σ : Type) where
  sent_notify : Bool
  finish : Bool
  iovec_recv : evpl_iovec_ring
  iovec_send : evpl_iovec_ring
  segment_callback : Option (σ → evpl_iovec_ring → Int)
  notify_callback : σ → evpl_notify → σ
  private_data : σ

/-- The socket with its bind and the trace of the calls made so far. -/
structure tcp_state (σ : Type) where
  connected : Bool
  recv1 : evpl_bvec
  recv2 : evpl_bvec
  bind : evpl_bind σ
  trace : List tcp_action

/-- A call to the runtime, recorded. -/
def tcp_emit {σ : Type} (st : tcp_state σ) (a : tcp_action) : tcp_state σ :=
  { st with trace := st.trace ++ [a] }

/-- A call `bind->notify_callback(evpl, bind, &notify, bind->private_data)`. -/
def tcp_notify {σ : Type} (st : tcp_state σ) (n : evpl_notify) : tcp_state σ :=
  { st with
    bind := { st.bind with private_data := st.bind.notify_callback st.bind.private_data n },
    trace := st.trace ++ [tcp_action.notify n] }

/-- The value of `EAGAIN` (Linux). -/
def EAGAIN : Int := 11

/-- The value of `EWOULDBLOCK` (Linux, equal to `EAGAIN`). -/
def EWOULDBLOCK : Int := 11

/-- The function `evpl_check_conn`; `rc` and `err` are the result of `getsockopt` and the
`SO_ERROR` it reads.  `none` is the abort of `evpl_socket_fatal_if`. -/
def evpl_check_conn {σ : Type} (rc err : Int) (st : tcp_state σ) : Option (tcp_state σ) :=
  if st.connected = false then
    if rc ≠ 0 then none
    else
      let st := if err ≠ 0 then tcp_emit st tcp_action.defer_close
        else tcp_notify st evpl_notify.CONNECTED
      some { st with connected := true }
  else some st

/-- The conversion of a C `int` to `uint64_t` made by the usual arithmetic
conversions when the two are compared: a negative value `v` becomes
`v + 2^64`, a non-negative one is kept (`v mod 2^64` for every value of an
`int`). -/
def int_to_uint64 (v : Int) : Int := if v < 0 then v + 18446744073709551616 else v

/-- The segmentation loop of `evpl_socket_tcp_read` (`while (1)`), with the
installed segment callback `seg`; both exits of the loop lead to the label
`out`.  `fuel` bounds the number of calls of the segment callback and `none`
means the bound was hit.  The byte total of a ring is a `uint64_t`
(`struct evpl_bvec_ring`, field `length`), so in
`evpl_iovec_ring_bytes(...) < length` the `int length` is converted to
`uint64_t`. -/
def evpl_socket_tcp_read_segment {σ : Type} (seg : σ → evpl_iovec_ring → Int) :
    Nat → tcp_state σ → Option (tcp_state σ)
  | 0, _ => none
  | fuel + 1, st =>
    let length := seg st.bind.private_data st.bind.iovec_recv
    if length = 0 ∨ (evpl_iovec_ring_bytes st.bind.iovec_recv : Int) < int_to_uint64 length then
      some st
    else if length < 0 then some (tcp_emit st tcp_action.defer_close)
    else
      let r := evpl_iovec_ring_copyv st.bind.iovec_recv length.toNat
      let st := { st with bind := { st.bind with iovec_recv := r.2 } }
      let st := tcp_notify st (evpl_notify.RECV_MSG r.1 length)
      let st := { st with trace := st.trace ++ List.replicate r.1 tcp_action.iovec_release }
      evpl_socket_tcp_read_segment seg fuel st

/-- The inputs of one run of the read handler: the results of `getsockopt`,
of the two `evpl_iovec_alloc_whole` calls and of `readv` (with `errno`). -/
structure read_env where
  rc : Int
  so_error : Int
  fresh1 : evpl_bvec
  fresh2 : evpl_bvec
  res : Int
  errno : Int

/-- The function `evpl_socket_tcp_read`. -/
def evpl_socket_tcp_read {σ : Type} (fuel : Nat) (env : read_env) (st : tcp_state σ) :
    Option (tcp_state σ) :=
  (evpl_check_conn env.rc env.so_error st).bind fun st =>
  let st :=
    if st.recv1.length = 0 then
      if st.recv2.length ≠ 0 then
        { st with recv1 := st.recv2, recv2 := { st.recv2 with length := 0 } }
      else { st with recv1 := env.fresh1 }
    else st
  let st := if st.recv2.length = 0 then { st with recv2 := env.fresh2 } else st
  let total : Int := (st.recv1.length : Int) + (st.recv2.length : Int)
  let res := env.res
  let body : Option (tcp_state σ) :=
    if res < 0 then
      some (if env.errno ≠ EAGAIN ∧ env.errno ≠ EWOULDBLOCK
        then tcp_emit st tcp_action.defer_close else st)
    else if res = 0 then some (tcp_emit st tcp_action.defer_close)
    else
      let st :=
        if (st.recv1.length : Int) ≥ res then
          let r := evpl_iovec_ring_append st.bind.iovec_recv st.recv1 res.toNat
          { st with bind := { st.bind with iovec_recv := r.1 }, recv1 := r.2 }
        else
          let remain := res - (st.recv1.length : Int)
          let r1 := evpl_iovec_ring_append st.bind.iovec_recv st.recv1 st.recv1.length
          let r2 := evpl_iovec_ring_append r1.1 st.recv2 remain.toNat
          { st with bind := { st.bind with iovec_recv := r2.1 }, recv1 := r1.2, recv2 := r2.2 }
      match st.bind.segment_callback with
      | some seg => evpl_socket_tcp_read_segment seg fuel st
      | none => some (tcp_notify st evpl_notify.RECV_DATA)
  body.map fun st => if res < total then tcp_emit st tcp_action.mark_unreadable else st

/-- The inputs of one run of the write handler: the results of `getsockopt`,
the configured `max_num_iovec`, and the result of `writev` (with `errno`). -/
structure write_env where
  rc : Int
  so_error : Int
  maxiov : Int
  res : Int
  errno : Int

/-- The part of `evpl_socket_tcp_write` between `evpl_iovec_ring_iov` and the
label `out`: returns `res` and the state on arrival at `out`. -/
def tcp_write_body {σ : Type} (env : write_env) (niov : Nat) (total : Int)
    (st : tcp_state σ) : Int × tcp_state σ :=
  if niov = 0 then (0, st)
  else
    let res := env.res
    if res < 0 then
      (res, if env.errno ≠ EAGAIN ∧ env.errno ≠ EWOULDBLOCK
        then tcp_emit st tcp_action.defer_close else st)
    else if res = 0 then (res, tcp_emit st tcp_action.defer_close)
    else
      let st := { st with
        bind := { st.bind with
          iovec_send := evpl_iovec_ring_consume st.bind.iovec_send res.toNat } }
      let st := if res ≠ total then tcp_emit st tcp_action.mark_unwritable else st
      let st := if res ≠ 0 ∧ st.bind.sent_notify = true
        then tcp_notify st (evpl_notify.SENT res 0) else st
      (res, st)

/-- The part of `evpl_socket_tcp_write` from the label `out` on. -/
def tcp_write_out {σ : Type} (res total : Int) (st : tcp_state σ) : tcp_state σ :=
  let st :=
    if evpl_iovec_ring_is_empty st.bind.iovec_send then
      let st := tcp_emit st tcp_action.write_disinterest
      if st.bind.finish = true then tcp_emit st tcp_action.defer_close else st
    else st
  if res ≠ total then tcp_emit st tcp_action.mark_unwritable else st

/-- The function `evpl_socket_tcp_write`. -/
def evpl_socket_tcp_write {σ : Type} (env : write_env) (st : tcp_state σ) :
    Option (tcp_state σ) :=
  (evpl_check_conn env.rc env.so_error st).map fun st =>
  let r := evpl_iovec_ring_iov env.maxiov st.bind.iovec_send
  let niov := r.1
  let total : Int := (r.2.1 : Int)
  let p := tcp_write_body env niov total st
  tcp_write_out p.1 total p.2

/-- The notifications of a trace, in order. -/
def notify_list : List tcp_action → List evpl_notify
  | [] => []
  | tcp_action.notify n :: l => n :: notify_list l
  | _ :: l => notify_list l

/-- The `recv_msg.length` of a `RECV_MSG` notification. -/
def recv_msg_length : evpl_notify → Option Int
  | evpl_notify.RECV_MSG _ length => some length
  | _ => none

/-- The `sent.bytes` of a `SENT` notification, 0 for the other types. -/
def sent_bytes : evpl_notify → Int
  | evpl_notify.SENT bytes _ => bytes
  | _ => 0

/-- The concatenation of a list of frames. -/
def frames_concat : List (List Nat) → List Nat
  | [] => []
  | f :: fs => f ++ frames_concat fs

/-- A connected socket without user state, with the given segment callback
and receive ring. -/
def sample_state (seg : Option (Unit → evpl_iovec_ring → Int)) (recv send : evpl_iovec_ring)
    (sent_notify finish : Bool) : tcp_state Unit :=
  { connected := true, recv1 := default, recv2 := default,
    bind := { sent_notify := sent_notify, finish := finish, iovec_recv := recv,
              iovec_send := send, segment_callback := seg,
              notify_callback := fun _ _ => (), private_data := () },
    trace := [] }

/-- A segment callback for the five frames of lengths 1, 37, 1024, 1, 65500:
it tells the frame at the front from the number of bytes left. -/
def five_frames_seg : Unit → evpl_iovec_ring → Int := fun _ ring =>
  if evpl_iovec_ring_bytes ring = 66563 then 1
  else if evpl_iovec_ring_bytes ring = 66562 then 37
  else if evpl_iovec_ring_bytes ring = 66525 then 1024
  else if evpl_iovec_ring_bytes ring = 65501 then 1
  else if evpl_iovec_ring_bytes ring = 65500 then 65500
  else 0

/-- The five frames, all bytes zero. -/
def five_frames : List (List Nat) :=
  [List.replicate 1 0, List.replicate 37 0, List.replicate 1024 0, List.replicate 1 0,
   List.replicate 65500 0]

/-- A connected socket whose receive ring holds one vector of 66563 bytes
(the five frames, read by a single `readv`). -/
def five_frames_state : tcp_state Unit :=
  sample_state (some five_frames_seg)
    [{ buffer := 0, data := 0, length := 66563, eom := 0 }] [] false false

/-- Whether a notification is a `SENT`. -/
def is_sent : evpl_notify → Bool
  | evpl_notify.SENT _ _ => true
  | _ => false

/-- The bind after the application has queued the vectors `enq` on the send
ring. -/
def tcp_enqueue {σ : Type} (st : tcp_state σ) (enq : evpl_iovec_ring) : tcp_state σ :=
  { st with bind := { st.bind with iovec_send := st.bind.iovec_send ++ enq } }

/-- A sequence of runs of the write handler; before each run the application
queues some vectors on the send ring.  Returns the final state and the number
of bytes the runs removed from the send ring. -/
def write_run {σ : Type} : List (evpl_iovec_ring × write_env) → tcp_state σ →
    Option (tcp_state σ × Int)
  | [], st => some (st, 0)
  | step :: steps, st =>
    (evpl_socket_tcp_write step.2 (tcp_enqueue st step.1)).bind fun st1 =>
      (write_run steps st1).map fun r =>
        (r.1, ((evpl_iovec_ring_bytes (tcp_enqueue st step.1).bind.iovec_send : Int) -
            (evpl_iovec_ring_bytes st1.bind.iovec_send : Int)) + r.2)

/-- The system calls of a run behave: `getsockopt` succeeds where it is
called, and `writev` returns at most the number of bytes it was given. -/
def write_run_ok {σ : Type} : List (evpl_iovec_ring × write_env) → tcp_state σ → Bool
  | [], _ => true
  | step :: steps, st =>
    (decide ((tcp_enqueue st step.1).connected = true ∨ step.2.rc = 0) &&
      decide (step.2.res ≤
        ((evpl_iovec_ring_iov step.2.maxiov (tcp_enqueue st step.1).bind.iovec_send).2.1 : Int))) &&
    (match evpl_socket_tcp_write step.2 (tcp_enqueue st step.1) with
     | some st1 => write_run_ok steps st1
     | none => false)

/-- A run of the write handler on a connected socket: at most 8 descriptors,
`writev` writes `res` bytes. -/
def sample_write_env (res : Int) : write_env :=
  { rc := 0, so_error := 0, maxiov := 8, res := res, errno := 0 }

/-- A connected bind with `SENT_NOTIFY` set whose send ring holds 5 and 6
bytes. -/
def sent_state : tcp_state Unit :=
  sample_state none [] [sample_bvec 5, sample_bvec 6] true false

/-- Two runs of the write handler, each with a `writev` of 7 bytes; 3 more
bytes are queued before the second run. -/
def sent_steps : List (evpl_iovec_ring × write_env) :=
  [([], sample_write_env 7), ([sample_bvec 3], sample_write_env 7)]

/-- A run of the read handler on a connected socket: two fresh 100-byte
buffers, `readv` reads `res` bytes. -/
def sample_read_env (res : Int) : read_env :=
  { rc := 0, so_error := 0,
    fresh1 := { buffer := 1, data := 1000, length := 100, eom := 0 },
    fresh2 := { buffer := 2, data := 2000, length := 100, eom := 0 },
    res := res, errno := 0 }

/-! ## Aborts -/

/-- The way a call ends: it returns, or the process is aborted inside it.
Either way the state reached is kept. -/
inductive call_outcome (α : Type) where
  | returned (s : α)
  | aborted (s : α)

/-- Modelled from the spec: the macro `evpl_core_abort_if(cond, ...)` of
`core/internal.h`, a fatal abort of the process when `cond` holds (spec 4.A
and 7, "fatal abort with diagnostic"); otherwise execution goes on. -/
def evpl_core_abort_if {α : Type} (cond : Bool) (s : α) : call_outcome α :=
  if cond then call_outcome.aborted s else call_outcome.returned s

/-- The function `evpl_bvec_decref`, statement by statement: the abort test on
`buffer->refcnt == 0`, then `evpl_buffer_release(evpl, buffer)`. -/
def evpl_bvec_decref_outcome (bufs : evpl_buffers) (bvec : evpl_bvec) :
    call_outcome evpl_buffers :=
  match evpl_core_abort_if (decide (bufs.refcnt bvec.buffer = 0)) bufs with
  | call_outcome.aborted s => call_outcome.aborted s
  | call_outcome.returned s => call_outcome.returned (evpl_buffer_release s bvec.buffer)

/-- The state a call returned with, `none` after an abort. -/
def call_outcome.result {α : Type} : call_outcome α → Option α
  | call_outcome.returned s => some s
  | call_outcome.aborted _ => none

/-- Buffers in which buffer 1 has two references and buffer 2 none. -/
def two_buffers : evpl_buffers :=
  { refcnt := fun b => if b = 1 then 2 else 0, released := [], pool := [] }

/-! ## Stages of the read handler -/

/-- The state of `evpl_socket_tcp_read` once `recv1` and `recv2` are ready
(the two `if` statements after `evpl_check_conn`). -/
def tcp_read_buffers {σ : Type} (env : read_env) (st : tcp_state σ) : tcp_state σ :=
  let st :=
    if st.recv1.length = 0 then
      if st.recv2.length ≠ 0 then
        { st with recv1 := st.recv2, recv2 := { st.recv2 with length := 0 } }
      else { st with recv1 := env.fresh1 }
    else st
  if st.recv2.length = 0 then { st with recv2 := env.fresh2 } else st

/-- The state of `evpl_socket_tcp_read` after the `res > 0` bytes read were
appended to the receive ring. -/
def tcp_read_appended {σ : Type} (env : read_env) (st : tcp_state σ) : tcp_state σ :=
  if (st.recv1.length : Int) ≥ env.res then
    let r := evpl_iovec_ring_append st.bind.iovec_recv st.recv1 env.res.toNat
    { st with bind := { st.bind with iovec_recv := r.1 }, recv1 := r.2 }
  else
    let remain := env.res - (st.recv1.length : Int)
    let r1 := evpl_iovec_ring_append st.bind.iovec_recv st.recv1 st.recv1.length
    let r2 := evpl_iovec_ring_append r1.1 st.recv2 remain.toNat
    { st with bind := { st.bind with iovec_recv := r2.1 }, recv1 := r1.2, recv2 := r2.2 }

/-- The `recv_msg.length` of a `RECV_MSG` notification, 0 for the other
types. -/
def recv_msg_bytes : evpl_notify → Int
  | evpl_notify.RECV_MSG _ length => length
  | _ => 0

/-- A segment callback that asks for 3 bytes while the ring holds more than
4, then for 5. -/
def greedy_seg : Unit → evpl_iovec_ring → Int := fun _ ring =>
  if 4 < evpl_iovec_ring_bytes ring then 3 else 5

/-! ## Sequences of handler runs on a bind -/

/-- What happens to a bind, one step at a time: a run of the read handler, a
run of the write handler, or an action of the application on the bind between
two runs (queueing data, setting flags, changing the user's state). -/
inductive tcp_call (σ : Type) where
  | read (fuel : Nat) (env : read_env)
  | write (env : write_env)
  | app (f : evpl_bind σ → evpl_bind σ)

/-- One step applied to the socket; `none` when the handler aborts or hits
its iteration bound. -/
def tcp_call_step {σ : Type} (st : tcp_state σ) : tcp_call σ → Option (tcp_state σ)
  | tcp_call.read fuel env => evpl_socket_tcp_read fuel env st
  | tcp_call.write env => evpl_socket_tcp_write env st
  | tcp_call.app f => some { st with bind := f st.bind }

/-- A sequence of steps applied to the socket. -/
def tcp_run {σ : Type} : List (tcp_call σ) → tcp_state σ → Option (tcp_state σ)
  | [], st => some st
  | c :: cs, st => (tcp_call_step st c).bind fun st1 => tcp_run cs st1

/-- The `SO_ERROR` read by the first handler run of the sequence is 0. -/
def first_so_error_zero {σ : Type} : List (tcp_call σ) → Bool
  | [] => true
  | tcp_call.read _ env :: _ => decide (env.so_error = 0)
  | tcp_call.write env :: _ => decide (env.so_error = 0)
  | tcp_call.app _ :: cs => first_so_error_zero cs

/-- The socket of a bind just created by `evpl_socket_tcp_connect`: not yet
marked connected (`evpl_socket_init` is called with 0), nothing notified. -/
def connect_state (seg : Option (Unit → evpl_iovec_ring → Int)) (send : evpl_iovec_ring)
    (sent_notify : Bool) : tcp_state Unit :=
  { sample_state seg [] send sent_notify false with connected := false }

/-! ## References held on a buffer -/

/-- The test of the first branch of `evpl_bvec_ring_append`:
`head && !head->eom && head->data + head->length == append->data`, with
`head` the result of `evpl_bvec_ring_head`. -/
def append_coalesces (ring : evpl_bvec_ring) (append : evpl_bvec) : Bool :=
  match evpl_bvec_ring_head ring with
  | some h =>
    decide ((ring.bvec h).eom = 0 ∧ (ring.bvec h).data + (ring.bvec h).length = append.data)
  | none => false

/-- The number of live byte vectors that reference buffer `B`: the entries of
the ring, plus the source vector while its length is not 0. -/
def live_refs (entries : List evpl_bvec) (src : evpl_bvec) (B : Nat) : Int :=
  ((entries.filter (fun e => decide (e.buffer = B))).length : Int) +
    (if src.length ≠ 0 ∧ src.buffer = B then 1 else 0)

/-- A 4-slot ring with the single entry `coalesce_last` (buffer 1). -/
def one_ring : evpl_bvec_ring :=
  (evpl_bvec_ring_add zero_mem (evpl_bvec_ring_alloc default zero_mem 4 64) coalesce_last 0).1

/-- Buffers in which buffer 1 has two references (the entry of `one_ring` and
a source vector) and the others none. -/
def one_ring_buffers : evpl_buffers :=
  { refcnt := fun b => if b = 1 then 2 else 0, released := [], pool := [] }

/-! ## Traversal with `evpl_bvec_ring_tail` and `evpl_bvec_ring_next` -/

/-- The slots handed out by repeated calls of `evpl_bvec_ring_next`, starting
from the pointer `cur`, until NULL is returned; `fuel` bounds the number of
slots. -/
def ring_next_walk (ring : evpl_bvec_ring) : Nat → Option Nat → List Nat
  | 0, _ => []
  | _ + 1, none => []
  | fuel + 1, some cur => cur :: ring_next_walk ring fuel (evpl_bvec_ring_next ring cur)

/-- The traversal `for (p = evpl_bvec_ring_tail(ring); p; p = evpl_bvec_ring_next(ring, p))`:
the slots visited, in order. -/
def ring_traverse (ring : evpl_bvec_ring) (fuel : Nat) : List Nat :=
  ring_next_walk ring fuel (evpl_bvec_ring_tail ring)

/-- A 2-slot ring after add, remove, add: `tail = 1`, `head = 0`, the single
entry `sample_bvec 2` in slot 1, and slot 0 still holding the removed entry
`coalesce_last`. -/
def stale_ring : evpl_bvec_ring :=
  (evpl_bvec_ring_add zero_mem
    (evpl_bvec_ring_remove
      (evpl_bvec_ring_add zero_mem (evpl_bvec_ring_alloc default zero_mem 2 64)
        coalesce_last 0).1)
    (sample_bvec 2) 0).1

/-! # Theorems -/

/-! ## Arithmetic of ring indices -/

theorem mask_mod {ring : evpl_bvec_ring} (h : ring_wf ring) (x : Nat) :
    x &&& ring.mask = x % ring.size := by
  obtain ⟨⟨k, hk⟩, hm, _, _⟩ := h
  rw [hm, hk, Nat.and_pow_two_sub_one_eq_mod]

theorem wf_size_pos {ring : evpl_bvec_ring} (h : ring_wf ring) : 1 ≤ ring.size := by
  have := h.2.2.2
  omega

theorem mod_add_inj {s a i j : Nat} (hi : i < s) (hj : j < s)
    (h : (a + i) % s = (a + j) % s) : i = j := by
  have h2 : i ≡ j [MOD s] := Nat.ModEq.add_left_cancel' a h
  unfold Nat.ModEq at h2
  rwa [Nat.mod_eq_of_lt hi, Nat.mod_eq_of_lt hj] at h2

theorem succ_mod_cases {s x : Nat} (hx : x < s) :
    (x + 1 < s ∧ (x + 1) % s = x + 1) ∨ (x + 1 = s ∧ (x + 1) % s = 0) := by
  rcases Nat.lt_or_ge (x + 1) s with h | h
  · exact Or.inl ⟨h, Nat.mod_eq_of_lt h⟩
  · have : x + 1 = s := by omega
    exact Or.inr ⟨this, by rw [this, Nat.mod_self]⟩

theorem add_mod_cases {s t i : Nat} (ht : t < s) (hi : i < s) :
    (t + i < s ∧ (t + i) % s = t + i) ∨ (s ≤ t + i ∧ (t + i) % s = t + i - s) := by
  rcases Nat.lt_or_ge (t + i) s with h | h
  · exact Or.inl ⟨h, Nat.mod_eq_of_lt h⟩
  · refine Or.inr ⟨h, ?_⟩
    rw [Nat.mod_eq_sub_mod h, Nat.mod_eq_of_lt (by omega)]

/-! ## The walk reads the represented list -/

theorem ring_walk_repr {ring : evpl_bvec_ring} {l : List evpl_bvec}
    (h : ring_repr ring l) :
    ∀ (d j fuel : Nat), j + d = l.length → d ≤ fuel →
      ring_walk ring fuel ((ring.tail + j) % ring.size) = l.drop j := by
  intro d
  induction d with
  | zero =>
    intro j fuel hj _
    have hjl : j = l.length := by omega
    subst hjl
    rw [List.drop_length]
    cases fuel with
    | zero => rfl
    | succ f => simp [ring_walk, h.2.2.1]
  | succ d ih =>
    intro j fuel hj hf
    obtain ⟨f, rfl⟩ : ∃ f, fuel = f + 1 := ⟨fuel - 1, by omega⟩
    have hjl : j < l.length := by omega
    have hne : (ring.tail + j) % ring.size ≠ ring.head := by
      rw [h.2.2.1]
      intro he
      have := mod_add_inj (by have := h.2.1; omega) h.2.1 he
      omega
    rw [ring_walk, if_neg hne, mask_mod h.1, Nat.mod_add_mod, h.2.2.2 j hjl,
      Nat.add_assoc, ih (j + 1) f (by omega) (by omega)]
    exact (List.drop_eq_getElem_cons hjl).symm

theorem ring_entries_repr {ring : evpl_bvec_ring} {l : List evpl_bvec}
    (h : ring_repr ring l) : ring_entries ring = l := by
  have := ring_walk_repr h l.length 0 ring.size (by omega) (Nat.le_of_lt h.2.1)
  rw [Nat.add_zero, Nat.mod_eq_of_lt h.1.2.2.2] at this
  simpa [ring_entries] using this

/-! ## The operations on represented rings -/

theorem alloc_repr (ring : evpl_bvec_ring) (mem : Nat → evpl_bvec) (k alignment : Nat) :
    ring_repr (evpl_bvec_ring_alloc ring mem (2 ^ k) alignment) [] := by
  have hpos : 0 < 2 ^ k := Nat.two_pow_pos k
  refine ⟨⟨⟨k, rfl⟩, rfl, hpos, hpos⟩, hpos, ?_, ?_⟩
  · simp [evpl_bvec_ring_alloc]
  · intro i h
    exact absurd h (Nat.not_lt_zero i)

theorem is_full_iff {ring : evpl_bvec_ring} {l : List evpl_bvec} (h : ring_repr ring l) :
    evpl_bvec_ring_is_full ring = true ↔ l.length + 1 = ring.size := by
  obtain ⟨hwf, hlen, hhead, _⟩ := h
  have h2 := wf_size_pos hwf
  have ht := hwf.2.2.2
  unfold evpl_bvec_ring_is_full
  rw [decide_eq_true_iff, mask_mod hwf, hhead, Nat.mod_add_mod]
  constructor
  · intro he
    by_contra hne
    have hlt : l.length + 1 < ring.size := by omega
    have h0 : (ring.tail + (l.length + 1)) % ring.size = (ring.tail + 0) % ring.size := by
      simpa [Nat.add_assoc, Nat.mod_eq_of_lt ht] using he
    have := mod_add_inj hlt (by omega) h0
    omega
  · intro he
    rw [Nat.add_assoc, he, Nat.add_mod_right, Nat.mod_eq_of_lt ht]

theorem resize_repr {ring : evpl_bvec_ring} {l : List evpl_bvec} (mem : Nat → evpl_bvec)
    (h : ring_repr ring l) (hfull : l.length + 1 = ring.size) :
    ring_repr (evpl_bvec_ring_resize mem ring) l ∧
      (evpl_bvec_ring_resize mem ring).size = 2 * ring.size ∧
      (evpl_bvec_ring_resize mem ring).tail = 0 := by
  obtain ⟨hwf, hlen, hhead, hget⟩ := h
  have h2 := wf_size_pos hwf
  obtain ⟨⟨k, hk⟩, hm, hh, ht⟩ := hwf
  have hsz : (evpl_bvec_ring_resize mem ring).size = 2 * ring.size := by
    simp [evpl_bvec_ring_resize, Nat.shiftLeft_eq, Nat.mul_comm]
  refine ⟨⟨⟨⟨k + 1, ?_⟩, ?_, ?_, ?_⟩, ?_, ?_, ?_⟩, hsz, rfl⟩
  · rw [hsz, hk, Nat.pow_succ, Nat.mul_comm]
  · simp [evpl_bvec_ring_resize]
  · rw [hsz]; simp [evpl_bvec_ring_resize]; omega
  · rw [hsz]; simp [evpl_bvec_ring_resize]; omega
  · rw [hsz]; omega
  · rw [hsz]
    have : (evpl_bvec_ring_resize mem ring).head = ring.size - 1 := rfl
    rw [this]
    have : (evpl_bvec_ring_resize mem ring).tail = 0 := rfl
    rw [this, Nat.zero_add, Nat.mod_eq_of_lt (by omega)]
    omega
  · intro i hi
    rw [hsz]
    have : (evpl_bvec_ring_resize mem ring).tail = 0 := rfl
    rw [this, Nat.zero_add, Nat.mod_eq_of_lt (by omega), ← hget i hi]
    have hhd : ring.head = (ring.tail + (ring.size - 1)) % ring.size := by
      rw [hhead]; congr 2; omega
    have his : i < ring.size := by omega
    simp only [evpl_bvec_ring_resize]
    by_cases hgt : ring.head > ring.tail
    · rw [if_pos hgt]
      have ht0 : ring.tail = 0 := by
        rcases add_mod_cases ht (show ring.size - 1 < ring.size by omega) with ⟨_, he⟩ | ⟨_, he⟩
        · rw [he] at hhd; omega
        · rw [he] at hhd; omega
      have hh1 : ring.head = ring.size - 1 := by
        rw [hhd, ht0, Nat.zero_add, Nat.mod_eq_of_lt (by omega)]
      simp only [memcpy]
      rw [if_pos (by omega), ht0, Nat.zero_add, Nat.zero_add, Nat.sub_zero,
        Nat.mod_eq_of_lt his]
    · rw [if_neg hgt]
      have hh1 : ring.head + 1 = ring.tail := by
        rcases add_mod_cases ht (show ring.size - 1 < ring.size by omega) with ⟨_, he⟩ | ⟨_, he⟩
        · rw [he] at hhd; omega
        · rw [he] at hhd; omega
      simp only [memcpy]
      rcases add_mod_cases ht his with ⟨hlt, he⟩ | ⟨hge, he⟩
      · rw [if_neg (by omega), if_pos (by omega), he, Nat.sub_zero]
      · rw [if_pos (by omega), he, Nat.zero_add]
        congr 1
        omega

theorem add_repr {ring : evpl_bvec_ring} {l : List evpl_bvec} (mem : Nat → evpl_bvec)
    (bvec : evpl_bvec) (eom : Nat) (h : ring_repr ring l) :
    ring_repr (evpl_bvec_ring_add mem ring bvec eom).1 (l ++ [{ bvec with eom := eom }]) := by
  have key : ∀ r : evpl_bvec_ring, ring_repr r l → l.length + 1 < r.size →
      ring_repr
        { r with
          bvec := Function.update r.bvec r.head { bvec with eom := eom },
          head := (r.head + 1) &&& r.mask } (l ++ [{ bvec with eom := eom }]) := by
    intro r hr hroom
    obtain ⟨hwf, hlen, hhead, hget⟩ := hr
    have hmm := mask_mod hwf (r.head + 1)
    obtain ⟨hpow, hm, hh, ht⟩ := hwf
    refine ⟨⟨hpow, hm, ?_, ht⟩, ?_, ?_, ?_⟩
    · show (r.head + 1) &&& r.mask < r.size
      rw [hmm]
      exact Nat.mod_lt _ (by omega)
    · simpa using hroom
    · show (r.head + 1) &&& r.mask = _
      rw [hmm, hhead, Nat.mod_add_mod]
      simp [Nat.add_assoc]
    · intro i hi
      show Function.update r.bvec r.head _ ((r.tail + i) % r.size) = _
      simp only [List.length_append, List.length_singleton] at hi
      by_cases hil : i < l.length
      · have hne : (r.tail + i) % r.size ≠ r.head := by
          rw [hhead]
          intro he
          have := mod_add_inj (by omega) hlen he
          omega
        rw [Function.update_noteq hne, hget i hil, List.getElem_append_left hil]
      · have hil2 : i = l.length := by omega
        subst hil2
        rw [← hhead, Function.update_same]
        simp
  unfold evpl_bvec_ring_add
  by_cases hf : evpl_bvec_ring_is_full ring = true
  · have hfull := (is_full_iff h).1 hf
    obtain ⟨hr, hsz, _⟩ := resize_repr mem h hfull
    simp only [hf, if_true]
    exact key _ hr (by rw [hsz]; have := wf_size_pos h.1; omega)
  · have hnf : ¬ l.length + 1 = ring.size := fun he => hf ((is_full_iff h).2 he)
    simp only [hf, Bool.false_eq_true, if_false]
    exact key _ h (by have := h.2.1; omega)

theorem remove_repr {ring : evpl_bvec_ring} {a : evpl_bvec} {l : List evpl_bvec}
    (h : ring_repr ring (a :: l)) : ring_repr (evpl_bvec_ring_remove ring) l := by
  obtain ⟨hwf, hlen, hhead, hget⟩ := h
  have hmm := mask_mod hwf (ring.tail + 1)
  obtain ⟨hpow, hm, hh, ht⟩ := hwf
  simp only [List.length_cons] at hlen hhead
  refine ⟨⟨hpow, hm, hh, ?_⟩, ?_, ?_, ?_⟩
  · show (ring.tail + 1) &&& ring.mask < ring.size
    rw [hmm]
    exact Nat.mod_lt _ (by omega)
  · show l.length < ring.size
    omega
  · show ring.head = (((ring.tail + 1) &&& ring.mask) + l.length) % ring.size
    rw [hmm, Nat.mod_add_mod, hhead]
    congr 1
    omega
  · intro i hi
    show ring.bvec ((((ring.tail + 1) &&& ring.mask) + i) % ring.size) = _
    rw [hmm, Nat.mod_add_mod]
    have := hget (i + 1) (by simp; omega)
    rw [show ring.tail + 1 + i = ring.tail + (i + 1) by omega, this]
    simp

theorem run_repr (ops : List ring_op) :
    ∀ (ring : evpl_bvec_ring) (l : List evpl_bvec), ring_repr ring l →
      removes_guarded l.length ops = true →
      ring_repr (ring_run ring ops) (fifo_run l ops) := by
  induction ops with
  | nil => intro ring l h _; exact h
  | cons op ops ih =>
    intro ring l h hg
    cases op with
    | add mem bvec eom =>
      have := ih _ _ (add_repr mem bvec eom h) (by simpa [removes_guarded] using hg)
      simpa [ring_run, fifo_run, ring_step, fifo_step] using this
    | remove =>
      cases l with
      | nil => simp [removes_guarded] at hg
      | cons a l =>
        have := ih _ _ (remove_repr h) (by simpa [removes_guarded] using hg)
        simpa [ring_run, fifo_run, ring_step, fifo_step] using this

/-- C1 (as amended): from a ring freshly allocated with a power-of-two size,
after any sequence of add and remove calls in which no remove is issued on an
empty ring, the entries read from `tail` up to `head` are the added and not
yet removed byte vectors in the order of their addition, each carrying the
`eom` passed to add; resizes (in either layout) are covered, since an add on a
full ring is any add of the sequence. -/
theorem ring_fifo_order (ring : evpl_bvec_ring) (mem : Nat → evpl_bvec) (k alignment : Nat)
    (ops : List ring_op) (hops : removes_guarded 0 ops = true) :
    ring_entries (ring_run (evpl_bvec_ring_alloc ring mem (2 ^ k) alignment) ops) =
      fifo_run [] ops :=
  ring_entries_repr (run_repr ops _ [] (alloc_repr ring mem k alignment) hops)


/-- C1, the claim as stated fails: a remove issued on the empty fresh ring of
size 2 moves `tail` past `head`, and the walk from `tail` to `head` then reads
one slot although nothing has been added. -/
theorem ring_fifo_order_remove_on_empty :
    ring_entries (ring_run (evpl_bvec_ring_alloc default zero_mem (2 ^ 1) 64)
      [ring_op.remove]) ≠ fifo_run [] [ring_op.remove] := by
  decide

/-- C1 (as amended) applied to `sample_ops` on a ring of size 2.  The first
resize (fourth call) finds the ring wrapped, `tail = 1, head = 0`; the second
(sixth call) finds it unwrapped, `tail = 0, head = 3`. -/
theorem ring_fifo_order_witness :
    removes_guarded 0 sample_ops = true ∧
    ring_entries (ring_run (evpl_bvec_ring_alloc default zero_mem (2 ^ 1) 64) sample_ops) =
      fifo_run [] sample_ops ∧
    fifo_run [] sample_ops =
      [sample_bvec 3, { sample_bvec 4 with eom := 1 }, sample_bvec 5,
       { sample_bvec 6 with eom := 7 }] ∧
    ((ring_run (evpl_bvec_ring_alloc default zero_mem (2 ^ 1) 64) (sample_ops.take 3)).tail,
      (ring_run (evpl_bvec_ring_alloc default zero_mem (2 ^ 1) 64) (sample_ops.take 3)).head,
      (ring_run (evpl_bvec_ring_alloc default zero_mem (2 ^ 1) 64) (sample_ops.take 3)).size) =
      (1, 0, 2) ∧
    ((ring_run (evpl_bvec_ring_alloc default zero_mem (2 ^ 1) 64) (sample_ops.take 5)).tail,
      (ring_run (evpl_bvec_ring_alloc default zero_mem (2 ^ 1) 64) (sample_ops.take 5)).head,
      (ring_run (evpl_bvec_ring_alloc default zero_mem (2 ^ 1) 64) (sample_ops.take 5)).size) =
      (0, 3, 4) :=
  ⟨by decide, ring_fifo_order default zero_mem 1 64 sample_ops (by decide), by decide,
    by decide, by decide⟩


/-- C2 evaluated on the code: the ring holds the single non-eom entry
`coalesce_last` (data 100, length 10) and `coalesce_src` starts at address
110, yet `evpl_bvec_ring_append ... 5 0` does not extend the entry.
`evpl_bvec_ring_head` hands out slot `head` (the next free slot), not the slot
of the last added entry: whatever the allocated array held, slot 0 keeps
length 10; and on a zero-filled array a second entry is added, the count goes
from 1 to 2 and buffer 1 gets one more reference. -/
theorem append_misses_last_entry :
    ring_entries (coalesce_ring zero_mem) = [coalesce_last] ∧
    ring_count (coalesce_ring zero_mem) = 1 ∧
    (∀ mem : Nat → evpl_bvec,
      (evpl_bvec_ring_append zero_mem sample_buffers (coalesce_ring mem) coalesce_src 5 0).map
        (fun r => r.2.1.bvec 0) = some coalesce_last) ∧
    (evpl_bvec_ring_append zero_mem sample_buffers (coalesce_ring zero_mem) coalesce_src 5 0).map
      (fun r => (ring_entries r.2.1, ring_count r.2.1, r.1.refcnt 1, r.2.2)) =
      some ([coalesce_last, { buffer := 1, data := 110, length := 5, eom := 0 }], 2, 2,
        { buffer := 1, data := 115, length := 15, eom := 0 }) := by
  refine ⟨by decide, by decide, ?_, by decide⟩
  intro mem
  by_cases hc : (mem 1).eom = 0 ∧ (mem 1).data + (mem 1).length = 110
  · simp [evpl_bvec_ring_append, evpl_bvec_ring_head, coalesce_ring, evpl_bvec_ring_add,
      evpl_bvec_ring_is_full, evpl_bvec_ring_alloc, coalesce_src, coalesce_last, hc,
      Function.update]
  · simp [evpl_bvec_ring_append, evpl_bvec_ring_head, coalesce_ring, evpl_bvec_ring_add,
      evpl_bvec_ring_is_full, evpl_bvec_ring_alloc, coalesce_src, coalesce_last, hc,
      Function.update]

/-! ## Consume -/

theorem consume_zero (fuel : Nat) (ring : evpl_bvec_ring) :
    evpl_bvec_ring_consume fuel ring 0 = some (ring, []) := by
  unfold evpl_bvec_ring_consume
  simp

theorem repr_nil_iff {ring : evpl_bvec_ring} {l : List evpl_bvec} (h : ring_repr ring l) :
    ring.tail = ring.head ↔ l = [] := by
  obtain ⟨hwf, hlen, hhead, _⟩ := h
  constructor
  · intro he
    have h0 : (ring.tail + l.length) % ring.size = (ring.tail + 0) % ring.size := by
      rw [← hhead, ← he, Nat.add_zero, Nat.mod_eq_of_lt hwf.2.2.2]
    have := mod_add_inj hlen (by omega) h0
    exact List.length_eq_zero.1 this
  · intro he
    subst he
    rw [hhead]
    simp [Nat.mod_eq_of_lt hwf.2.2.2]

theorem update_tail_repr {ring : evpl_bvec_ring} {b : evpl_bvec} {l : List evpl_bvec}
    (h : ring_repr ring (b :: l)) (b' : evpl_bvec) :
    ring_repr { ring with bvec := Function.update ring.bvec ring.tail b' } (b' :: l) := by
  obtain ⟨hwf, hlen, hhead, hget⟩ := h
  refine ⟨hwf, hlen, hhead, ?_⟩
  intro i hi
  show Function.update ring.bvec ring.tail b' ((ring.tail + i) % ring.size) = _
  cases i with
  | zero =>
    rw [Nat.add_zero, Nat.mod_eq_of_lt hwf.2.2.2, Function.update_same]
    rfl
  | succ i =>
    have hne : (ring.tail + (i + 1)) % ring.size ≠ ring.tail := by
      intro he
      have h0 : (ring.tail + (i + 1)) % ring.size = (ring.tail + 0) % ring.size := by
        rw [he, Nat.add_zero, Nat.mod_eq_of_lt hwf.2.2.2]
      simp only [List.length_cons] at hi hlen
      have := mod_add_inj (by omega) (by omega) h0
      omega
    rw [Function.update_noteq hne, hget (i + 1) hi]
    rfl

theorem consume_repr : ∀ (l : List evpl_bvec) (ring : evpl_bvec_ring) (n fuel : Nat),
    ring_repr ring l → l.length ≤ fuel →
    ∃ ring', evpl_bvec_ring_consume fuel ring n = some (ring', (consume_list l n).2) ∧
      ring_repr ring' (consume_list l n).1 := by
  intro l
  induction l with
  | nil =>
    intro ring n fuel h _
    refine ⟨ring, ?_, h⟩
    have ht : ring.tail = ring.head := (repr_nil_iff h).2 rfl
    unfold evpl_bvec_ring_consume
    simp [ht, consume_list]
  | cons b l ih =>
    intro ring n fuel h hf
    have hb : ring.bvec ring.tail = b := by
      have := h.2.2.2 0 (by simp)
      rwa [Nat.add_zero, Nat.mod_eq_of_lt h.1.2.2.2] at this
    have ht : ring.tail ≠ ring.head := fun he => by
      have := (repr_nil_iff h).1 he
      exact List.cons_ne_nil _ _ this
    by_cases hn : n = 0
    · subst hn
      exact ⟨ring, by simp [consume_zero, consume_list], by simpa [consume_list] using h⟩
    · obtain ⟨f, rfl⟩ : ∃ f, fuel = f + 1 := ⟨fuel - 1, by simp at hf; omega⟩
      have hpos : n > 0 := Nat.pos_of_ne_zero hn
      by_cases hle : b.length ≤ n
      · obtain ⟨ring', hr', hrep'⟩ := ih (evpl_bvec_ring_remove ring) (n - b.length) f
          (remove_repr h) (by simp at hf; omega)
        refine ⟨ring', ?_, by simpa [consume_list, hn, hle] using hrep'⟩
        unfold evpl_bvec_ring_consume
        simp only [hpos, ht, ne_eq, not_false_eq_true, and_self, if_true, hb, hle]
        unfold evpl_bvec_ring_remove at hr'
        rw [hr']
        simp [consume_list, hn, hle]
      · refine ⟨{ ring with
            bvec := Function.update ring.bvec ring.tail
              { b with data := b.data + n, length := b.length - n } }, ?_, ?_⟩
        rotate_left
        · have := update_tail_repr h { b with data := b.data + n, length := b.length - n }
          simpa [consume_list, hn, hle] using this
        · unfold evpl_bvec_ring_consume
          simp only [hpos, ht, ne_eq, not_false_eq_true, and_self, if_true, hb, hle, if_false]
          rw [consume_zero]
          simp [consume_list, hn, hle]

theorem bvec_bytes_cons (b : evpl_bvec) (l : List evpl_bvec) :
    bvec_bytes (b :: l) = b.length + bvec_bytes l := by
  simp [bvec_bytes]

theorem read_bytes_length (memory : Nat → Nat) : ∀ (n addr : Nat),
    (read_bytes memory addr n).length = n := by
  intro n
  induction n with
  | zero => intro addr; rfl
  | succ n ih => intro addr; simp [read_bytes, ih]

theorem read_bytes_drop (memory : Nat → Nat) : ∀ (n addr k : Nat), k ≤ n →
    (read_bytes memory addr n).drop k = read_bytes memory (addr + k) (n - k) := by
  intro n
  induction n with
  | zero =>
    intro addr k hk
    have : k = 0 := by omega
    subst this
    rfl
  | succ n ih =>
    intro addr k hk
    cases k with
    | zero => rfl
    | succ k =>
      rw [read_bytes, List.drop_succ_cons, ih (addr + 1) k (by omega)]
      congr 1 <;> omega

theorem bvecs_content_length (memory : Nat → Nat) (l : List evpl_bvec) :
    (bvecs_content memory l).length = bvec_bytes l := by
  induction l with
  | nil => rfl
  | cons b l ih => simp [bvecs_content, bvec_bytes_cons, read_bytes_length, ih]

theorem consume_list_bytes : ∀ (l : List evpl_bvec) (n : Nat),
    bvec_bytes (consume_list l n).1 + min n (bvec_bytes l) = bvec_bytes l := by
  intro l
  induction l with
  | nil => intro n; simp [consume_list, bvec_bytes]
  | cons b l ih =>
    intro n
    by_cases hn : n = 0
    · simp [consume_list, hn]
    · by_cases hle : b.length ≤ n
      · have := ih (n - b.length)
        simp only [consume_list, hn, hle, if_true, if_false, bvec_bytes_cons] at this ⊢
        omega
      · simp only [consume_list, hn, hle, if_true, if_false, bvec_bytes_cons]
        omega

theorem consume_list_content (memory : Nat → Nat) : ∀ (l : List evpl_bvec) (n : Nat),
    bvecs_content memory (consume_list l n).1 =
      (bvecs_content memory l).drop (min n (bvec_bytes l)) := by
  intro l
  induction l with
  | nil => intro n; simp [consume_list, bvecs_content]
  | cons b l ih =>
    intro n
    by_cases hn : n = 0
    · simp [consume_list, hn]
    · by_cases hle : b.length ≤ n
      · simp only [consume_list, hn, hle, if_true, if_false, bvec_bytes_cons, bvecs_content]
        rw [ih (n - b.length)]
        have hmin : min n (b.length + bvec_bytes l) =
            (read_bytes memory b.data b.length).length + min (n - b.length) (bvec_bytes l) := by
          rw [read_bytes_length]; omega
        rw [hmin, List.drop_append]
      · have hmin : min n (b.length + bvec_bytes l) = n := by omega
        simp only [consume_list, hn, hle, if_true, if_false, bvec_bytes_cons, bvecs_content]
        rw [hmin, List.drop_append_of_le_length (by rw [read_bytes_length]; omega),
          read_bytes_drop memory b.length b.data n (by omega)]

theorem consume_list_shape : ∀ (l : List evpl_bvec) (n : Nat),
    ∃ k, (consume_list l n).2 = l.take k ∧
      bvec_bytes (l.take k) ≤ min n (bvec_bytes l) ∧
      (∀ i, i < k → ∃ b, l[i]? = some b ∧ b.length ≤ n - bvec_bytes (l.take i)) ∧
      (((consume_list l n).1 = l.drop k ∧
          (min n (bvec_bytes l) = bvec_bytes (l.take k))) ∨
        ∃ b rest, l.drop k = b :: rest ∧
          0 < min n (bvec_bytes l) - bvec_bytes (l.take k) ∧
          min n (bvec_bytes l) - bvec_bytes (l.take k) < b.length ∧
          (consume_list l n).1 =
            { b with
              data := b.data + (min n (bvec_bytes l) - bvec_bytes (l.take k)),
              length := b.length - (min n (bvec_bytes l) - bvec_bytes (l.take k)) } :: rest) := by
  intro l
  induction l with
  | nil =>
    intro n
    exact ⟨0, by simp [consume_list], by simp [bvec_bytes], by simp,
      Or.inl ⟨by simp [consume_list], by simp [bvec_bytes]⟩⟩
  | cons b l ih =>
    intro n
    by_cases hn : n = 0
    · subst hn
      exact ⟨0, by simp [consume_list], by simp [bvec_bytes], by simp,
        Or.inl ⟨by simp [consume_list], by simp [bvec_bytes]⟩⟩
    · by_cases hle : b.length ≤ n
      · obtain ⟨k, hrel, hsum, heach, hrest⟩ := ih (n - b.length)
        refine ⟨k + 1, ?_, ?_, ?_, ?_⟩
        · simp [consume_list, hn, hle, hrel]
        · clear hrest heach
          simp only [List.take_succ_cons, bvec_bytes_cons]
          omega
        · intro i hi
          cases i with
          | zero => exact ⟨b, by simp, by simpa [bvec_bytes] using hle⟩
          | succ i =>
            obtain ⟨c, hc, hcl⟩ := heach i (by omega)
            refine ⟨c, by simpa using hc, ?_⟩
            clear hrest heach
            simp only [List.take_succ_cons, bvec_bytes_cons]
            omega
        · have hmin : min n (bvec_bytes (b :: l)) - bvec_bytes ((b :: l).take (k + 1)) =
              min (n - b.length) (bvec_bytes l) - bvec_bytes (l.take k) := by
            clear hrest heach
            simp only [List.take_succ_cons, bvec_bytes_cons]
            omega
          rcases hrest with ⟨h1, h2⟩ | ⟨c, rest, h1, h2, h3, h4⟩
          · left
            refine ⟨by simp [consume_list, hn, hle, h1], ?_⟩
            clear heach
            simp only [List.take_succ_cons, bvec_bytes_cons]
            omega
          · right
            refine ⟨c, rest, by simpa using h1, by rw [hmin]; exact h2,
              by rw [hmin]; exact h3, ?_⟩
            rw [hmin]
            simp [consume_list, hn, hle, h4]
      · refine ⟨0, by simp [consume_list, hn, hle], by simp [bvec_bytes], by simp, Or.inr ?_⟩
        have hmin : min n (bvec_bytes (b :: l)) - bvec_bytes ((b :: l).take 0) = n := by
          simp only [List.take_zero, bvec_bytes_cons]
          simp [bvec_bytes]
          omega
        refine ⟨b, l, by simp, by rw [hmin]; omega, by rw [hmin]; omega, ?_⟩
        rw [hmin]
        simp [consume_list, hn, hle]

/-! ## Every well-formed ring represents its entries -/

theorem wf_repr {ring : evpl_bvec_ring} (h : ring_wf ring) :
    ring_repr ring (ring_entries ring) := by
  have hs := wf_size_pos h
  obtain ⟨hpow, hm, hh, ht⟩ := h
  have hrep : ring_repr ring
      ((List.range ((ring.head + ring.size - ring.tail) % ring.size)).map
        (fun i => ring.bvec ((ring.tail + i) % ring.size))) := by
    refine ⟨⟨hpow, hm, hh, ht⟩, ?_, ?_, ?_⟩
    · simp only [List.length_map, List.length_range]
      exact Nat.mod_lt _ (by omega)
    · simp only [List.length_map, List.length_range]
      rw [Nat.add_mod_mod, show ring.tail + (ring.head + ring.size - ring.tail) =
        ring.head + ring.size by omega, Nat.add_mod_right, Nat.mod_eq_of_lt hh]
    · intro i hi
      simp
  rw [ring_entries_repr hrep]
  exact hrep

theorem ldiff_mask (k m : Nat) (h : m < 2 ^ k) :
    Nat.ldiff (2 ^ k - 1) m = 2 ^ k - 1 - m := by
  apply Nat.eq_of_testBit_eq
  intro i
  rw [Nat.testBit_ldiff, Nat.testBit_two_pow_sub_one,
    show 2 ^ k - 1 - m = 2 ^ k - (m + 1) by omega, Nat.testBit_two_pow_sub_succ h]

theorem ring_count_repr {ring : evpl_bvec_ring} {l : List evpl_bvec} (h : ring_repr ring l) :
    ring_count ring = (l.length : Int) := by
  obtain ⟨hwf, hlen, hhead, _⟩ := h
  obtain ⟨⟨k, hk⟩, hm, hh, ht⟩ := hwf
  unfold ring_count
  rw [← Int.subNatNat_eq_coe]
  rcases add_mod_cases ht hlen with ⟨hlt, he⟩ | ⟨hge, he⟩
  · rw [he] at hhead
    rw [Int.subNatNat_of_le (by omega)]
    show ((((ring.head - ring.tail) &&& ring.mask : Nat)) : Int) = _
    rw [hm, hk, Nat.and_pow_two_sub_one_eq_mod, ← hk, Nat.mod_eq_of_lt (by omega)]
    congr 1
    omega
  · rw [he] at hhead
    rw [Int.subNatNat_of_lt (by omega)]
    show ((Nat.ldiff ring.mask (ring.tail - ring.head).pred : Nat) : Int) = _
    rw [hm, hk, ldiff_mask k _ (by rw [← hk, Nat.pred_eq_sub_one]; omega), ← hk,
      Nat.pred_eq_sub_one]
    congr 1
    omega

theorem ring_count_wf {ring : evpl_bvec_ring} (h : ring_wf ring) :
    ring_count ring = ((ring_entries ring).length : Int) :=
  ring_count_repr (wf_repr h)

/-- C3: on a well-formed ring holding `B` bytes, `evpl_bvec_ring_consume` with
argument `n` returns (for every iteration bound of at least `size`); the total
drops by exactly `min n B`; the bytes of the remaining entries are the
original bytes without their first `min n B`; the vectors released are the
first `k` entries, each of length at most the `n` still to consume when it is
reached; and either the ring holds the other entries unchanged, or the next
entry is consumed in part: its `data` advanced and its `length` shrunk by the
rest of `n`, and it is not among the released. -/
theorem consume_spec (memory : Nat → Nat) (ring : evpl_bvec_ring) (n fuel : Nat)
    (h : ring_wf ring) (hf : ring.size ≤ fuel) :
    ∃ ring' released,
      evpl_bvec_ring_consume fuel ring n = some (ring', released) ∧
      ring_wf ring' ∧
      ring_bytes ring' + min n (ring_bytes ring) = ring_bytes ring ∧
      ring_content memory ring' =
        (ring_content memory ring).drop (min n (ring_bytes ring)) ∧
      ∃ k, released = (ring_entries ring).take k ∧
        (∀ i, i < k → ∃ b, (ring_entries ring)[i]? = some b ∧
          b.length ≤ n - bvec_bytes ((ring_entries ring).take i)) ∧
        ((ring_entries ring' = (ring_entries ring).drop k ∧
            min n (ring_bytes ring) = bvec_bytes released) ∨
          ∃ b rest, (ring_entries ring).drop k = b :: rest ∧
            0 < min n (ring_bytes ring) - bvec_bytes released ∧
            min n (ring_bytes ring) - bvec_bytes released < b.length ∧
            ring_entries ring' =
              { b with
                data := b.data + (min n (ring_bytes ring) - bvec_bytes released),
                length := b.length - (min n (ring_bytes ring) - bvec_bytes released) }
                :: rest) := by
  have hrep := wf_repr h
  obtain ⟨ring', hrun, hrep'⟩ := consume_repr (ring_entries ring) ring n fuel hrep
    (by have := hrep.2.1; omega)
  have he' := ring_entries_repr hrep'
  obtain ⟨k, hrel, _, heach, hrest⟩ := consume_list_shape (ring_entries ring) n
  refine ⟨ring', _, hrun, hrep'.1, ?_, ?_, k, hrel, heach, ?_⟩
  · unfold ring_bytes
    rw [he']
    exact consume_list_bytes _ n
  · unfold ring_content ring_bytes
    rw [he']
    exact consume_list_content memory _ n
  · rw [he', hrel]
    exact hrest

/-! ## The `length` field of the ring -/

theorem resize_length (mem : Nat → evpl_bvec) (ring : evpl_bvec_ring) :
    (evpl_bvec_ring_resize mem ring).length = ring.length := rfl

theorem add_length (mem : Nat → evpl_bvec) (ring : evpl_bvec_ring) (bvec : evpl_bvec)
    (eom : Nat) : (evpl_bvec_ring_add mem ring bvec eom).1.length = ring.length := by
  unfold evpl_bvec_ring_add
  by_cases hf : evpl_bvec_ring_is_full ring = true <;> simp [hf, resize_length]

theorem append_length (mem : Nat → evpl_bvec) (bufs : evpl_buffers) (ring : evpl_bvec_ring)
    (bvec : evpl_bvec) (length eom : Nat) (r : evpl_buffers × evpl_bvec_ring × evpl_bvec)
    (h : evpl_bvec_ring_append mem bufs ring bvec length eom = some r) :
    r.2.1.length = ring.length := by
  have key : ∀ st : evpl_buffers × evpl_bvec_ring, st.2.length = ring.length →
      (if bvec.length - length = 0 then
        (evpl_bvec_decref st.1
          { bvec with data := bvec.data + length, length := bvec.length - length }).map
          (fun bufs => (bufs, st.2,
            { bvec with data := bvec.data + length, length := bvec.length - length }))
      else some (st.1, st.2,
        { bvec with data := bvec.data + length, length := bvec.length - length })) = some r →
      r.2.1.length = ring.length := by
    intro st hst hr
    split at hr
    · rw [Option.map_eq_some'] at hr
      obtain ⟨b, _, rfl⟩ := hr
      exact hst
    · cases hr
      exact hst
  unfold evpl_bvec_ring_append at h
  refine key _ ?_ h
  cases hh : evpl_bvec_ring_head ring with
  | none => simp [add_length]
  | some i =>
    simp only
    split
    · rfl
    · simp [add_length]

theorem consume_length : ∀ (fuel : Nat) (ring : evpl_bvec_ring) (n : Nat)
    (r : evpl_bvec_ring × List evpl_bvec),
    evpl_bvec_ring_consume fuel ring n = some r → r.1.length = ring.length := by
  intro fuel
  induction fuel with
  | zero =>
    intro ring n r h
    unfold evpl_bvec_ring_consume at h
    split at h
    · cases h
    · cases h; rfl
  | succ f ih =>
    intro ring n r h
    unfold evpl_bvec_ring_consume at h
    split at h
    · simp only at h
      split at h
      · rw [Option.map_eq_some'] at h
        obtain ⟨r', hr', rfl⟩ := h
        have h2 := ih _ _ _ hr'
        simpa using h2
      · have h2 := ih _ _ _ h
        simpa using h2
    · cases h; rfl

theorem clear_length : ∀ (fuel : Nat) (ring : evpl_bvec_ring)
    (r : evpl_bvec_ring × List evpl_bvec),
    evpl_bvec_ring_clear fuel ring = some r → r.1.length = ring.length := by
  intro fuel
  induction fuel with
  | zero =>
    intro ring r h
    unfold evpl_bvec_ring_clear at h
    split at h
    · cases h
    · cases h; rfl
  | succ f ih =>
    intro ring r h
    unfold evpl_bvec_ring_clear at h
    split at h
    · simp only at h
      rw [Option.map_eq_some'] at h
      obtain ⟨r', hr', rfl⟩ := h
      have h2 := ih _ _ hr'
      simpa using h2
    · cases h; rfl

theorem call_step_length (s s' : evpl_buffers × evpl_bvec_ring) (c : ring_call)
    (h : call_step s c = some s') : s'.2.length = s.2.length := by
  cases c with
  | add mem bvec eom =>
    simp only [call_step, Option.some.injEq] at h
    subst h
    exact add_length mem s.2 bvec eom
  | append mem bvec length eom =>
    simp only [call_step, Option.map_eq_some'] at h
    obtain ⟨r, hr, rfl⟩ := h
    exact append_length mem s.1 s.2 bvec length eom r hr
  | consume fuel n =>
    simp only [call_step, Option.bind_eq_some, Option.map_eq_some'] at h
    obtain ⟨r, hr, b, _, rfl⟩ := h
    exact consume_length fuel s.2 n r hr
  | clear fuel =>
    simp only [call_step, Option.bind_eq_some, Option.map_eq_some'] at h
    obtain ⟨r, hr, b, _, rfl⟩ := h
    exact clear_length fuel s.2 r hr

/-- C4, the claim as stated fails: on a ring struct whose `length` field holds
0, after `evpl_bvec_ring_alloc` and one add of a 5-byte vector the field still
holds 0 while the ring holds 5 bytes. -/
theorem ring_length_not_maintained :
    ((call_run (sample_buffers, evpl_bvec_ring_alloc default zero_mem 16 64)
        [ring_call.add zero_mem (sample_bvec 5) 0]).map
      (fun s => (s.2.length, ring_bytes s.2))) = some (0, 5) ∧ (0 : Nat) ≠ 5 := by
  decide

/-- C4 (as amended): no operation of `buffer.h` writes the `length` field of
the ring.  After `evpl_bvec_ring_alloc` and any mix of add, append, consume
and clear calls that runs to completion, the field holds the value it held
before the allocation. -/
theorem ring_length_untouched (bufs bufs' : evpl_buffers) (ring ring' : evpl_bvec_ring)
    (mem : Nat → evpl_bvec) (size alignment : Nat) (calls : List ring_call)
    (h : call_run (bufs, evpl_bvec_ring_alloc ring mem size alignment) calls =
      some (bufs', ring')) :
    ring'.length = ring.length := by
  have key : ∀ (cs : List ring_call) (s s' : evpl_buffers × evpl_bvec_ring),
      call_run s cs = some s' → s'.2.length = s.2.length := by
    intro cs
    induction cs with
    | nil =>
      intro s s' hs
      simp only [call_run, Option.some.injEq] at hs
      rw [hs]
    | cons c cs ih =>
      intro s s' hs
      simp only [call_run, Option.bind_eq_some] at hs
      obtain ⟨s1, h1, h2⟩ := hs
      rw [ih s1 s' h2, call_step_length s s1 c h1]
  exact key calls _ _ h

set_option maxHeartbeats 1000000 in
/-- C4 (as amended) applied to `sample_calls` on a struct whose field holds
7: the run completes, the ring ends with one 6-byte entry, the field is 7. -/
theorem ring_length_untouched_witness :
    ∃ bufs' ring',
      call_run (sample_buffers,
        evpl_bvec_ring_alloc { (default : evpl_bvec_ring) with length := 7 } zero_mem 4 64)
        sample_calls = some (bufs', ring') ∧
      ring_bytes ring' = 6 ∧ ring'.length = 7 := by
  have hb : (call_run (sample_buffers,
      evpl_bvec_ring_alloc { (default : evpl_bvec_ring) with length := 7 } zero_mem 4 64)
      sample_calls).map (fun s => ring_bytes s.2) = some 6 := by decide
  rw [Option.map_eq_some'] at hb
  obtain ⟨s', hs', hb'⟩ := hb
  exact ⟨s'.1, s'.2, hs', hb', ring_length_untouched _ _ _ _ _ _ _ _ hs'⟩

/-- C3 applied to `three_ring` (entries of 3, 4 and 5 bytes) with `n = 5`. -/
theorem consume_spec_witness :
    (ring_wf three_ring ∧ three_ring.size ≤ 4) ∧
    ∃ ring' released,
      evpl_bvec_ring_consume 4 three_ring 5 = some (ring', released) ∧
      ring_bytes ring' + min 5 (ring_bytes three_ring) = ring_bytes three_ring := by
  have hwf : ring_wf three_ring := ⟨⟨2, by decide⟩, by decide, by decide, by decide⟩
  refine ⟨⟨hwf, by decide⟩, ?_⟩
  obtain ⟨ring', released, h1, _, h2, _⟩ :=
    consume_spec (fun a => a) three_ring 5 4 hwf (by decide)
  exact ⟨ring', released, h1, h2⟩

/-! ## Export -/

theorem int_wrap_add (x y : Int) : int_wrap (int_wrap x + y) = int_wrap (x + y) := by
  unfold int_wrap
  omega

theorem int_wrap_of_lt (x : Int) (h0 : 0 ≤ x) (h : x < 2147483648) : int_wrap x = x := by
  unfold int_wrap
  omega

theorem iov_loop_repr {ring : evpl_bvec_ring} {l : List evpl_bvec} (stop_on_eom : Nat)
    (h : ring_repr ring l) :
    ∀ (left j : Nat) (total : Int), j ≤ l.length →
      evpl_bvec_ring_iov_loop ring stop_on_eom left ((ring.tail + j) % ring.size)
          (int_wrap total) =
        ((iov_list stop_on_eom left (l.drop j)).map bvec_iovec,
          int_wrap (total + (bvec_bytes (iov_list stop_on_eom left (l.drop j)) : Int))) := by
  intro left
  induction left with
  | zero => intro j total _; simp [evpl_bvec_ring_iov_loop, iov_list, bvec_bytes]
  | succ left ih =>
    intro j total hj
    rcases Nat.eq_or_lt_of_le hj with hjl | hjl
    · subst hjl
      rw [List.drop_length]
      simp [evpl_bvec_ring_iov_loop, iov_list, bvec_bytes, h.2.2.1]
    · have hne : (ring.tail + j) % ring.size ≠ ring.head := by
        rw [h.2.2.1]
        intro he
        have := mod_add_inj (by have := h.2.1; omega) h.2.1 he
        omega
      have hd : l.drop j = l[j] :: l.drop (j + 1) := List.drop_eq_getElem_cons hjl
      have hnext := ih (j + 1) (total + (l[j].length : Int)) (by omega)
      rw [← Nat.add_assoc, ← Nat.mod_add_mod, ← mask_mod h.1] at hnext
      rw [evpl_bvec_ring_iov_loop, if_pos hne, hd, h.2.2.2 j hjl]
      simp only [int_wrap_add]
      by_cases hs : stop_on_eom ≠ 0 ∧ l[j].eom ≠ 0
      · simp [hs, iov_list, bvec_iovec, bvec_bytes]
      · simp only [hs, if_false, hnext, iov_list]
        simp [bvec_iovec, bvec_bytes_cons, Int.add_assoc]

theorem iov_list_take (stop_on_eom : Nat) : ∀ (left : Nat) (l : List evpl_bvec),
    iov_list stop_on_eom left l = l.take (iov_list stop_on_eom left l).length ∧
      (iov_list stop_on_eom left l).length ≤ left := by
  intro left
  induction left with
  | zero => intro l; simp [iov_list]
  | succ left ih =>
    intro l
    cases l with
    | nil => simp [iov_list]
    | cons b l =>
      by_cases hs : stop_on_eom ≠ 0 ∧ b.eom ≠ 0
      · simp [iov_list, hs]
      · obtain ⟨h1, h2⟩ := ih l
        simp only [iov_list, hs, if_false, List.length_cons, List.take_succ_cons]
        exact ⟨by rw [← h1], by omega⟩

theorem iov_list_eom (stop_on_eom : Nat) (hstop : stop_on_eom ≠ 0) :
    ∀ (left : Nat) (l : List evpl_bvec) (i : Nat) (b : evpl_bvec),
      i + 1 < (iov_list stop_on_eom left l).length →
      (iov_list stop_on_eom left l)[i]? = some b → b.eom = 0 := by
  intro left
  induction left with
  | zero => intro l i b hi; simp [iov_list] at hi
  | succ left ih =>
    intro l i b hi hb
    cases l with
    | nil => simp [iov_list] at hi
    | cons c l =>
      by_cases hs : stop_on_eom ≠ 0 ∧ c.eom ≠ 0
      · simp [iov_list, hs] at hi
      · simp only [iov_list, hs, if_false, List.length_cons] at hi hb
        cases i with
        | zero =>
          simp only [List.getElem?_cons_zero, Option.some.injEq] at hb
          subst hb
          by_contra hne
          exact hs ⟨hstop, hne⟩
        | succ i =>
          simp only [List.getElem?_cons_succ] at hb
          exact ih l i b (by omega) hb

/-- C5, the claim as stated fails: `wide_ring` holds an entry of 2147483647
bytes and an entry of 1 byte carrying `eom`.  `evpl_bvec_ring_iov` with
`max_iov = 8` and `stop_on_eom = 1` exports both entries, whose lengths add up
to 2147483648, and stores -2147483648 in `*r_total`: the sum is accumulated in
`int total`. -/
theorem iov_total_wraps :
    ring_wf wide_ring ∧
    (evpl_bvec_ring_iov 8 1 wide_ring).1 = 2 ∧
    (evpl_bvec_ring_iov 8 1 wide_ring).2.2 =
      [{ iov_base := 4096, iov_len := 2147483647 }, { iov_base := 64, iov_len := 1 }] ∧
    bvec_bytes ((ring_entries wide_ring).take (evpl_bvec_ring_iov 8 1 wide_ring).1) =
      2147483648 ∧
    (evpl_bvec_ring_iov 8 1 wide_ring).2.1 = -2147483648 ∧
    (evpl_bvec_ring_iov 8 1 wide_ring).2.1 ≠
      (bvec_bytes ((ring_entries wide_ring).take (evpl_bvec_ring_iov 8 1 wide_ring).1) : Int) :=
  ⟨⟨⟨2, by decide⟩, by decide, by decide, by decide⟩, by decide, by decide, by decide,
    by decide, by decide⟩

/-- C5 (as amended): on a well-formed ring, for `max_iov ≥ 0` and
`stop_on_eom ≠ 0`, `evpl_bvec_ring_iov` returns `niov ≤ max_iov`; the
descriptors written are those of the first `niov` entries from the tail, in
order (`iov_base = data`, `iov_len = length`); no exported entry but the last
has `eom` set; and `*r_total` is the sum of the exported lengths whenever
that sum is below `2^31` (in general it is the sum reduced to the range of a
32-bit `int`, the type of the accumulator `total`). -/
theorem iov_stop_on_eom_spec (ring : evpl_bvec_ring) (max_iov : Int) (stop_on_eom : Nat)
    (h : ring_wf ring) (hmax : 0 ≤ max_iov) (hstop : stop_on_eom ≠ 0) :
    ((evpl_bvec_ring_iov max_iov stop_on_eom ring).1 : Int) ≤ max_iov ∧
    (evpl_bvec_ring_iov max_iov stop_on_eom ring).2.2 =
      ((ring_entries ring).take (evpl_bvec_ring_iov max_iov stop_on_eom ring).1).map
        bvec_iovec ∧
    (evpl_bvec_ring_iov max_iov stop_on_eom ring).1 ≤ (ring_entries ring).length ∧
    (∀ i b, i + 1 < (evpl_bvec_ring_iov max_iov stop_on_eom ring).1 →
      (ring_entries ring)[i]? = some b → b.eom = 0) ∧
    (evpl_bvec_ring_iov max_iov stop_on_eom ring).2.1 =
      int_wrap (bvec_bytes
        ((ring_entries ring).take (evpl_bvec_ring_iov max_iov stop_on_eom ring).1) : Int) ∧
    (bvec_bytes ((ring_entries ring).take (evpl_bvec_ring_iov max_iov stop_on_eom ring).1)
        < 2147483648 →
      (evpl_bvec_ring_iov max_iov stop_on_eom ring).2.1 =
        (bvec_bytes
          ((ring_entries ring).take (evpl_bvec_ring_iov max_iov stop_on_eom ring).1) : Int)) := by
  have hrep := wf_repr h
  have hloop := iov_loop_repr stop_on_eom hrep max_iov.toNat 0 0 (Nat.zero_le _)
  rw [Nat.add_zero, Nat.mod_eq_of_lt h.2.2.2, List.drop_zero, Int.zero_add] at hloop
  have hw0 : int_wrap 0 = 0 := by decide
  rw [hw0] at hloop
  obtain ⟨htake, hlen⟩ := iov_list_take stop_on_eom max_iov.toNat (ring_entries ring)
  have hn : (evpl_bvec_ring_iov max_iov stop_on_eom ring).1 =
      (iov_list stop_on_eom max_iov.toNat (ring_entries ring)).length := by
    simp [evpl_bvec_ring_iov, hloop]
  have h22 : (evpl_bvec_ring_iov max_iov stop_on_eom ring).2.2 =
      (iov_list stop_on_eom max_iov.toNat (ring_entries ring)).map bvec_iovec := by
    simp [evpl_bvec_ring_iov, hloop]
  have h21 : (evpl_bvec_ring_iov max_iov stop_on_eom ring).2.1 =
      int_wrap (bvec_bytes (iov_list stop_on_eom max_iov.toNat (ring_entries ring)) : Int) := by
    simp [evpl_bvec_ring_iov, hloop]
  rw [hn, h22, h21, ← htake]
  refine ⟨?_, rfl, ?_, ?_, rfl, fun hlt => ?_⟩
  · exact (Int.le_toNat hmax).1 hlen
  · have := congrArg List.length htake
    rw [List.length_take] at this
    omega
  · intro i b hi hb
    refine iov_list_eom stop_on_eom hstop max_iov.toNat (ring_entries ring) i b hi ?_
    rw [htake, List.getElem?_take, if_pos (by omega)]
    exact hb
  · exact int_wrap_of_lt _ (Int.natCast_nonneg _) (by exact_mod_cast hlt)

/-- C5 (as amended) applied to `three_ring` with `max_iov = 8`: the export
stops after the second entry, the one carrying `eom`, and `*r_total` is 7. -/
theorem iov_stop_on_eom_witness :
    (ring_wf three_ring ∧ (0 : Int) ≤ 8 ∧ (1 : Nat) ≠ 0) ∧
    evpl_bvec_ring_iov 8 1 three_ring =
      (2, 7, [{ iov_base := 300, iov_len := 3 }, { iov_base := 400, iov_len := 4 }]) ∧
    ((evpl_bvec_ring_iov 8 1 three_ring).1 : Int) ≤ 8 ∧
    (evpl_bvec_ring_iov 8 1 three_ring).2.1 =
      (bvec_bytes ((ring_entries three_ring).take (evpl_bvec_ring_iov 8 1 three_ring).1) : Int) := by
  have hwf : ring_wf three_ring := ⟨⟨2, by decide⟩, by decide, by decide, by decide⟩
  have hs := iov_stop_on_eom_spec three_ring 8 1 hwf (by decide) (by decide)
  exact ⟨⟨hwf, by decide, by decide⟩, by decide, hs.1, hs.2.2.2.2.2 (by decide)⟩

/-! ## Growth -/

theorem add_size {ring : evpl_bvec_ring} {l : List evpl_bvec} (mem : Nat → evpl_bvec)
    (bvec : evpl_bvec) (eom : Nat) (h : ring_repr ring l) :
    (evpl_bvec_ring_add mem ring bvec eom).1.size =
        (if l.length + 1 = ring.size then 2 * ring.size else ring.size) ∧
      ((evpl_bvec_ring_add mem ring bvec eom).1.tail = 0 ∨
        (evpl_bvec_ring_add mem ring bvec eom).1.tail = ring.tail) := by
  unfold evpl_bvec_ring_add
  by_cases hf : evpl_bvec_ring_is_full ring = true
  · have hfull := (is_full_iff h).1 hf
    obtain ⟨_, hsz, ht⟩ := resize_repr mem h hfull
    simp only [hf, if_true, hfull]
    exact ⟨hsz, Or.inl ht⟩
  · have hnf : ¬ l.length + 1 = ring.size := fun he => hf ((is_full_iff h).2 he)
    simp [hf, hnf]

theorem add_n_invariant (f : Nat → (Nat → evpl_bvec) × evpl_bvec × Nat)
    (ring : evpl_bvec_ring) (mem : Nat → evpl_bvec) (alignment : Nat) :
    ∀ n, ∃ l, ring_repr (ring_add_n f n (evpl_bvec_ring_alloc ring mem 16 alignment)) l ∧
      l.length = n ∧
      16 ≤ (ring_add_n f n (evpl_bvec_ring_alloc ring mem 16 alignment)).size ∧
      ((ring_add_n f n (evpl_bvec_ring_alloc ring mem 16 alignment)).size = 16 ∨
        (ring_add_n f n (evpl_bvec_ring_alloc ring mem 16 alignment)).size ≤ 2 * n) := by
  intro n
  induction n with
  | zero =>
    exact ⟨[], alloc_repr ring mem 4 alignment, rfl, Nat.le_refl 16, Or.inl rfl⟩
  | succ n ih =>
    obtain ⟨l, hrep, hlen, h16, hsz⟩ := ih
    have hadd := add_repr (f n).1 (f n).2.1 (f n).2.2 hrep
    obtain ⟨hsize, _⟩ := add_size (f n).1 (f n).2.1 (f n).2.2 hrep
    refine ⟨_, hadd, by simp [hlen], ?_, ?_⟩
    · show 16 ≤ (evpl_bvec_ring_add _ _ _ _).1.size
      rw [hsize]
      split <;> omega
    · show (evpl_bvec_ring_add _ _ _ _).1.size = 16 ∨ (evpl_bvec_ring_add _ _ _ _).1.size ≤ _
      rw [hsize]
      split <;> omega

theorem size_is_least_pow2 {s n : Nat} (hpow : ∃ k, s = 2 ^ k) (hn : n < s) (h16 : 16 ≤ s)
    (hsz : s = 16 ∨ s ≤ 2 * n) :
    ∃ k, n + 1 ≤ 2 ^ k ∧ (∀ j, n + 1 ≤ 2 ^ j → k ≤ j) ∧ s = max 16 (2 ^ k) := by
  obtain ⟨k0, hk0⟩ := hpow
  refine ⟨Nat.clog 2 (n + 1), Nat.le_pow_clog (by decide) _,
    fun j hj => (Nat.le_pow_iff_clog_le (by decide)).1 hj, ?_⟩
  have hle : 2 ^ Nat.clog 2 (n + 1) ≤ s := by
    rw [hk0]
    exact Nat.pow_le_pow_right (by decide)
      ((Nat.le_pow_iff_clog_le (by decide)).1 (by rw [← hk0]; omega))
  rcases hsz with h | h
  · omega
  · have hge : s ≤ 2 ^ Nat.clog 2 (n + 1) := by
      have h1 : n + 1 ≤ 2 ^ Nat.clog 2 (n + 1) := Nat.le_pow_clog (by decide) _
      have h2 : 2 ^ k0 < 2 ^ (Nat.clog 2 (n + 1) + 1) := by
        rw [Nat.pow_succ, ← hk0]
        omega
      have h3 : k0 < Nat.clog 2 (n + 1) + 1 := (Nat.pow_lt_pow_iff_right (by decide)).1 h2
      rw [hk0]
      exact Nat.pow_le_pow_right (by decide) (by omega)
    omega

/-- C8: after `n` adds (no removal) into a ring allocated with 16 slots, the
size of the ring is `max 16 p` where `p = 2 ^ k` is the least power of two
with `n + 1 ≤ p`, and `mask = size - 1`; after 1,000,000 adds the size is
1,048,576.  The `i`-th add has arbitrary arguments `f i`. -/
theorem ring_growth (f : Nat → (Nat → evpl_bvec) × evpl_bvec × Nat)
    (ring : evpl_bvec_ring) (mem : Nat → evpl_bvec) (alignment : Nat) :
    (∀ n, ∃ k, n + 1 ≤ 2 ^ k ∧ (∀ j, n + 1 ≤ 2 ^ j → k ≤ j) ∧
      (ring_add_n f n (evpl_bvec_ring_alloc ring mem 16 alignment)).size = max 16 (2 ^ k) ∧
      (ring_add_n f n (evpl_bvec_ring_alloc ring mem 16 alignment)).mask =
        (ring_add_n f n (evpl_bvec_ring_alloc ring mem 16 alignment)).size - 1) ∧
    (ring_add_n f 1000000 (evpl_bvec_ring_alloc ring mem 16 alignment)).size = 1048576 := by
  have main : ∀ n, ∃ k, n + 1 ≤ 2 ^ k ∧ (∀ j, n + 1 ≤ 2 ^ j → k ≤ j) ∧
      (ring_add_n f n (evpl_bvec_ring_alloc ring mem 16 alignment)).size = max 16 (2 ^ k) ∧
      (ring_add_n f n (evpl_bvec_ring_alloc ring mem 16 alignment)).mask =
        (ring_add_n f n (evpl_bvec_ring_alloc ring mem 16 alignment)).size - 1 := by
    intro n
    obtain ⟨l, hrep, hlen, h16, hsz⟩ := add_n_invariant f ring mem alignment n
    obtain ⟨k, hk1, hk2, hk3⟩ :=
      size_is_least_pow2 hrep.1.1 (by have := hrep.2.1; omega) h16 hsz
    exact ⟨k, hk1, hk2, hk3, hrep.1.2.1⟩
  refine ⟨main, ?_⟩
  obtain ⟨k, hk1, hk2, hk3, _⟩ := main 1000000
  have h20 : k ≤ 20 := hk2 20 (by norm_num)
  have h19 : 19 < k := by
    by_contra hc
    have : 2 ^ k ≤ 2 ^ 19 := Nat.pow_le_pow_right (by decide) (by omega)
    have h219 : (2 : Nat) ^ 19 = 524288 := by norm_num
    omega
  have hk : k = 20 := by omega
  rw [hk3, hk]
  norm_num

/-! ## The segmentation loop of the read handler -/

theorem int_to_uint64_mod (v : Int) (h1 : -18446744073709551616 ≤ v)
    (h2 : v < 18446744073709551616) : int_to_uint64 v = v % 18446744073709551616 := by
  unfold int_to_uint64
  split <;> omega

theorem int_to_uint64_nonneg (v : Int) (h : 0 ≤ v) : int_to_uint64 v = v := by
  unfold int_to_uint64
  rw [if_neg (by omega)]

/-- In the segmentation loop of `evpl_socket_tcp_read`, when the segment
callback returns a negative `int` and the receive ring holds fewer than
`2^64 - 2^31` bytes, the test `evpl_iovec_ring_bytes(...) < length` holds
after the conversion of `length` to `uint64_t`: the loop is left by `break`,
the state is as before the call and `evpl_defer` is not called. -/
theorem segment_negative_breaks {σ : Type} (seg : σ → evpl_iovec_ring → Int) (fuel : Nat)
    (st : tcp_state σ) (h : seg st.bind.private_data st.bind.iovec_recv < 0)
    (hint : -2147483648 ≤ seg st.bind.private_data st.bind.iovec_recv)
    (hbytes : evpl_iovec_ring_bytes st.bind.iovec_recv < 18446744071562067968) :
    evpl_socket_tcp_read_segment seg (fuel + 1) st = some st := by
  have hb : (evpl_iovec_ring_bytes st.bind.iovec_recv : Int) <
      int_to_uint64 (seg st.bind.private_data st.bind.iovec_recv) := by
    unfold int_to_uint64
    rw [if_pos h]
    omega
  simp [evpl_socket_tcp_read_segment, hb]

/-- C6 evaluated on the code: with a receive ring of 7 bytes and a segment
callback returning `-1`, the converted length is `2^64 - 1`, the segmentation
loop is left by `break` and records no call; and the whole read handler, run
with that callback on a `readv` of 10 bytes, records
`evpl_event_mark_unreadable` only: `evpl_defer` on the close deferral is not
called. -/
theorem segment_negative_not_deferred :
    int_to_uint64 (-1) = 18446744073709551615 ∧
    evpl_socket_tcp_read_segment (fun _ _ => (-1 : Int)) 1
        (sample_state none [sample_bvec 7] [] false false) =
      some (sample_state none [sample_bvec 7] [] false false) ∧
    (evpl_socket_tcp_read_segment (fun _ _ => (-1 : Int)) 1
        (sample_state none [sample_bvec 7] [] false false)).map (fun st => st.trace) =
      some [] ∧
    (evpl_socket_tcp_read 1 (sample_read_env 10)
        (sample_state (some (fun _ _ => (-1 : Int))) [] [] false false)).map
      (fun st => (st.trace, st.bind.iovec_recv)) =
      some ([tcp_action.mark_unreadable],
        [{ buffer := 1, data := 1000, length := 10, eom := 0 }]) :=
  ⟨by decide, segment_negative_breaks _ 0 _ (by decide) (by decide) (by decide), by decide,
    by decide⟩

theorem frames_concat_length_cons (f : List Nat) (fs : List (List Nat)) :
    (frames_concat (f :: fs)).length = f.length + (frames_concat fs).length := by
  simp [frames_concat]

theorem frames_loop_run {σ : Type} (seg : σ → evpl_iovec_ring → Int)
    (memory : Nat → Nat) :
    ∀ (frames : List (List Nat)) (st : tcp_state σ) (fuel : Nat),
      (∀ f ∈ frames, f ≠ []) →
      bvecs_content memory st.bind.iovec_recv = frames_concat frames →
      (∀ pd ring i, i ≤ frames.length →
        bvecs_content memory ring = frames_concat (frames.drop i) →
        seg pd ring = ((((frames.drop i).map List.length).headD 0 : Nat) : Int)) →
      frames.length < fuel →
      ∃ st' emitted, evpl_socket_tcp_read_segment seg fuel st = some st' ∧
        st'.trace = st.trace ++ emitted ∧
        (notify_list emitted).map recv_msg_length =
          frames.map (fun f => some (f.length : Int)) ∧
        evpl_iovec_ring_bytes st'.bind.iovec_recv = 0 := by
  intro frames
  induction frames with
  | nil =>
    intro st fuel _ hcontent hseg hfuel
    obtain ⟨f, rfl⟩ : ∃ f, fuel = f + 1 := ⟨fuel - 1, by simp at hfuel; omega⟩
    have h0 : seg st.bind.private_data st.bind.iovec_recv = 0 := by
      have := hseg st.bind.private_data st.bind.iovec_recv 0 (Nat.le_refl _) hcontent
      simpa using this
    refine ⟨st, [], by simp [evpl_socket_tcp_read_segment, h0], by simp, by simp [notify_list],
      ?_⟩
    unfold evpl_iovec_ring_bytes
    rw [← bvecs_content_length memory, hcontent]
    rfl
  | cons f fs ih =>
    intro st fuel hpos hcontent hseg hfuel
    obtain ⟨fu, rfl⟩ : ∃ fu, fuel = fu + 1 := ⟨fuel - 1, by simp at hfuel; omega⟩
    have hfpos : 0 < f.length := List.length_pos.2 (hpos f (List.mem_cons_self _ _))
    have hlen : seg st.bind.private_data st.bind.iovec_recv = (f.length : Int) := by
      have := hseg st.bind.private_data st.bind.iovec_recv 0 (Nat.zero_le _) hcontent
      simpa using this
    have hbytes : bvec_bytes st.bind.iovec_recv = f.length + (frames_concat fs).length := by
      rw [← bvecs_content_length memory, hcontent, frames_concat_length_cons]
    have h0 : ¬ ((f.length : Int) = 0) := by omega
    have hb : ¬ ((evpl_iovec_ring_bytes st.bind.iovec_recv : Int) <
        int_to_uint64 (f.length : Int)) := by
      unfold evpl_iovec_ring_bytes
      rw [hbytes, int_to_uint64_nonneg _ (by omega)]
      omega
    have hneg : ¬ ((f.length : Int) < 0) := by omega
    have hcontent' : bvecs_content memory
        (evpl_iovec_ring_copyv st.bind.iovec_recv f.length).2 = frames_concat fs := by
      show bvecs_content memory (consume_list st.bind.iovec_recv f.length).1 = _
      rw [consume_list_content, hcontent, hbytes, Nat.min_eq_left (Nat.le_add_right _ _)]
      simp [frames_concat]
    obtain ⟨st', emitted, hrun, htrace, hnot, hzero⟩ :=
      ih { st with
            bind := { st.bind with
              iovec_recv := (evpl_iovec_ring_copyv st.bind.iovec_recv f.length).2,
              private_data := st.bind.notify_callback st.bind.private_data
                (evpl_notify.RECV_MSG (evpl_iovec_ring_copyv st.bind.iovec_recv f.length).1
                  (f.length : Int)) },
            trace := st.trace ++
              [tcp_action.notify (evpl_notify.RECV_MSG
                (evpl_iovec_ring_copyv st.bind.iovec_recv f.length).1 (f.length : Int))] ++
              List.replicate (evpl_iovec_ring_copyv st.bind.iovec_recv f.length).1
                tcp_action.iovec_release }
        fu (fun g hg => hpos g (List.mem_cons_of_mem _ hg)) hcontent'
        (fun pd ring i hi hc => by
          have := hseg pd ring (i + 1) (by simp; omega) (by simpa using hc)
          simpa using this)
        (by simp at hfuel; omega)
    refine ⟨st', [tcp_action.notify (evpl_notify.RECV_MSG
        (evpl_iovec_ring_copyv st.bind.iovec_recv f.length).1 (f.length : Int))] ++
        List.replicate (evpl_iovec_ring_copyv st.bind.iovec_recv f.length).1
          tcp_action.iovec_release ++ emitted, ?_, ?_, ?_, hzero⟩
    · rw [evpl_socket_tcp_read_segment]
      simp only [hlen, h0, hb, hneg, or_self, if_false, Int.toNat_ofNat, tcp_notify]
      exact hrun
    · rw [htrace]
      simp [List.append_assoc]
    · have hrel : ∀ (n : Nat) (l : List tcp_action),
          notify_list (List.replicate n tcp_action.iovec_release ++ l) = notify_list l := by
        intro n l
        induction n with
        | zero => rfl
        | succ n ihn => simpa [List.replicate_succ, notify_list] using ihn
      rw [List.append_assoc, List.singleton_append]
      simp only [notify_list]
      rw [hrel, List.map_cons, hnot]
      simp [recv_msg_length]

/-- C7: when the receive ring holds exactly the concatenation of `k` frames
of positive lengths `l1..lk` and the segment callback returns the length of
the frame at the front of the ring (0 on an empty ring), the segmentation loop
returns (for every bound above `k` on the calls of the callback), the calls
it records contain exactly `k` notifications, all `RECV_MSG`, with
`recv_msg.length` equal to `l1..lk` in that order, and the receive ring holds
0 bytes afterwards. -/
theorem segment_frames {σ : Type} (seg : σ → evpl_iovec_ring → Int) (memory : Nat → Nat)
    (frames : List (List Nat)) (st : tcp_state σ) (fuel : Nat)
    (hpos : ∀ f ∈ frames, f ≠ [])
    (hcontent : bvecs_content memory st.bind.iovec_recv = frames_concat frames)
    (hseg : ∀ pd ring i, i ≤ frames.length →
      bvecs_content memory ring = frames_concat (frames.drop i) →
      seg pd ring = ((((frames.drop i).map List.length).headD 0 : Nat) : Int))
    (hfuel : frames.length < fuel) :
    ∃ st' emitted, evpl_socket_tcp_read_segment seg fuel st = some st' ∧
      st'.trace = st.trace ++ emitted ∧
      (notify_list emitted).map recv_msg_length =
        frames.map (fun f => some (f.length : Int)) ∧
      evpl_iovec_ring_bytes st'.bind.iovec_recv = 0 :=
  frames_loop_run seg memory frames st fuel hpos hcontent hseg hfuel

theorem read_bytes_const (c : Nat) : ∀ (n addr : Nat),
    read_bytes (fun _ => c) addr n = List.replicate n c := by
  intro n
  induction n with
  | zero => intro addr; rfl
  | succ n ih => intro addr; rw [read_bytes, ih, List.replicate_succ]

theorem five_frames_lengths : five_frames.map List.length = [1, 37, 1024, 1, 65500] := by
  simp only [five_frames, List.map_cons, List.map_nil, List.length_replicate]

theorem frames_concat_length (fs : List (List Nat)) :
    (frames_concat fs).length = (fs.map List.length).sum := by
  induction fs with
  | nil => rfl
  | cons f fs ih => simp [frames_concat, ih]

theorem frames_concat_zero (fs : List (List Nat)) (h : ∀ f ∈ fs, ∀ x ∈ f, x = 0) :
    frames_concat fs = List.replicate (fs.map List.length).sum 0 := by
  rw [List.eq_replicate_iff]
  refine ⟨frames_concat_length fs, ?_⟩
  induction fs with
  | nil => intro b hb; simp [frames_concat] at hb
  | cons f fs ih =>
    intro b hb
    simp only [frames_concat, List.mem_append] at hb
    rcases hb with hb | hb
    · exact h f (List.mem_cons_self _ _) b hb
    · exact ih (fun g hg => h g (List.mem_cons_of_mem _ hg)) b hb

theorem five_frames_mem (f : List Nat) (hf : f ∈ five_frames) :
    f ≠ [] ∧ ∀ x ∈ f, x = 0 := by
  simp only [five_frames, List.mem_cons, List.mem_singleton, List.not_mem_nil, or_false] at hf
  rcases hf with rfl | rfl | rfl | rfl | rfl <;>
    exact ⟨fun h => by
        have hl := congrArg List.length h
        rw [List.length_replicate, List.length_nil] at hl
        omega,
      fun x hx => (List.mem_replicate.1 hx).2⟩

/-- C7 applied to the five frames of lengths 1, 37, 1024, 1, 65500 held by
the receive ring as one vector of 66563 bytes: five `RECV_MSG` notifications
with these lengths, in order, and an empty ring. -/
theorem segment_frames_witness :
    five_frames.length < 6 ∧
    ∃ st' emitted, evpl_socket_tcp_read_segment five_frames_seg 6 five_frames_state = some st' ∧
      st'.trace = emitted ∧
      (notify_list emitted).map recv_msg_length =
        [some 1, some 37, some 1024, some 1, some 65500] ∧
      (notify_list emitted).length = 5 ∧
      evpl_iovec_ring_bytes st'.bind.iovec_recv = 0 := by
  have hlen5 : five_frames.length = 5 := rfl
  refine ⟨by rw [hlen5]; decide, ?_⟩
  have hcontent : bvecs_content (fun _ => 0) five_frames_state.bind.iovec_recv =
      frames_concat five_frames := by
    rw [frames_concat_zero five_frames (fun f hf => (five_frames_mem f hf).2),
      five_frames_lengths]
    show read_bytes (fun _ => 0) 0 66563 ++ [] = _
    rw [read_bytes_const, List.append_nil]
    rfl
  have hseg : ∀ (pd : Unit) (ring : evpl_iovec_ring) (i : Nat), i ≤ five_frames.length →
      bvecs_content (fun _ => 0) ring = frames_concat (five_frames.drop i) →
      five_frames_seg pd ring =
        ((((five_frames.drop i).map List.length).headD 0 : Nat) : Int) := by
    intro pd ring i hi hc
    have hl := congrArg List.length hc
    rw [bvecs_content_length, frames_concat_length, List.map_drop, five_frames_lengths] at hl
    rw [List.map_drop, five_frames_lengths]
    rw [hlen5] at hi
    unfold five_frames_seg evpl_iovec_ring_bytes
    rw [hl]
    interval_cases i <;>
      simp only [List.drop_zero, List.drop_succ_cons, List.drop_nil, List.sum_cons,
        List.sum_nil, List.headD_cons, List.headD_nil] <;>
      norm_num
  obtain ⟨st', emitted, h1, h2, h3, h4⟩ :=
    segment_frames five_frames_seg (fun _ => 0) five_frames five_frames_state 6
      (fun f hf => (five_frames_mem f hf).1) hcontent hseg (by rw [hlen5]; decide)
  have h3' : (notify_list emitted).map recv_msg_length =
      [some 1, some 37, some 1024, some 1, some 65500] := by
    rw [h3]
    have := congrArg (List.map (fun n : Nat => some (n : Int))) five_frames_lengths
    simpa [List.map_map, Function.comp] using this
  refine ⟨st', emitted, h1, by simpa [five_frames_state, sample_state] using h2, h3', ?_, h4⟩
  have := congrArg List.length h3'
  simpa using this

/-! ## The write handler -/

theorem check_conn_connected {σ : Type} (rc err : Int) (st : tcp_state σ)
    (hc : st.connected = true) : evpl_check_conn rc err st = some st := by
  simp [evpl_check_conn, hc]

theorem check_conn_spec {σ : Type} (rc err : Int) (st : tcp_state σ)
    (h : st.connected = true ∨ rc = 0) :
    ∃ st1 e, evpl_check_conn rc err st = some st1 ∧ st1.trace = st.trace ++ e ∧
      st1.bind.iovec_send = st.bind.iovec_send ∧
      st1.bind.sent_notify = st.bind.sent_notify ∧
      (∀ n ∈ notify_list e, n = evpl_notify.CONNECTED) := by
  by_cases hc : st.connected = true
  · exact ⟨st, [], check_conn_connected rc err st hc, by simp, rfl, rfl, by simp [notify_list]⟩
  · have hrc : rc = 0 := by
      rcases h with h | h
      · exact absurd h hc
      · exact h
    have hcf : st.connected = false := by simpa using hc
    by_cases he : err ≠ 0
    · exact ⟨{ tcp_emit st tcp_action.defer_close with connected := true },
        [tcp_action.defer_close], by simp [evpl_check_conn, hcf, hrc, he],
        rfl, rfl, rfl, by simp [notify_list]⟩
    · exact ⟨{ tcp_notify st evpl_notify.CONNECTED with connected := true },
        [tcp_action.notify evpl_notify.CONNECTED],
        by simp [evpl_check_conn, hcf, hrc, he],
        rfl, rfl, rfl, by simp [notify_list]⟩

theorem write_body_spec {σ : Type} (env : write_env) (niov : Nat) (total : Int)
    (st : tcp_state σ) :
    ∃ e, (tcp_write_body env niov total st).2.trace = st.trace ++ e ∧
      (tcp_write_body env niov total st).2.bind.finish = st.bind.finish ∧
      tcp_action.write_disinterest ∉ e ∧
      (niov ≠ 0 → 0 < env.res → tcp_action.defer_close ∉ e) ∧
      notify_list e =
        (if niov ≠ 0 ∧ 0 < env.res ∧ st.bind.sent_notify = true
          then [evpl_notify.SENT env.res 0] else []) ∧
      (tcp_write_body env niov total st).2.bind.iovec_send =
        (if niov ≠ 0 ∧ 0 < env.res
          then evpl_iovec_ring_consume st.bind.iovec_send env.res.toNat
          else st.bind.iovec_send) := by
  unfold tcp_write_body
  by_cases hn : niov = 0
  · exact ⟨[], by simp [hn], by simp [hn], by simp, by simp [hn], by simp [hn, notify_list],
      by simp [hn]⟩
  · by_cases hneg : env.res < 0
    · have hnp : ¬ (0 < env.res) := by omega
      by_cases herr : env.errno ≠ EAGAIN ∧ env.errno ≠ EWOULDBLOCK
      · exact ⟨[tcp_action.defer_close], by simp [hn, hneg, herr, tcp_emit],
          by simp [hn, hneg, herr, tcp_emit], by simp, fun _ h => absurd h hnp,
          by simp [hnp, notify_list], by simp [hn, hneg, herr, hnp, tcp_emit]⟩
      · exact ⟨[], by simp only [hn, hneg, herr, if_true, if_false, List.append_nil],
          by simp only [hn, hneg, herr, if_true, if_false], by simp,
          fun _ h => absurd h hnp, by simp [hnp, notify_list],
          by simp only [hn, hneg, herr, hnp, if_true, if_false, and_false, ne_eq,
            not_false_eq_true]⟩
    · by_cases hz : env.res = 0
      · have hnp : ¬ (0 < env.res) := by omega
        exact ⟨[tcp_action.defer_close], by simp [hn, hz, tcp_emit],
          by simp [hn, hz, tcp_emit], by simp, fun _ h => absurd h hnp,
          by simp [hz, notify_list], by simp [hn, hz, tcp_emit]⟩
      · have hp : 0 < env.res := by omega
        by_cases ht : env.res ≠ total <;> by_cases hs : st.bind.sent_notify = true
        · exact ⟨[tcp_action.mark_unwritable, tcp_action.notify (evpl_notify.SENT env.res 0)],
            by simp [hn, hneg, hz, ht, hs, tcp_emit, tcp_notify],
            by simp [hn, hneg, hz, ht, hs, tcp_emit, tcp_notify], by simp, by simp,
            by simp [hn, hp, hs, notify_list],
            by simp [hn, hneg, hz, ht, hs, hp, tcp_emit, tcp_notify]⟩
        · exact ⟨[tcp_action.mark_unwritable],
            by simp [hn, hneg, hz, ht, hs, tcp_emit, tcp_notify],
            by simp [hn, hneg, hz, ht, hs, tcp_emit, tcp_notify], by simp, by simp,
            by simp [hn, hp, hs, notify_list],
            by simp [hn, hneg, hz, ht, hs, hp, tcp_emit, tcp_notify]⟩
        · exact ⟨[tcp_action.notify (evpl_notify.SENT env.res 0)],
            by simp [hn, hneg, hz, ht, hs, tcp_emit, tcp_notify],
            by simp [hn, hneg, hz, ht, hs, tcp_emit, tcp_notify], by simp, by simp,
            by simp [hn, hp, hs, notify_list],
            by simp [hn, hneg, hz, ht, hs, hp, tcp_emit, tcp_notify]⟩
        · exact ⟨[],
            by simp [hn, hneg, hz, ht, hs, tcp_emit, tcp_notify],
            by simp [hn, hneg, hz, ht, hs, tcp_emit, tcp_notify], by simp, by simp,
            by simp [hn, hp, hs, notify_list],
            by simp [hn, hneg, hz, ht, hs, hp, tcp_emit, tcp_notify]⟩

theorem write_out_spec {σ : Type} (res total : Int) (st : tcp_state σ) :
    ∃ e, (tcp_write_out res total st).trace = st.trace ++ e ∧
      (tcp_write_out res total st).bind = st.bind ∧
      (tcp_action.write_disinterest ∈ e ↔
        evpl_iovec_ring_is_empty st.bind.iovec_send = true) ∧
      (st.bind.finish = true → evpl_iovec_ring_is_empty st.bind.iovec_send = true →
        tcp_action.defer_close ∈ e) ∧
      (evpl_iovec_ring_is_empty st.bind.iovec_send = false → tcp_action.defer_close ∉ e) ∧
      notify_list e = [] := by
  unfold tcp_write_out
  by_cases hem : evpl_iovec_ring_is_empty st.bind.iovec_send = true
  · by_cases hf : st.bind.finish = true
    · by_cases ht : res ≠ total
      · exact ⟨[tcp_action.write_disinterest, tcp_action.defer_close,
            tcp_action.mark_unwritable],
          by simp [hem, hf, ht, tcp_emit], by simp [hem, hf, ht, tcp_emit],
          by simp [hem], by simp, by simp [hem], by simp [notify_list]⟩
      · exact ⟨[tcp_action.write_disinterest, tcp_action.defer_close],
          by simp [hem, hf, ht, tcp_emit], by simp [hem, hf, ht, tcp_emit],
          by simp [hem], by simp, by simp [hem], by simp [notify_list]⟩
    · by_cases ht : res ≠ total
      · exact ⟨[tcp_action.write_disinterest, tcp_action.mark_unwritable],
          by simp [hem, hf, ht, tcp_emit], by simp [hem, hf, ht, tcp_emit],
          by simp [hem], by simp [hf], by simp [hem], by simp [notify_list]⟩
      · exact ⟨[tcp_action.write_disinterest],
          by simp [hem, hf, ht, tcp_emit], by simp [hem, hf, ht, tcp_emit],
          by simp [hem], by simp [hf], by simp [hem], by simp [notify_list]⟩
  · by_cases ht : res ≠ total
    · exact ⟨[tcp_action.mark_unwritable],
        by simp [hem, ht, tcp_emit], by simp [hem, ht, tcp_emit],
        by simp [hem], by simp [hem], by simp, by simp [notify_list]⟩
    · exact ⟨[],
        by simp [hem, ht], by simp [hem, ht],
        by simp [hem], by simp [hem], by simp, by simp [notify_list]⟩

theorem write_trace_spec {σ : Type} (env : write_env) (st : tcp_state σ) :
    ∃ e, (tcp_write_out
          (tcp_write_body env (evpl_iovec_ring_iov env.maxiov st.bind.iovec_send).1
            ((evpl_iovec_ring_iov env.maxiov st.bind.iovec_send).2.1 : Int) st).1
          ((evpl_iovec_ring_iov env.maxiov st.bind.iovec_send).2.1 : Int)
          (tcp_write_body env (evpl_iovec_ring_iov env.maxiov st.bind.iovec_send).1
            ((evpl_iovec_ring_iov env.maxiov st.bind.iovec_send).2.1 : Int) st).2).trace =
        st.trace ++ e ∧
      (tcp_action.write_disinterest ∈ e ↔
        evpl_iovec_ring_is_empty (tcp_write_body env
          (evpl_iovec_ring_iov env.maxiov st.bind.iovec_send).1
          ((evpl_iovec_ring_iov env.maxiov st.bind.iovec_send).2.1 : Int) st).2.bind.iovec_send
          = true) ∧
      (st.bind.finish = true →
        evpl_iovec_ring_is_empty (tcp_write_body env
          (evpl_iovec_ring_iov env.maxiov st.bind.iovec_send).1
          ((evpl_iovec_ring_iov env.maxiov st.bind.iovec_send).2.1 : Int) st).2.bind.iovec_send
          = true → tcp_action.defer_close ∈ e) ∧
      ((evpl_iovec_ring_iov env.maxiov st.bind.iovec_send).1 ≠ 0 → 0 < env.res →
        evpl_iovec_ring_is_empty (tcp_write_body env
          (evpl_iovec_ring_iov env.maxiov st.bind.iovec_send).1
          ((evpl_iovec_ring_iov env.maxiov st.bind.iovec_send).2.1 : Int) st).2.bind.iovec_send
          = false → tcp_action.defer_close ∉ e) ∧
      notify_list e =
        (if (evpl_iovec_ring_iov env.maxiov st.bind.iovec_send).1 ≠ 0 ∧ 0 < env.res ∧
            st.bind.sent_notify = true
          then [evpl_notify.SENT env.res 0] else []) := by
  obtain ⟨e1, h1t, h1f, h1w, h1d, h1n, _⟩ := write_body_spec env
    (evpl_iovec_ring_iov env.maxiov st.bind.iovec_send).1
    ((evpl_iovec_ring_iov env.maxiov st.bind.iovec_send).2.1 : Int) st
  obtain ⟨e2, h2t, _, h2w, h2f, h2d, h2n⟩ := write_out_spec
    (tcp_write_body env (evpl_iovec_ring_iov env.maxiov st.bind.iovec_send).1
      ((evpl_iovec_ring_iov env.maxiov st.bind.iovec_send).2.1 : Int) st).1
    ((evpl_iovec_ring_iov env.maxiov st.bind.iovec_send).2.1 : Int)
    (tcp_write_body env (evpl_iovec_ring_iov env.maxiov st.bind.iovec_send).1
      ((evpl_iovec_ring_iov env.maxiov st.bind.iovec_send).2.1 : Int) st).2
  have hnl : ∀ a b : List tcp_action, notify_list (a ++ b) = notify_list a ++ notify_list b := by
    intro a b
    induction a with
    | nil => rfl
    | cons x a ih => cases x <;> simp [notify_list, ih]
  refine ⟨e1 ++ e2, by rw [h2t, h1t, List.append_assoc], ?_, ?_, ?_, ?_⟩
  · rw [List.mem_append, ← h2w]
    exact ⟨fun h => h.resolve_left h1w, Or.inr⟩
  · intro hf hem
    exact List.mem_append_right _ (h2f (by rw [h1f]; exact hf) hem)
  · intro hn hp hem
    rw [List.mem_append]
    exact fun h => h.elim (h1d hn hp) (h2d hem)
  · rw [hnl, h1n, h2n, List.append_nil]

/-- C9: on a connected socket `evpl_socket_tcp_write` returns, and among the
calls it records: `evpl_event_write_disinterest` occurs if and only if the
send ring is empty when the handler finishes; with `FINISH` set and the send
ring empty at the end, `evpl_defer` on the close deferral occurs; and after a
successful write (`writev` called, `0 < res`) that leaves the send ring
non-empty, `evpl_defer` does not occur. -/
theorem write_interest_and_finish {σ : Type} (env : write_env) (st : tcp_state σ)
    (hc : st.connected = true) :
    ∃ st' emitted, evpl_socket_tcp_write env st = some st' ∧
      st'.trace = st.trace ++ emitted ∧
      (tcp_action.write_disinterest ∈ emitted ↔
        evpl_iovec_ring_is_empty st'.bind.iovec_send = true) ∧
      (st.bind.finish = true → evpl_iovec_ring_is_empty st'.bind.iovec_send = true →
        tcp_action.defer_close ∈ emitted) ∧
      ((evpl_iovec_ring_iov env.maxiov st.bind.iovec_send).1 ≠ 0 → 0 < env.res →
        evpl_iovec_ring_is_empty st'.bind.iovec_send = false →
        tcp_action.defer_close ∉ emitted) := by
  obtain ⟨e, ht, hw, hf, hd, _⟩ := write_trace_spec env st
  obtain ⟨_, _, hb, _⟩ := write_out_spec
    (tcp_write_body env (evpl_iovec_ring_iov env.maxiov st.bind.iovec_send).1
      ((evpl_iovec_ring_iov env.maxiov st.bind.iovec_send).2.1 : Int) st).1
    ((evpl_iovec_ring_iov env.maxiov st.bind.iovec_send).2.1 : Int)
    (tcp_write_body env (evpl_iovec_ring_iov env.maxiov st.bind.iovec_send).1
      ((evpl_iovec_ring_iov env.maxiov st.bind.iovec_send).2.1 : Int) st).2
  refine ⟨_, e, by simp only [evpl_socket_tcp_write, check_conn_connected _ _ st hc,
    Option.map_some'], ht, ?_, ?_, ?_⟩
  · rw [hb]; exact hw
  · rw [hb]; exact hf
  · rw [hb]; exact hd

/-- C9 applied to a connected bind with `FINISH` set whose send ring holds 5
and 6 bytes: a write of all 11 bytes empties the ring, and the handler drops
write interest and arms the close deferral. -/
theorem write_interest_and_finish_witness :
    (sample_state none [] [sample_bvec 5, sample_bvec 6] false true).connected = true ∧
    (evpl_socket_tcp_write (sample_write_env 11)
        (sample_state none [] [sample_bvec 5, sample_bvec 6] false true)).map
      (fun st => (st.trace, st.bind.iovec_send)) =
      some ([tcp_action.write_disinterest, tcp_action.defer_close], []) ∧
    ∃ st' emitted, evpl_socket_tcp_write (sample_write_env 11)
        (sample_state none [] [sample_bvec 5, sample_bvec 6] false true) = some st' ∧
      st'.trace = emitted ∧
      (tcp_action.write_disinterest ∈ emitted ↔
        evpl_iovec_ring_is_empty st'.bind.iovec_send = true) := by
  refine ⟨rfl, by decide, ?_⟩
  obtain ⟨st', emitted, h1, h2, h3, _⟩ := write_interest_and_finish (sample_write_env 11)
    (sample_state none [] [sample_bvec 5, sample_bvec 6] false true) rfl
  exact ⟨st', emitted, h1, by simpa [sample_state] using h2, h3⟩

theorem notify_list_append (a b : List tcp_action) :
    notify_list (a ++ b) = notify_list a ++ notify_list b := by
  induction a with
  | nil => rfl
  | cons x a ih => cases x <;> simp [notify_list, ih]

theorem bvec_bytes_take_le (l : List evpl_bvec) (k : Nat) :
    bvec_bytes (l.take k) ≤ bvec_bytes l := by
  induction l generalizing k with
  | nil => simp
  | cons b l ih =>
    cases k with
    | zero => simp [bvec_bytes]
    | succ k =>
      have := ih k
      simp only [List.take_succ_cons, bvec_bytes_cons]
      omega

theorem write_body_sent_notify {σ : Type} (env : write_env) (niov : Nat) (total : Int)
    (st : tcp_state σ) :
    (tcp_write_body env niov total st).2.bind.sent_notify = st.bind.sent_notify ∧
      (tcp_write_body env niov total st).2.connected = st.connected := by
  unfold tcp_write_body
  by_cases hn : niov = 0
  · simp [hn]
  · by_cases hneg : env.res < 0
    · by_cases herr : env.errno ≠ EAGAIN ∧ env.errno ≠ EWOULDBLOCK
      · simp [hn, hneg, herr, tcp_emit]
      · simp only [hn, hneg, herr, if_true, if_false, and_self]
    · by_cases hz : env.res = 0
      · simp [hn, hz, tcp_emit]
      · by_cases ht : env.res ≠ total <;> by_cases hs : st.bind.sent_notify = true <;>
          simp [hn, hneg, hz, ht, hs, tcp_emit, tcp_notify]

theorem write_step_spec {σ : Type} (env : write_env) (st : tcp_state σ)
    (hconn : st.connected = true ∨ env.rc = 0)
    (hw : env.res ≤ ((evpl_iovec_ring_iov env.maxiov st.bind.iovec_send).2.1 : Int)) :
    ∃ st' emitted, evpl_socket_tcp_write env st = some st' ∧
      st'.trace = st.trace ++ emitted ∧
      st'.bind.sent_notify = st.bind.sent_notify ∧
      (notify_list emitted).filter is_sent =
        (if (evpl_iovec_ring_iov env.maxiov st.bind.iovec_send).1 ≠ 0 ∧ 0 < env.res ∧
            st.bind.sent_notify = true
          then [evpl_notify.SENT env.res 0] else []) ∧
      (evpl_iovec_ring_bytes st.bind.iovec_send : Int) -
          (evpl_iovec_ring_bytes st'.bind.iovec_send : Int) =
        (if (evpl_iovec_ring_iov env.maxiov st.bind.iovec_send).1 ≠ 0 ∧ 0 < env.res
          then env.res else 0) ∧
      (st.bind.sent_notify = true →
        ((notify_list emitted).map sent_bytes).sum =
          (evpl_iovec_ring_bytes st.bind.iovec_send : Int) -
            (evpl_iovec_ring_bytes st'.bind.iovec_send : Int)) := by
  obtain ⟨st1, e0, hcc, ht0, hsend, hsn, hconnected⟩ :=
    check_conn_spec env.rc env.so_error st hconn
  obtain ⟨e1, h1t, _, _, _, h1n, h1s⟩ := write_body_spec env
    (evpl_iovec_ring_iov env.maxiov st1.bind.iovec_send).1
    ((evpl_iovec_ring_iov env.maxiov st1.bind.iovec_send).2.1 : Int) st1
  obtain ⟨h1sn, _⟩ := write_body_sent_notify env
    (evpl_iovec_ring_iov env.maxiov st1.bind.iovec_send).1
    ((evpl_iovec_ring_iov env.maxiov st1.bind.iovec_send).2.1 : Int) st1
  obtain ⟨e2, h2t, h2b, _, _, _, h2n⟩ := write_out_spec
    (tcp_write_body env (evpl_iovec_ring_iov env.maxiov st1.bind.iovec_send).1
      ((evpl_iovec_ring_iov env.maxiov st1.bind.iovec_send).2.1 : Int) st1).1
    ((evpl_iovec_ring_iov env.maxiov st1.bind.iovec_send).2.1 : Int)
    (tcp_write_body env (evpl_iovec_ring_iov env.maxiov st1.bind.iovec_send).1
      ((evpl_iovec_ring_iov env.maxiov st1.bind.iovec_send).2.1 : Int) st1).2
  have hf0 : (notify_list e0).filter is_sent = [] := by
    rw [List.filter_eq_nil_iff]
    intro n hn
    rw [hconnected n hn]
    simp [is_sent]
  have hs0 : ((notify_list e0).map sent_bytes).sum = 0 := by
    have : ∀ l : List evpl_notify, (∀ n ∈ l, n = evpl_notify.CONNECTED) →
        (l.map sent_bytes).sum = 0 := by
      intro l
      induction l with
      | nil => intro _; rfl
      | cons a l ih =>
        intro h
        rw [List.map_cons, List.sum_cons, ih (fun n hn => h n (List.mem_cons_of_mem _ hn)),
          h a (List.mem_cons_self _ _)]
        rfl
    exact this _ hconnected
  have hbytes : (evpl_iovec_ring_bytes st.bind.iovec_send : Int) -
      (evpl_iovec_ring_bytes (tcp_write_body env
        (evpl_iovec_ring_iov env.maxiov st1.bind.iovec_send).1
        ((evpl_iovec_ring_iov env.maxiov st1.bind.iovec_send).2.1 : Int) st1).2.bind.iovec_send
        : Int) =
      (if (evpl_iovec_ring_iov env.maxiov st.bind.iovec_send).1 ≠ 0 ∧ 0 < env.res
        then env.res else 0) := by
    rw [h1s, hsend]
    by_cases hcnd : (evpl_iovec_ring_iov env.maxiov st.bind.iovec_send).1 ≠ 0 ∧ 0 < env.res
    · rw [if_pos hcnd, if_pos hcnd]
      have hle := bvec_bytes_take_le st.bind.iovec_send env.maxiov.toNat
      have hc := consume_list_bytes st.bind.iovec_send env.res.toNat
      have hw' : env.res ≤ (bvec_bytes (st.bind.iovec_send.take env.maxiov.toNat) : Int) := hw
      have hres : (env.res.toNat : Int) = env.res := Int.toNat_of_nonneg (by omega)
      unfold evpl_iovec_ring_bytes evpl_iovec_ring_consume
      omega
    · rw [if_neg hcnd, if_neg hcnd]
      omega
  refine ⟨_, e0 ++ (e1 ++ e2),
    (by simp only [evpl_socket_tcp_write, hcc, Option.map_some']; rfl), ?_, ?_, ?_, ?_, ?_⟩
  · rw [h2t, h1t, ht0]
    simp [List.append_assoc]
  · rw [h2b, h1sn, hsn]
  · rw [notify_list_append, notify_list_append, h2n, List.append_nil, List.filter_append, hf0,
      List.nil_append, h1n, hsend, hsn]
    split <;> simp [is_sent]
  · rw [h2b]
    exact hbytes
  · intro hsent
    rw [h2b, hbytes, notify_list_append, notify_list_append, h2n, List.append_nil,
      List.map_append, List.sum_append, hs0, h1n, hsend, hsn]
    by_cases hcnd : (evpl_iovec_ring_iov env.maxiov st.bind.iovec_send).1 ≠ 0 ∧ 0 < env.res
    · rw [if_pos ⟨hcnd.1, hcnd.2, hsent⟩, if_pos hcnd]
      simp [sent_bytes]
    · rw [if_neg (fun h => hcnd ⟨h.1, h.2.1⟩), if_neg hcnd]
      simp

theorem write_run_spec {σ : Type} : ∀ (steps : List (evpl_iovec_ring × write_env))
    (st : tcp_state σ), st.bind.sent_notify = true → write_run_ok steps st = true →
    ∃ st' removed emitted, write_run steps st = some (st', removed) ∧
      st'.trace = st.trace ++ emitted ∧
      ((notify_list emitted).map sent_bytes).sum = removed := by
  intro steps
  induction steps with
  | nil =>
    intro st _ _
    exact ⟨st, 0, [], rfl, by simp, by simp [notify_list]⟩
  | cons step steps ih =>
    intro st hs hok
    simp only [write_run_ok, Bool.and_eq_true, decide_eq_true_eq] at hok
    obtain ⟨⟨hconn, hw⟩, hrest⟩ := hok
    obtain ⟨st1, e1, h1, h1t, h1s, _, _, h1sum⟩ :=
      write_step_spec step.2 (tcp_enqueue st step.1) hconn hw
    rw [h1] at hrest
    obtain ⟨st', removed, e2, h2, h2t, h2sum⟩ := ih st1 (by rw [h1s]; exact hs) hrest
    refine ⟨st', _, e1 ++ e2,
      (by simp only [write_run, h1, h2, Option.some_bind, Option.map_some']; rfl), ?_, ?_⟩
    · rw [h2t, h1t, List.append_assoc]
      rfl
    · rw [notify_list_append, List.map_append, List.sum_append, h2sum, h1sum (by exact hs)]

/-- C10: in a run of `evpl_socket_tcp_write` in which `getsockopt` does not
fail fatally and `writev` returns at most the `total` it was given, the
notifications the handler delivers contain a `SENT` if and only if
`SENT_NOTIFY` is set and `writev` was called and returned `res > 0`; there is
then exactly one, with `sent.bytes = res` and `sent.msgs = 0`; the number of
bytes the run removes from the send ring is `res` in that case (0 when
`writev` is not called or fails).  Hence, with `SENT_NOTIFY` set, over any
sequence of such runs (the application queueing vectors in between) the
`sent.bytes` of the notifications sum to the number of bytes removed from the
send ring. -/
theorem write_sent_spec {σ : Type} (env : write_env) (st : tcp_state σ)
    (hconn : st.connected = true ∨ env.rc = 0)
    (hw : env.res ≤ ((evpl_iovec_ring_iov env.maxiov st.bind.iovec_send).2.1 : Int)) :
    (∃ st' emitted, evpl_socket_tcp_write env st = some st' ∧
      st'.trace = st.trace ++ emitted ∧
      (notify_list emitted).filter is_sent =
        (if (evpl_iovec_ring_iov env.maxiov st.bind.iovec_send).1 ≠ 0 ∧ 0 < env.res ∧
            st.bind.sent_notify = true
          then [evpl_notify.SENT env.res 0] else []) ∧
      (evpl_iovec_ring_bytes st.bind.iovec_send : Int) -
          (evpl_iovec_ring_bytes st'.bind.iovec_send : Int) =
        (if (evpl_iovec_ring_iov env.maxiov st.bind.iovec_send).1 ≠ 0 ∧ 0 < env.res
          then env.res else 0)) ∧
    (∀ (steps : List (evpl_iovec_ring × write_env)) (st0 : tcp_state σ),
      st0.bind.sent_notify = true → write_run_ok steps st0 = true →
      ∃ st' removed emitted, write_run steps st0 = some (st', removed) ∧
        st'.trace = st0.trace ++ emitted ∧
        ((notify_list emitted).map sent_bytes).sum = removed) := by
  obtain ⟨st', emitted, h1, h2, _, h3, h4, _⟩ := write_step_spec env st hconn hw
  exact ⟨⟨st', emitted, h1, h2, h3, h4⟩, write_run_spec⟩

/-- C10 applied to `sent_state` with a `writev` of 7 of the 11 bytes, and to
the two runs `sent_steps`: one `SENT` of 7 bytes per run, 14 bytes removed
from the send ring. -/
theorem write_sent_witness :
    ((sent_state.connected = true ∨ (sample_write_env 7).rc = 0) ∧
      (sample_write_env 7).res ≤
        ((evpl_iovec_ring_iov (sample_write_env 7).maxiov sent_state.bind.iovec_send).2.1 : Int)) ∧
    (evpl_socket_tcp_write (sample_write_env 7) sent_state).map
        (fun st => (st.trace, evpl_iovec_ring_bytes st.bind.iovec_send)) =
      some ([tcp_action.mark_unwritable, tcp_action.notify (evpl_notify.SENT 7 0),
        tcp_action.mark_unwritable], 4) ∧
    (write_run sent_steps sent_state).map (fun r => (notify_list r.1.trace, r.2)) =
      some ([evpl_notify.SENT 7 0, evpl_notify.SENT 7 0], 14) ∧
    (∃ st' emitted, evpl_socket_tcp_write (sample_write_env 7) sent_state = some st' ∧
      st'.trace = emitted ∧
      (notify_list emitted).filter is_sent = [evpl_notify.SENT 7 0]) ∧
    (∃ st' removed emitted, write_run sent_steps sent_state = some (st', removed) ∧
      st'.trace = emitted ∧ ((notify_list emitted).map sent_bytes).sum = removed) := by
  have h := write_sent_spec (sample_write_env 7) sent_state (Or.inl rfl) (by decide)
  refine ⟨⟨Or.inl rfl, by decide⟩, by decide, by decide, ?_, ?_⟩
  · obtain ⟨st', emitted, h1, h2, h3, _⟩ := h.1
    refine ⟨st', emitted, h1, by simpa [sent_state, sample_state] using h2, ?_⟩
    rw [h3]
    decide
  · obtain ⟨st', removed, emitted, h1, h2, h3⟩ := h.2 sent_steps sent_state rfl (by decide)
    exact ⟨st', removed, emitted, h1, by simpa [sent_state, sample_state] using h2, h3⟩

/-! ## Releasing a reference -/

/-- C13: `evpl_bvec_decref` aborts if and only if the refcount of the byte
vector's buffer is 0 when it is called; in that case the state at the abort
is the state at the call (no reference count changed, nothing passed to
`evpl_buffer_release`); when the refcount is not 0 the call returns after one
call of `evpl_buffer_release`, on the buffer of the byte vector: the log of
released buffers grows by exactly that buffer.  The function
`evpl_bvec_decref` used by the ring operations is the result of this
outcome. -/
theorem decref_abort_iff (bufs : evpl_buffers) (bvec : evpl_bvec) :
    ((∃ s, evpl_bvec_decref_outcome bufs bvec = call_outcome.aborted s) ↔
      bufs.refcnt bvec.buffer = 0) ∧
    (bufs.refcnt bvec.buffer = 0 →
      evpl_bvec_decref_outcome bufs bvec = call_outcome.aborted bufs) ∧
    (bufs.refcnt bvec.buffer ≠ 0 →
      evpl_bvec_decref_outcome bufs bvec =
        call_outcome.returned (evpl_buffer_release bufs bvec.buffer) ∧
      (evpl_buffer_release bufs bvec.buffer).released = bufs.released ++ [bvec.buffer] ∧
      (evpl_buffer_release bufs bvec.buffer).released.count bvec.buffer =
        bufs.released.count bvec.buffer + 1) ∧
    evpl_bvec_decref bufs bvec = (evpl_bvec_decref_outcome bufs bvec).result := by
  by_cases h : bufs.refcnt bvec.buffer = 0
  · have ho : evpl_bvec_decref_outcome bufs bvec = call_outcome.aborted bufs := by
      simp [evpl_bvec_decref_outcome, evpl_core_abort_if, h]
    refine ⟨⟨fun _ => h, fun _ => ⟨bufs, ho⟩⟩, fun _ => ho, fun hne => absurd h hne, ?_⟩
    rw [ho]
    simp [evpl_bvec_decref, h, call_outcome.result]
  · have ho : evpl_bvec_decref_outcome bufs bvec =
        call_outcome.returned (evpl_buffer_release bufs bvec.buffer) := by
      simp [evpl_bvec_decref_outcome, evpl_core_abort_if, h]
    refine ⟨⟨fun ⟨s, hs⟩ => ?_, fun h0 => absurd h0 h⟩, fun h0 => absurd h0 h,
      fun _ => ⟨ho, rfl, ?_⟩, ?_⟩
    · rw [ho] at hs
      cases hs
    · simp [evpl_buffer_release, List.count_append]
    · rw [ho]
      simp [evpl_bvec_decref, h, call_outcome.result]

/-- C13 applied to `two_buffers`: a byte vector of buffer 2 (no reference)
aborts, one of buffer 1 (two references) is released once. -/
theorem decref_abort_witness :
    (two_buffers.refcnt (sample_bvec 2).buffer = 0 ∧
      evpl_bvec_decref_outcome two_buffers (sample_bvec 2) =
        call_outcome.aborted two_buffers) ∧
    (two_buffers.refcnt (sample_bvec 1).buffer ≠ 0 ∧
      (evpl_buffer_release two_buffers (sample_bvec 1).buffer).released = [1] ∧
      (evpl_buffer_release two_buffers (sample_bvec 1).buffer).refcnt 1 = 1 ∧
      (evpl_bvec_decref two_buffers (sample_bvec 1)).isSome = true) :=
  ⟨⟨by decide, (decref_abort_iff two_buffers (sample_bvec 2)).2.1 (by decide)⟩,
   ⟨by decide, ((decref_abort_iff two_buffers (sample_bvec 1)).2.2.1 (by decide)).2.1,
    by decide, by decide⟩⟩

/-! ## The read handler -/

theorem read_buffers_spec {σ : Type} (env : read_env) (st : tcp_state σ) :
    (tcp_read_buffers env st).bind = st.bind ∧
      (tcp_read_buffers env st).trace = st.trace ∧
      (tcp_read_buffers env st).connected = st.connected := by
  unfold tcp_read_buffers
  simp only
  split_ifs <;> exact ⟨rfl, rfl, rfl⟩

theorem read_appended_spec {σ : Type} (env : read_env) (st : tcp_state σ) :
    (tcp_read_appended env st).trace = st.trace ∧
      (tcp_read_appended env st).connected = st.connected ∧
      (tcp_read_appended env st).bind.segment_callback = st.bind.segment_callback ∧
      (tcp_read_appended env st).bind.notify_callback = st.bind.notify_callback ∧
      (tcp_read_appended env st).bind.private_data = st.bind.private_data := by
  unfold tcp_read_appended
  simp only
  split_ifs <;> exact ⟨rfl, rfl, rfl, rfl, rfl⟩

theorem read_unfold {σ : Type} (fuel : Nat) (env : read_env) (st : tcp_state σ)
    (hc : st.connected = true) :
    evpl_socket_tcp_read fuel env st =
      (if env.res < 0 then
        some (if env.errno ≠ EAGAIN ∧ env.errno ≠ EWOULDBLOCK
          then tcp_emit (tcp_read_buffers env st) tcp_action.defer_close
          else tcp_read_buffers env st)
      else if env.res = 0 then
        some (tcp_emit (tcp_read_buffers env st) tcp_action.defer_close)
      else
        match (tcp_read_appended env (tcp_read_buffers env st)).bind.segment_callback with
        | some seg => evpl_socket_tcp_read_segment seg fuel
            (tcp_read_appended env (tcp_read_buffers env st))
        | none => some (tcp_notify (tcp_read_appended env (tcp_read_buffers env st))
            evpl_notify.RECV_DATA)).map
        (fun s => if env.res < ((tcp_read_buffers env st).recv1.length : Int) +
            ((tcp_read_buffers env st).recv2.length : Int)
          then tcp_emit s tcp_action.mark_unreadable else s) := by
  simp only [evpl_socket_tcp_read, check_conn_connected _ _ st hc, Option.some_bind,
    tcp_read_buffers, tcp_read_appended]

/-- C11: on a connected socket, when `readv` fails (`res < 0`) the read
handler returns with the bind as it was (the receive ring unchanged, no
callback run).  With `errno` equal to `EAGAIN` or `EWOULDBLOCK` the only call
it records is `evpl_event_mark_unreadable`: the close deferral is not armed
and nothing is notified.  With any other `errno` it records `evpl_defer` on
the close deferral and then `evpl_event_mark_unreadable`. -/
theorem read_failure_spec {σ : Type} (fuel : Nat) (env : read_env) (st : tcp_state σ)
    (hc : st.connected = true) (hneg : env.res < 0) :
    ∃ st', evpl_socket_tcp_read fuel env st = some st' ∧
      st'.bind = st.bind ∧
      ((env.errno = EAGAIN ∨ env.errno = EWOULDBLOCK) →
        st'.trace = st.trace ++ [tcp_action.mark_unreadable]) ∧
      ((env.errno ≠ EAGAIN ∧ env.errno ≠ EWOULDBLOCK) →
        st'.trace = st.trace ++ [tcp_action.defer_close, tcp_action.mark_unreadable]) := by
  obtain ⟨hb, ht, _⟩ := read_buffers_spec env st
  have htot : env.res < ((tcp_read_buffers env st).recv1.length : Int) +
      ((tcp_read_buffers env st).recv2.length : Int) := by omega
  rw [read_unfold fuel env st hc, if_pos hneg, Option.map_some', if_pos htot]
  by_cases herr : env.errno ≠ EAGAIN ∧ env.errno ≠ EWOULDBLOCK
  · rw [if_pos herr]
    refine ⟨_, rfl, hb, fun h => ?_, fun _ => ?_⟩
    · rcases h with h | h
      · exact absurd h herr.1
      · exact absurd h herr.2
    · simp [tcp_emit, ht]
  · rw [if_neg herr]
    refine ⟨_, rfl, hb, fun _ => ?_, fun h => absurd h herr⟩
    simp [tcp_emit, ht]

/-- C11 applied to a connected socket holding 7 received bytes: `readv`
returns `-1` with `errno = EAGAIN`, and with `errno = 104`. -/
theorem read_failure_witness :
    ((sample_state none [sample_bvec 7] [] false false).connected = true ∧
      (sample_read_env (-1)).res < 0) ∧
    (evpl_socket_tcp_read 1 { sample_read_env (-1) with errno := EAGAIN }
        (sample_state none [sample_bvec 7] [] false false)).map
      (fun st => (st.trace, st.bind.iovec_recv)) =
      some ([tcp_action.mark_unreadable], [sample_bvec 7]) ∧
    (evpl_socket_tcp_read 1 { sample_read_env (-1) with errno := 104 }
        (sample_state none [sample_bvec 7] [] false false)).map
      (fun st => (st.trace, st.bind.iovec_recv)) =
      some ([tcp_action.defer_close, tcp_action.mark_unreadable], [sample_bvec 7]) ∧
    ∃ st', evpl_socket_tcp_read 1 (sample_read_env (-1))
        (sample_state none [sample_bvec 7] [] false false) = some st' ∧
      st'.bind.iovec_recv = [sample_bvec 7] := by
  refine ⟨⟨rfl, by decide⟩, by decide, by decide, ?_⟩
  obtain ⟨st', h1, h2, _⟩ := read_failure_spec 1 (sample_read_env (-1))
    (sample_state none [sample_bvec 7] [] false false) rfl (by decide)
  exact ⟨st', h1, by rw [h2]; rfl⟩

/-! ## Termination of the segmentation loop -/

theorem notify_list_release (n : Nat) (l : List tcp_action) :
    notify_list (List.replicate n tcp_action.iovec_release ++ l) = notify_list l := by
  induction n with
  | zero => rfl
  | succ n ih => simpa [List.replicate_succ, notify_list] using ih

theorem copyv_bytes (ring : evpl_iovec_ring) (n : Nat) (h : n ≤ evpl_iovec_ring_bytes ring) :
    evpl_iovec_ring_bytes (evpl_iovec_ring_copyv ring n).2 + n = evpl_iovec_ring_bytes ring := by
  have := consume_list_bytes ring n
  unfold evpl_iovec_ring_bytes at h ⊢
  show bvec_bytes (consume_list ring n).1 + n = bvec_bytes ring
  omega

theorem segment_step {σ : Type} (seg : σ → evpl_iovec_ring → Int) (fuel : Nat)
    (st : tcp_state σ)
    (h0 : seg st.bind.private_data st.bind.iovec_recv ≠ 0)
    (hb : ¬ ((evpl_iovec_ring_bytes st.bind.iovec_recv : Int) <
      int_to_uint64 (seg st.bind.private_data st.bind.iovec_recv)))
    (hneg : ¬ (seg st.bind.private_data st.bind.iovec_recv < 0)) :
    evpl_socket_tcp_read_segment seg (fuel + 1) st =
      evpl_socket_tcp_read_segment seg fuel
        { st with
          bind := { st.bind with
            iovec_recv := (evpl_iovec_ring_copyv st.bind.iovec_recv
              (seg st.bind.private_data st.bind.iovec_recv).toNat).2,
            private_data := st.bind.notify_callback st.bind.private_data
              (evpl_notify.RECV_MSG (evpl_iovec_ring_copyv st.bind.iovec_recv
                (seg st.bind.private_data st.bind.iovec_recv).toNat).1
                (seg st.bind.private_data st.bind.iovec_recv)) },
          trace := st.trace ++
            [tcp_action.notify (evpl_notify.RECV_MSG (evpl_iovec_ring_copyv st.bind.iovec_recv
              (seg st.bind.private_data st.bind.iovec_recv).toNat).1
              (seg st.bind.private_data st.bind.iovec_recv))] ++
            List.replicate (evpl_iovec_ring_copyv st.bind.iovec_recv
              (seg st.bind.private_data st.bind.iovec_recv).toNat).1
              tcp_action.iovec_release } := by
  rw [evpl_socket_tcp_read_segment]
  simp only [h0, hb, hneg, or_self, if_false, tcp_notify]

theorem segment_loop_trace {σ : Type} (seg : σ → evpl_iovec_ring → Int) :
    ∀ (fuel : Nat) (st st' : tcp_state σ),
      evpl_socket_tcp_read_segment seg fuel st = some st' →
      ∃ e, st'.trace = st.trace ++ e ∧ st'.connected = st.connected ∧
        (∀ x ∈ notify_list e, ∃ niov len, x = evpl_notify.RECV_MSG niov len ∧ 1 ≤ len) ∧
        ((notify_list e).map recv_msg_bytes).sum +
            (evpl_iovec_ring_bytes st'.bind.iovec_recv : Int) =
          (evpl_iovec_ring_bytes st.bind.iovec_recv : Int) := by
  intro fuel
  induction fuel with
  | zero => intro st st' h; simp [evpl_socket_tcp_read_segment] at h
  | succ fuel ih =>
    intro st st' h
    by_cases hbreak : seg st.bind.private_data st.bind.iovec_recv = 0 ∨
        (evpl_iovec_ring_bytes st.bind.iovec_recv : Int) <
          int_to_uint64 (seg st.bind.private_data st.bind.iovec_recv)
    · rw [evpl_socket_tcp_read_segment] at h
      simp only [hbreak, if_true, Option.some.injEq] at h
      subst h
      exact ⟨[], by simp, rfl, by simp [notify_list], by simp [notify_list]⟩
    · have h0 : seg st.bind.private_data st.bind.iovec_recv ≠ 0 := fun he => hbreak (Or.inl he)
      have hb : ¬ ((evpl_iovec_ring_bytes st.bind.iovec_recv : Int) <
          int_to_uint64 (seg st.bind.private_data st.bind.iovec_recv)) :=
        fun he => hbreak (Or.inr he)
      by_cases hneg : seg st.bind.private_data st.bind.iovec_recv < 0
      · rw [evpl_socket_tcp_read_segment] at h
        simp only [hbreak, hneg, if_true, if_false, Option.some.injEq] at h
        subst h
        exact ⟨[tcp_action.defer_close], rfl, rfl, by simp [notify_list],
          by simp [notify_list, tcp_emit]⟩
      · rw [segment_step seg fuel st h0 hb hneg] at h
        rw [int_to_uint64_nonneg _ (by omega)] at hb
        obtain ⟨e, he, hc, hall, hsum⟩ := ih _ _ h
        have hlen : 1 ≤ seg st.bind.private_data st.bind.iovec_recv := by omega
        have hcopy := copyv_bytes st.bind.iovec_recv
          (seg st.bind.private_data st.bind.iovec_recv).toNat (by omega)
        have htn : ((seg st.bind.private_data st.bind.iovec_recv).toNat : Int) =
            seg st.bind.private_data st.bind.iovec_recv := Int.toNat_of_nonneg (by omega)
        refine ⟨[tcp_action.notify (evpl_notify.RECV_MSG
            (evpl_iovec_ring_copyv st.bind.iovec_recv
              (seg st.bind.private_data st.bind.iovec_recv).toNat).1
            (seg st.bind.private_data st.bind.iovec_recv))] ++
            (List.replicate (evpl_iovec_ring_copyv st.bind.iovec_recv
              (seg st.bind.private_data st.bind.iovec_recv).toNat).1
              tcp_action.iovec_release ++ e), ?_, hc, ?_, ?_⟩
        · rw [he]
          simp [List.append_assoc]
        · intro x hx
          rw [List.singleton_append] at hx
          simp only [notify_list, notify_list_release, List.mem_cons] at hx
          rcases hx with rfl | hx
          · exact ⟨_, _, rfl, hlen⟩
          · exact hall x hx
        · rw [List.singleton_append]
          simp only [notify_list, notify_list_release, List.map_cons, List.sum_cons,
            recv_msg_bytes]
          simp only at hsum
          omega

theorem segment_loop_returns {σ : Type} (seg : σ → evpl_iovec_ring → Int) :
    ∀ (n : Nat) (st : tcp_state σ) (fuel : Nat),
      evpl_iovec_ring_bytes st.bind.iovec_recv = n → n < fuel →
      ∃ st', evpl_socket_tcp_read_segment seg fuel st = some st' := by
  intro n
  induction n using Nat.strong_induction_on with
  | _ n ih =>
    intro st fuel hn hfuel
    obtain ⟨f, rfl⟩ : ∃ f, fuel = f + 1 := ⟨fuel - 1, by omega⟩
    by_cases hbreak : seg st.bind.private_data st.bind.iovec_recv = 0 ∨
        (evpl_iovec_ring_bytes st.bind.iovec_recv : Int) <
          int_to_uint64 (seg st.bind.private_data st.bind.iovec_recv)
    · exact ⟨st, by rw [evpl_socket_tcp_read_segment]; simp only [hbreak, if_true]⟩
    · have h0 : seg st.bind.private_data st.bind.iovec_recv ≠ 0 := fun he => hbreak (Or.inl he)
      have hb : ¬ ((evpl_iovec_ring_bytes st.bind.iovec_recv : Int) <
          int_to_uint64 (seg st.bind.private_data st.bind.iovec_recv)) :=
        fun he => hbreak (Or.inr he)
      by_cases hneg : seg st.bind.private_data st.bind.iovec_recv < 0
      · exact ⟨tcp_emit st tcp_action.defer_close, by
          rw [evpl_socket_tcp_read_segment]
          simp only [hbreak, hneg, if_true, if_false]⟩
      · rw [segment_step seg f st h0 hb hneg]
        rw [int_to_uint64_nonneg _ (by omega)] at hb
        have hcopy := copyv_bytes st.bind.iovec_recv
          (seg st.bind.private_data st.bind.iovec_recv).toNat (by omega)
        have htn : ((seg st.bind.private_data st.bind.iovec_recv).toNat : Int) =
            seg st.bind.private_data st.bind.iovec_recv := Int.toNat_of_nonneg (by omega)
        exact ih (evpl_iovec_ring_bytes (evpl_iovec_ring_copyv st.bind.iovec_recv
            (seg st.bind.private_data st.bind.iovec_recv).toNat).2) (by omega) _ f rfl
          (by omega)

theorem map_sum_ge_length (l : List evpl_notify)
    (h : ∀ x ∈ l, ∃ niov len, x = evpl_notify.RECV_MSG niov len ∧ 1 ≤ len) :
    (l.length : Int) ≤ (l.map recv_msg_bytes).sum := by
  induction l with
  | nil => simp
  | cons x l ih =>
    obtain ⟨niov, len, rfl, hlen⟩ := h x (List.mem_cons_self _ _)
    have := ih (fun y hy => h y (List.mem_cons_of_mem _ hy))
    simp only [List.length_cons, List.map_cons, List.sum_cons, recv_msg_bytes]
    push_cast
    omega

/-- C17: for every segment callback, from every state whose receive ring
holds `B` bytes, the segmentation loop of `evpl_socket_tcp_read` returns as
soon as more than `B` calls of the callback are allowed.  The notifications
it delivers are all `RECV_MSG` with `length ≥ 1`; their lengths add up to the
number of bytes that left the ring; hence there are at most `B` of them.
(The notify callback acts on the user's state only, so it adds nothing to the
ring.) -/
theorem segment_loop_terminates {σ : Type} (seg : σ → evpl_iovec_ring → Int)
    (st : tcp_state σ) (fuel : Nat)
    (hfuel : evpl_iovec_ring_bytes st.bind.iovec_recv < fuel) :
    ∃ st' e, evpl_socket_tcp_read_segment seg fuel st = some st' ∧
      st'.trace = st.trace ++ e ∧
      (∀ x ∈ notify_list e, ∃ niov len, x = evpl_notify.RECV_MSG niov len ∧ 1 ≤ len) ∧
      ((notify_list e).map recv_msg_bytes).sum +
          (evpl_iovec_ring_bytes st'.bind.iovec_recv : Int) =
        (evpl_iovec_ring_bytes st.bind.iovec_recv : Int) ∧
      (notify_list e).length ≤ evpl_iovec_ring_bytes st.bind.iovec_recv := by
  obtain ⟨st', hrun⟩ := segment_loop_returns seg _ st fuel rfl hfuel
  obtain ⟨e, he, _, hall, hsum⟩ := segment_loop_trace seg fuel st st' hrun
  refine ⟨st', e, hrun, he, hall, hsum, ?_⟩
  have := map_sum_ge_length (notify_list e) hall
  omega

/-- C17 applied to a ring of 7 bytes and `greedy_seg`: one message of 3
bytes, then the callback asks for more than the 4 bytes left. -/
theorem segment_loop_terminates_witness :
    evpl_iovec_ring_bytes (sample_state none [sample_bvec 7] [] false false).bind.iovec_recv
      < 8 ∧
    (evpl_socket_tcp_read_segment greedy_seg 8
        (sample_state none [sample_bvec 7] [] false false)).map
      (fun st => (notify_list st.trace, evpl_iovec_ring_bytes st.bind.iovec_recv)) =
      some ([evpl_notify.RECV_MSG 1 3], 4) ∧
    ∃ st' e, evpl_socket_tcp_read_segment greedy_seg 8
        (sample_state none [sample_bvec 7] [] false false) = some st' ∧
      st'.trace = e ∧ (notify_list e).length ≤ 7 := by
  refine ⟨by decide, by decide, ?_⟩
  obtain ⟨st', e, h1, h2, _, _, h5⟩ := segment_loop_terminates greedy_seg
    (sample_state none [sample_bvec 7] [] false false) 8 (by decide)
  exact ⟨st', e, h1, by simpa [sample_state] using h2, h5⟩

/-! ## The order of notifications -/

theorem check_conn_cases {σ : Type} (rc err : Int) (st : tcp_state σ)
    (hc : st.connected = false) :
    (rc ≠ 0 → evpl_check_conn rc err st = none) ∧
    (rc = 0 → err = 0 → evpl_check_conn rc err st =
      some { tcp_notify st evpl_notify.CONNECTED with connected := true }) ∧
    (rc = 0 → err ≠ 0 → evpl_check_conn rc err st =
      some { tcp_emit st tcp_action.defer_close with connected := true }) := by
  refine ⟨fun h => ?_, fun h1 h2 => ?_, fun h1 h2 => ?_⟩
  · simp [evpl_check_conn, hc, h]
  · simp [evpl_check_conn, hc, h1, h2]
  · simp [evpl_check_conn, hc, h1, h2]

theorem write_out_connected {σ : Type} (res total : Int) (st : tcp_state σ) :
    (tcp_write_out res total st).connected = st.connected := by
  unfold tcp_write_out
  simp only
  split_ifs <;> rfl

theorem write_connected_spec {σ : Type} (env : write_env) (st st' : tcp_state σ)
    (hc : st.connected = true) (h : evpl_socket_tcp_write env st = some st') :
    st'.connected = true ∧ ∃ e, st'.trace = st.trace ++ e ∧
      evpl_notify.CONNECTED ∉ notify_list e := by
  obtain ⟨e, ht, _, _, _, hn⟩ := write_trace_spec env st
  simp only [evpl_socket_tcp_write, check_conn_connected _ _ st hc, Option.map_some',
    Option.some.injEq] at h
  subst h
  refine ⟨?_, e, ht, ?_⟩
  · rw [write_out_connected, (write_body_sent_notify env _ _ st).2, hc]
  · rw [hn]
    split <;> simp

theorem read_connected_spec {σ : Type} (fuel : Nat) (env : read_env) (st st' : tcp_state σ)
    (hc : st.connected = true) (h : evpl_socket_tcp_read fuel env st = some st') :
    st'.connected = true ∧ ∃ e, st'.trace = st.trace ++ e ∧
      evpl_notify.CONNECTED ∉ notify_list e := by
  obtain ⟨_, hbt, hbc⟩ := read_buffers_spec env st
  obtain ⟨hat, hac, _⟩ := read_appended_spec env (tcp_read_buffers env st)
  rw [read_unfold fuel env st hc, Option.map_eq_some'] at h
  obtain ⟨s, hs, hst'⟩ := h
  have key : s.connected = true ∧ ∃ e, s.trace = st.trace ++ e ∧
      evpl_notify.CONNECTED ∉ notify_list e := by
    by_cases hneg : env.res < 0
    · rw [if_pos hneg, Option.some.injEq] at hs
      subst hs
      split_ifs
      · exact ⟨by simp [tcp_emit, hbc, hc], [tcp_action.defer_close],
          by simp [tcp_emit, hbt], by simp [notify_list]⟩
      · exact ⟨by rw [hbc, hc], [], by simp [hbt], by simp [notify_list]⟩
    · rw [if_neg hneg] at hs
      by_cases hz : env.res = 0
      · rw [if_pos hz, Option.some.injEq] at hs
        subst hs
        exact ⟨by simp [tcp_emit, hbc, hc], [tcp_action.defer_close],
          by simp [tcp_emit, hbt], by simp [notify_list]⟩
      · rw [if_neg hz] at hs
        cases hseg : (tcp_read_appended env (tcp_read_buffers env st)).bind.segment_callback with
        | none =>
          rw [hseg] at hs
          simp only [Option.some.injEq] at hs
          subst hs
          exact ⟨by simp [tcp_notify, hac, hbc, hc], [tcp_action.notify evpl_notify.RECV_DATA],
            by simp [tcp_notify, hat, hbt], by simp [notify_list]⟩
        | some seg =>
          rw [hseg] at hs
          simp only at hs
          obtain ⟨e, he, hcn, hall, _⟩ := segment_loop_trace seg fuel _ s hs
          refine ⟨by rw [hcn, hac, hbc, hc], e, by rw [he, hat, hbt], ?_⟩
          intro hmem
          obtain ⟨niov, len, hx, _⟩ := hall _ hmem
          cases hx
  obtain ⟨hsc, e, hse, hsn⟩ := key
  subst hst'
  split_ifs
  · exact ⟨by simp [tcp_emit, hsc], e ++ [tcp_action.mark_unreadable],
      by simp [tcp_emit, hse], by simpa [notify_list_append, notify_list] using hsn⟩
  · exact ⟨hsc, e, hse, hsn⟩

theorem read_after_check {σ : Type} (fuel : Nat) (env : read_env) (st st1 : tcp_state σ)
    (h : evpl_check_conn env.rc env.so_error st = some st1) (hc1 : st1.connected = true) :
    evpl_socket_tcp_read fuel env st = evpl_socket_tcp_read fuel env st1 := by
  simp only [evpl_socket_tcp_read, h, check_conn_connected _ _ st1 hc1]

theorem write_after_check {σ : Type} (env : write_env) (st st1 : tcp_state σ)
    (h : evpl_check_conn env.rc env.so_error st = some st1) (hc1 : st1.connected = true) :
    evpl_socket_tcp_write env st = evpl_socket_tcp_write env st1 := by
  simp only [evpl_socket_tcp_write, h, check_conn_connected _ _ st1 hc1]

/-- What one run of a handler adds to the notifications: on a connected
socket no `CONNECTED`; on a socket not yet connected a `CONNECTED` first and
no other when `SO_ERROR` is 0, none at all otherwise. -/
theorem handler_notifications {σ : Type}
    (handler : tcp_state σ → Option (tcp_state σ)) (rc err : Int)
    (hconn : ∀ st st', st.connected = true → handler st = some st' →
      st'.connected = true ∧ ∃ e, st'.trace = st.trace ++ e ∧
        evpl_notify.CONNECTED ∉ notify_list e)
    (hafter : ∀ st st1, evpl_check_conn rc err st = some st1 → st1.connected = true →
      handler st = handler st1)
    (habort : ∀ st, evpl_check_conn rc err st = none → handler st = none)
    (st st' : tcp_state σ) (h : handler st = some st') :
    st'.connected = true ∧ ∃ e, st'.trace = st.trace ++ e ∧
      (st.connected = true → evpl_notify.CONNECTED ∉ notify_list e) ∧
      (st.connected = false → err = 0 →
        ∃ rest, notify_list e = evpl_notify.CONNECTED :: rest ∧
          evpl_notify.CONNECTED ∉ rest) ∧
      (st.connected = false → err ≠ 0 → evpl_notify.CONNECTED ∉ notify_list e) := by
  by_cases hc : st.connected = true
  · obtain ⟨h1, e, h2, h3⟩ := hconn st st' hc h
    exact ⟨h1, e, h2, fun _ => h3, (fun hf => by rw [hc] at hf; cases hf),
      (fun hf => by rw [hc] at hf; cases hf)⟩
  · have hcf : st.connected = false := by simpa using hc
    obtain ⟨hab, hok, herr⟩ := check_conn_cases rc err st hcf
    by_cases hrc : rc = 0
    · by_cases he : err = 0
      · have hcc := hok hrc he
        rw [hafter st _ hcc rfl] at h
        obtain ⟨h1, e, h2, h3⟩ := hconn _ st' rfl h
        refine ⟨h1, tcp_action.notify evpl_notify.CONNECTED :: e, ?_,
          fun hf => absurd hf hc, fun _ _ => ⟨notify_list e, rfl, h3⟩,
          fun _ hne => absurd he hne⟩
        rw [h2]
        simp [tcp_notify]
      · have hcc := herr hrc he
        rw [hafter st _ hcc rfl] at h
        obtain ⟨h1, e, h2, h3⟩ := hconn _ st' rfl h
        refine ⟨h1, tcp_action.defer_close :: e, ?_,
          fun hf => absurd hf hc, fun _ h0 => absurd h0 he,
          (fun _ _ => by simpa [notify_list] using h3)⟩
        rw [h2]
        simp [tcp_emit]
    · rw [habort st (hab hrc)] at h
      cases h

theorem call_step_notifications {σ : Type} (c : tcp_call σ) (cs : List (tcp_call σ))
    (st st' : tcp_state σ) (h : tcp_call_step st c = some st') :
    (st.connected = true → st'.connected = true) ∧
    ∃ e, st'.trace = st.trace ++ e ∧
      (st.connected = true → evpl_notify.CONNECTED ∉ notify_list e) ∧
      (st.connected = false → st'.connected = false →
        notify_list e = [] ∧ first_so_error_zero (c :: cs) = first_so_error_zero cs) ∧
      (st.connected = false → st'.connected = true →
        first_so_error_zero (c :: cs) = true →
        ∃ rest, notify_list e = evpl_notify.CONNECTED :: rest ∧
          evpl_notify.CONNECTED ∉ rest) ∧
      (st.connected = false → st'.connected = true →
        (∃ rest, notify_list e = evpl_notify.CONNECTED :: rest ∧
          evpl_notify.CONNECTED ∉ rest) ∨ evpl_notify.CONNECTED ∉ notify_list e) := by
  cases c with
  | read fuel env =>
    obtain ⟨h1, e, h2, h3, h4, h5⟩ := handler_notifications
      (evpl_socket_tcp_read fuel env) env.rc env.so_error
      (fun s s' => read_connected_spec fuel env s s')
      (fun s s1 => read_after_check fuel env s s1)
      (fun s hs => by simp [evpl_socket_tcp_read, hs]) st st' h
    refine ⟨fun _ => h1, e, h2, h3, fun _ hf => ?_, fun hc _ hz => ?_, fun hc _ => ?_⟩
    · rw [h1] at hf; cases hf
    · exact h4 hc (by simpa [first_so_error_zero] using hz)
    · by_cases hz : env.so_error = 0
      · exact Or.inl (h4 hc hz)
      · exact Or.inr (h5 hc hz)
  | write env =>
    obtain ⟨h1, e, h2, h3, h4, h5⟩ := handler_notifications
      (evpl_socket_tcp_write env) env.rc env.so_error
      (fun s s' => write_connected_spec env s s')
      (fun s s1 => write_after_check env s s1)
      (fun s hs => by simp [evpl_socket_tcp_write, hs]) st st' h
    refine ⟨fun _ => h1, e, h2, h3, fun _ hf => ?_, fun hc _ hz => ?_, fun hc _ => ?_⟩
    · rw [h1] at hf; cases hf
    · exact h4 hc (by simpa [first_so_error_zero] using hz)
    · by_cases hz : env.so_error = 0
      · exact Or.inl (h4 hc hz)
      · exact Or.inr (h5 hc hz)
  | app f =>
    simp only [tcp_call_step, Option.some.injEq] at h
    subst h
    have hsame : ({ st with bind := f st.bind } : tcp_state σ).connected = st.connected := rfl
    refine ⟨fun hc => hc, [], by simp, fun _ => by simp [notify_list],
      fun _ _ => ⟨rfl, rfl⟩, fun hc hc1 _ => ?_, fun hc hc1 => ?_⟩
    · rw [hsame, hc] at hc1
      cases hc1
    · rw [hsame, hc] at hc1
      cases hc1

theorem run_connected_once {σ : Type} : ∀ (calls : List (tcp_call σ)) (st st' : tcp_state σ),
    ((st.connected = false ∧ notify_list st.trace = []) ∨
      (st.connected = true ∧ (notify_list st.trace).count evpl_notify.CONNECTED ≤ 1)) →
    tcp_run calls st = some st' →
    (notify_list st'.trace).count evpl_notify.CONNECTED ≤ 1 := by
  intro calls
  induction calls with
  | nil =>
    intro st st' hinv h
    simp only [tcp_run, Option.some.injEq] at h
    subst h
    rcases hinv with ⟨_, h0⟩ | ⟨_, h1⟩
    · rw [h0]; simp
    · exact h1
  | cons c cs ih =>
    intro st st' hinv h
    simp only [tcp_run, Option.bind_eq_some] at h
    obtain ⟨st1, hstep, hrest⟩ := h
    obtain ⟨hkeep, e, he, hnc, hff, _, hft⟩ := call_step_notifications c cs st st1 hstep
    refine ih st1 st' ?_ hrest
    rcases hinv with ⟨hc, h0⟩ | ⟨hc, h1⟩
    · by_cases hc1 : st1.connected = true
      · right
        refine ⟨hc1, ?_⟩
        rw [he, notify_list_append, h0, List.nil_append]
        rcases hft hc hc1 with ⟨rest, hr, hnot⟩ | hnot
        · rw [hr, List.count_cons_self, List.count_eq_zero_of_not_mem hnot]
        · rw [List.count_eq_zero_of_not_mem hnot]
          omega
      · have hc1f : st1.connected = false := by simpa using hc1
        left
        refine ⟨hc1f, ?_⟩
        rw [he, notify_list_append, h0, (hff hc hc1f).1]
        rfl
    · right
      refine ⟨hkeep hc, ?_⟩
      rw [he, notify_list_append, List.count_append,
        List.count_eq_zero_of_not_mem (hnc hc)]
      omega

theorem run_connected_first {σ : Type} : ∀ (calls : List (tcp_call σ)) (st st' : tcp_state σ),
    ((st.connected = false ∧ notify_list st.trace = [] ∧ first_so_error_zero calls = true) ∨
      (st.connected = true ∧
        ∃ rest, notify_list st.trace = evpl_notify.CONNECTED :: rest)) →
    tcp_run calls st = some st' →
    notify_list st'.trace = [] ∨
      ∃ rest, notify_list st'.trace = evpl_notify.CONNECTED :: rest := by
  intro calls
  induction calls with
  | nil =>
    intro st st' hinv h
    simp only [tcp_run, Option.some.injEq] at h
    subst h
    rcases hinv with ⟨_, h0, _⟩ | ⟨_, h1⟩
    · exact Or.inl h0
    · exact Or.inr h1
  | cons c cs ih =>
    intro st st' hinv h
    simp only [tcp_run, Option.bind_eq_some] at h
    obtain ⟨st1, hstep, hrest⟩ := h
    obtain ⟨hkeep, e, he, _, hff, hfz, _⟩ := call_step_notifications c cs st st1 hstep
    refine ih st1 st' ?_ hrest
    rcases hinv with ⟨hc, h0, hz⟩ | ⟨hc, rest, h1⟩
    · by_cases hc1 : st1.connected = true
      · right
        obtain ⟨rest, hr, _⟩ := hfz hc hc1 hz
        exact ⟨hc1, rest, by rw [he, notify_list_append, h0, List.nil_append, hr]⟩
      · have hc1f : st1.connected = false := by simpa using hc1
        left
        obtain ⟨hnil, hsame⟩ := hff hc hc1f
        exact ⟨hc1f, (by rw [he, notify_list_append, h0, hnil]; rfl),
          (by rw [← hsame]; exact hz)⟩
    · right
      exact ⟨hkeep hc, rest ++ notify_list e,
        by rw [he, notify_list_append, h1, List.cons_append]⟩

/-- C12, the claim as stated fails: on a bind created by connect, a first
run of the read handler in which `SO_ERROR` is 111 and `readv` returns 10
bytes delivers `RECV_DATA` although no `CONNECTED` was delivered
(`evpl_check_conn` arms the close deferral and the handler goes on). -/
theorem connected_first_so_error_set :
    (tcp_run [tcp_call.read 1 { sample_read_env 10 with so_error := 111 }]
        (connect_state none [] false)).map (fun st => (st.trace, notify_list st.trace)) =
      some ([tcp_action.defer_close, tcp_action.notify evpl_notify.RECV_DATA,
        tcp_action.mark_unreadable], [evpl_notify.RECV_DATA]) := by
  decide

/-- C12 (as amended): on a bind created by connect (socket not yet marked
connected, nothing notified), after any sequence of runs of the read and
write handlers and of actions of the application that runs to completion,
with arbitrary `readv` and `writev` results: `CONNECTED` was delivered at most
once, whatever `SO_ERROR` was; and when the `SO_ERROR` read by the first
handler run is 0, every notification other than `CONNECTED` (so every
`RECV_DATA`, `RECV_MSG` and `SENT`) is preceded by a `CONNECTED`. -/
theorem connected_first_spec {σ : Type} (calls : List (tcp_call σ)) (st0 st' : tcp_state σ)
    (hc : st0.connected = false) (ht : st0.trace = [])
    (hrun : tcp_run calls st0 = some st') :
    (notify_list st'.trace).count evpl_notify.CONNECTED ≤ 1 ∧
    (first_so_error_zero calls = true →
      ∀ i x, (notify_list st'.trace)[i]? = some x → x ≠ evpl_notify.CONNECTED →
        ∃ j : Nat, j < i ∧ (notify_list st'.trace)[j]? = some evpl_notify.CONNECTED) := by
  have h0 : notify_list st0.trace = [] := by rw [ht]; rfl
  refine ⟨run_connected_once calls st0 st' (Or.inl ⟨hc, h0⟩) hrun, fun hz i x hi hx => ?_⟩
  rcases run_connected_first calls st0 st' (Or.inl ⟨hc, h0, hz⟩) hrun with hnil | ⟨rest, hr⟩
  · rw [hnil] at hi
    simp at hi
  · rw [hr] at hi ⊢
    cases i with
    | zero =>
      simp only [List.getElem?_cons_zero, Option.some.injEq] at hi
      exact absurd hi.symm hx
    | succ i => exact ⟨0, Nat.succ_pos i, by simp⟩

/-- C12 (as amended) applied to a bind created by connect with 5 bytes to
send: a write run (`SO_ERROR` 0, all 5 bytes written) and a read run of 10
bytes deliver `CONNECTED`, `SENT`, `RECV_DATA` in that order. -/
theorem connected_first_witness :
    ((connect_state none [sample_bvec 5] true).connected = false ∧
      (connect_state none [sample_bvec 5] true).trace = []) ∧
    (tcp_run [tcp_call.write (sample_write_env 5), tcp_call.read 1 (sample_read_env 10)]
        (connect_state none [sample_bvec 5] true)).map (fun st => notify_list st.trace) =
      some [evpl_notify.CONNECTED, evpl_notify.SENT 5 0, evpl_notify.RECV_DATA] ∧
    ∃ st', tcp_run [tcp_call.write (sample_write_env 5), tcp_call.read 1 (sample_read_env 10)]
        (connect_state none [sample_bvec 5] true) = some st' ∧
      (notify_list st'.trace).count evpl_notify.CONNECTED ≤ 1 := by
  have hv : (tcp_run [tcp_call.write (sample_write_env 5),
      tcp_call.read 1 (sample_read_env 10)]
      (connect_state none [sample_bvec 5] true)).map (fun st => notify_list st.trace) =
      some [evpl_notify.CONNECTED, evpl_notify.SENT 5 0, evpl_notify.RECV_DATA] := by decide
  refine ⟨⟨rfl, rfl⟩, hv, ?_⟩
  rw [Option.map_eq_some'] at hv
  obtain ⟨st', hs, _⟩ := hv
  exact ⟨st', hs, (connected_first_spec _ _ st' rfl rfl hs).1⟩

/-! ## Append and the reference counts -/

theorem update_slot_repr {ring : evpl_bvec_ring} {l : List evpl_bvec} (h : ring_repr ring l)
    (i : Nat) (hi : i < l.length) (v : evpl_bvec) :
    ring_repr
      { ring with bvec := Function.update ring.bvec ((ring.tail + i) % ring.size) v }
      (l.set i v) := by
  obtain ⟨hwf, hlen, hhead, hget⟩ := h
  refine ⟨hwf, by simpa using hlen, by simpa using hhead, ?_⟩
  intro k hk
  show Function.update ring.bvec ((ring.tail + i) % ring.size) v
    ((ring.tail + k) % ring.size) = _
  simp only [List.length_set] at hk
  by_cases hki : k = i
  · subst hki
    rw [Function.update_same]
    simp
  · have hne : (ring.tail + k) % ring.size ≠ (ring.tail + i) % ring.size := by
      intro he
      exact hki (mod_add_inj (by omega) (by omega) he)
    rw [Function.update_noteq hne, hget k hk, List.getElem_set_ne (fun h => hki h.symm)]

theorem dead_slot_repr {ring : evpl_bvec_ring} {l : List evpl_bvec} (h : ring_repr ring l)
    (v : evpl_bvec) :
    ring_repr { ring with bvec := Function.update ring.bvec ring.head v } l := by
  obtain ⟨hwf, hlen, hhead, hget⟩ := h
  refine ⟨hwf, hlen, hhead, ?_⟩
  intro k hk
  show Function.update ring.bvec ring.head v ((ring.tail + k) % ring.size) = _
  have hne : (ring.tail + k) % ring.size ≠ ring.head := by
    rw [hhead]
    intro he
    have := mod_add_inj (by omega) hlen he
    omega
  rw [Function.update_noteq hne, hget k hk]

theorem add_slot {ring : evpl_bvec_ring} {l : List evpl_bvec} (mem : Nat → evpl_bvec)
    (bvec : evpl_bvec) (eom : Nat) (h : ring_repr ring l) :
    (evpl_bvec_ring_add mem ring bvec eom).2 =
      ((evpl_bvec_ring_add mem ring bvec eom).1.tail + l.length) %
        (evpl_bvec_ring_add mem ring bvec eom).1.size := by
  unfold evpl_bvec_ring_add
  by_cases hf : evpl_bvec_ring_is_full ring = true
  · have hfull := (is_full_iff h).1 hf
    obtain ⟨hr, _, _⟩ := resize_repr mem h hfull
    simp only [hf, if_true]
    exact hr.2.2.1
  · simp only [hf, Bool.false_eq_true, if_false]
    exact h.2.2.1

theorem add_set_length_repr {ring : evpl_bvec_ring} {l : List evpl_bvec}
    (mem : Nat → evpl_bvec) (bvec : evpl_bvec) (n eom : Nat) (h : ring_repr ring l) :
    ring_repr
      { (evpl_bvec_ring_add mem ring bvec eom).1 with
        bvec := Function.update (evpl_bvec_ring_add mem ring bvec eom).1.bvec
          (evpl_bvec_ring_add mem ring bvec eom).2
          { (evpl_bvec_ring_add mem ring bvec eom).1.bvec
              (evpl_bvec_ring_add mem ring bvec eom).2 with length := n } }
      (l ++ [{ bvec with length := n, eom := eom }]) := by
  have hadd := add_repr mem bvec eom h
  have hslot := add_slot mem bvec eom h
  have hval : (evpl_bvec_ring_add mem ring bvec eom).1.bvec
      (evpl_bvec_ring_add mem ring bvec eom).2 = { bvec with eom := eom } := by
    rw [hslot, hadd.2.2.2 l.length (by simp)]
    simp
  have hup := update_slot_repr hadd l.length (by simp)
    { bvec with length := n, eom := eom }
  rw [← hslot] at hup
  rw [hval]
  simpa using hup

theorem append_unfold (mem : Nat → evpl_bvec) (bufs : evpl_buffers) (ring : evpl_bvec_ring)
    (b : evpl_bvec) (n eom : Nat) (hwf : ring_wf ring) :
    ∃ ring1 : evpl_bvec_ring, ring_wf ring1 ∧
      ring_entries ring1 =
        (if append_coalesces ring b = true then ring_entries ring
          else ring_entries ring ++ [{ b with length := n, eom := eom }]) ∧
      evpl_bvec_ring_append mem bufs ring b n eom =
        (if b.length - n = 0 then
          (evpl_bvec_decref
            (if append_coalesces ring b = true then bufs else evpl_bvec_incref bufs b)
            { b with data := b.data + n, length := b.length - n }).map
            (fun bufs1 => (bufs1, ring1, { b with data := b.data + n, length := b.length - n }))
        else
          some ((if append_coalesces ring b = true then bufs else evpl_bvec_incref bufs b),
            ring1, { b with data := b.data + n, length := b.length - n })) := by
  have hrep := wf_repr hwf
  have hnew := add_set_length_repr mem b n eom hrep
  cases hh : evpl_bvec_ring_head ring with
  | none =>
    have hc : append_coalesces ring b = false := by simp [append_coalesces, hh]
    refine ⟨_, hnew.1, ?_, ?_⟩
    · rw [ring_entries_repr hnew, hc]
      simp
    · simp only [evpl_bvec_ring_append, hh, hc, Bool.false_eq_true, if_false]
  | some h =>
    have hhd : h = ring.head := by
      unfold evpl_bvec_ring_head at hh
      split at hh
      · cases hh
      · cases hh; rfl
    subst hhd
    by_cases ht : (ring.bvec ring.head).eom = 0 ∧
        (ring.bvec ring.head).data + (ring.bvec ring.head).length = b.data
    · have hc : append_coalesces ring b = true := by simp [append_coalesces, hh, ht]
      have hdead := dead_slot_repr hrep
        { ring.bvec ring.head with length := (ring.bvec ring.head).length + n }
      refine ⟨_, hdead.1, ?_, ?_⟩
      · rw [ring_entries_repr hdead, hc]
        simp
      · simp only [evpl_bvec_ring_append, hh, hc, ht, and_self, if_true]
    · have hc : append_coalesces ring b = false := by simp [append_coalesces, hh, ht]
      refine ⟨_, hnew.1, ?_, ?_⟩
      · rw [ring_entries_repr hnew, hc]
        simp
      · simp only [evpl_bvec_ring_append, hh, hc, ht, Bool.false_eq_true, if_false]

theorem live_refs_append (entries : List evpl_bvec) (e src : evpl_bvec) (B : Nat) :
    live_refs (entries ++ [e]) src B =
      live_refs entries src B + (if e.buffer = B then 1 else 0) := by
  unfold live_refs
  rw [List.filter_append, List.length_append]
  by_cases he : e.buffer = B
  · simp [List.filter, he]
    omega
  · simp [List.filter, he]

/-- C14: on a well-formed ring, for a source vector `b` and `0 < n ≤ b.length`,
with `c` the outcome of the coalescing test of `evpl_bvec_ring_append`:
the call aborts exactly when `b` is exhausted (`n = b.length`) and the
refcount of its buffer is 0 at the decref; when it returns, the source has
`data` advanced by `n` and `length` reduced by `n`; either no entry was added
(`c` true) or the entries grew by one entry of `n` bytes of `b`'s buffer
carrying `eom` (`c` false); the refcount of `b`'s buffer changed by `+1`
exactly when an entry was added and by `-1` exactly when `b` is exhausted, and
no other refcount changed.  Consequently, if every refcount equals the number
of live vectors on the buffer (entries of the ring, plus the source while its
length is not 0, plus a fixed number `other` of holders elsewhere) before the
call, the call returns and the same holds after it. -/
theorem append_refcount (mem : Nat → evpl_bvec) (bufs : evpl_buffers)
    (ring : evpl_bvec_ring) (b : evpl_bvec) (n eom : Nat)
    (hwf : ring_wf ring) (hn0 : 0 < n) (hn : n ≤ b.length) :
    (evpl_bvec_ring_append mem bufs ring b n eom = none ↔
      (n = b.length ∧
        bufs.refcnt b.buffer + (if append_coalesces ring b = true then 0 else 1) = 0)) ∧
    (∀ bufs1 ring1 b1, evpl_bvec_ring_append mem bufs ring b n eom = some (bufs1, ring1, b1) →
      ring_wf ring1 ∧
      b1.data = b.data + n ∧ b1.length = b.length - n ∧ b1.buffer = b.buffer ∧
      ((append_coalesces ring b = true ∧ ring_entries ring1 = ring_entries ring) ∨
        (append_coalesces ring b = false ∧
          ring_entries ring1 = ring_entries ring ++ [{ b with length := n, eom := eom }])) ∧
      bufs1.refcnt b.buffer =
        bufs.refcnt b.buffer + (if append_coalesces ring b = true then 0 else 1) -
          (if n = b.length then 1 else 0) ∧
      (∀ B, B ≠ b.buffer → bufs1.refcnt B = bufs.refcnt B)) ∧
    (∀ other : Nat → Nat,
      (∀ B, bufs.refcnt B = live_refs (ring_entries ring) b B + (other B : Int)) →
      ∃ bufs1 ring1 b1, evpl_bvec_ring_append mem bufs ring b n eom = some (bufs1, ring1, b1) ∧
        ∀ B, bufs1.refcnt B = live_refs (ring_entries ring1) b1 B + (other B : Int)) := by
  obtain ⟨ringX, hwfX, hentries, happ⟩ := append_unfold mem bufs ring b n eom hwf
  have hX : ∀ B, (if append_coalesces ring b = true then bufs
      else evpl_bvec_incref bufs b).refcnt B =
      bufs.refcnt B + (if B = b.buffer then
        (if append_coalesces ring b = true then 0 else 1) else 0) := by
    intro B
    by_cases hc : append_coalesces ring b = true
    · simp [hc]
    · by_cases hB : B = b.buffer
      · subst hB
        simp [hc, evpl_bvec_incref]
      · simp [hc, evpl_bvec_incref, Function.update_noteq hB, hB]
  have hdec : ∀ bufsX : evpl_buffers,
      evpl_bvec_decref bufsX { b with data := b.data + n, length := b.length - n } =
        if bufsX.refcnt b.buffer = 0 then none
        else some (evpl_buffer_release bufsX b.buffer) := fun _ => rfl
  have hrel : ∀ (bufsX : evpl_buffers) (B : Nat),
      (evpl_buffer_release bufsX b.buffer).refcnt B =
        bufsX.refcnt B - (if B = b.buffer then 1 else 0) := by
    intro bufsX B
    by_cases hB : B = b.buffer
    · subst hB
      simp [evpl_buffer_release]
    · simp [evpl_buffer_release, Function.update_noteq hB, hB]
  have hXb := hX b.buffer
  rw [if_pos rfl] at hXb
  -- what the call returns, in the two cases of exhaustion
  have hsome : ∀ bufs1 ring1 b1,
      evpl_bvec_ring_append mem bufs ring b n eom = some (bufs1, ring1, b1) →
      ring1 = ringX ∧ b1 = { b with data := b.data + n, length := b.length - n } ∧
      ∀ B, bufs1.refcnt B = bufs.refcnt B +
        (if B = b.buffer then (if append_coalesces ring b = true then 0 else 1) else 0) -
        (if B = b.buffer then (if n = b.length then 1 else 0) else 0) := by
    intro bufs1 ring1 b1 hr
    rw [happ] at hr
    by_cases hex : b.length - n = 0
    · have hnl : n = b.length := by omega
      rw [if_pos hex, hdec] at hr
      by_cases hz : (if append_coalesces ring b = true then bufs
          else evpl_bvec_incref bufs b).refcnt b.buffer = 0
      · rw [if_pos hz] at hr
        cases hr
      · rw [if_neg hz, Option.map_some', Option.some.injEq, Prod.mk.injEq, Prod.mk.injEq] at hr
        obtain ⟨h1, h2, h3⟩ := hr
        refine ⟨h2.symm, h3.symm, fun B => ?_⟩
        rw [← h1, hrel, hX, if_pos hnl]
    · have hnl : ¬ n = b.length := by omega
      rw [if_neg hex, Option.some.injEq, Prod.mk.injEq, Prod.mk.injEq] at hr
      obtain ⟨h1, h2, h3⟩ := hr
      refine ⟨h2.symm, h3.symm, fun B => ?_⟩
      rw [← h1, hX, if_neg hnl]
      simp
  refine ⟨?_, ?_, ?_⟩
  · rw [happ]
    by_cases hex : b.length - n = 0
    · have hnl : n = b.length := by omega
      rw [if_pos hex, hdec, ← hXb]
      by_cases hz : (if append_coalesces ring b = true then bufs
          else evpl_bvec_incref bufs b).refcnt b.buffer = 0
      · rw [if_pos hz]
        simp [hnl, hz]
      · rw [if_neg hz]
        simp [hz]
    · have hnl : ¬ n = b.length := by omega
      rw [if_neg hex]
      simp [hnl]
  · intro bufs1 ring1 b1 hr
    obtain ⟨h1, h2, h3⟩ := hsome bufs1 ring1 b1 hr
    subst h1 h2
    refine ⟨hwfX, rfl, rfl, rfl, ?_, ?_, ?_⟩
    · by_cases hc : append_coalesces ring b = true
      · exact Or.inl ⟨hc, by rw [hentries, if_pos hc]⟩
      · exact Or.inr ⟨by simpa using hc, by rw [hentries, if_neg hc]⟩
    · rw [h3, if_pos rfl, if_pos rfl]
    · intro B hB
      rw [h3, if_neg hB, if_neg hB]
      simp
  · intro other hinv
    have hcount : ∀ B, (0 : Int) ≤
        (((ring_entries ring).filter (fun e => decide (e.buffer = B))).length : Int) :=
      fun B => Int.natCast_nonneg _
    have hlive : live_refs (ring_entries ring) b b.buffer =
        (((ring_entries ring).filter (fun e => decide (e.buffer = b.buffer))).length : Int)
          + 1 := by
      unfold live_refs
      rw [if_pos ⟨by omega, rfl⟩]
    have hret : ∃ r, evpl_bvec_ring_append mem bufs ring b n eom = some r := by
      cases hr : evpl_bvec_ring_append mem bufs ring b n eom with
      | some r => exact ⟨r, rfl⟩
      | none =>
        exfalso
        rw [happ] at hr
        by_cases hex : b.length - n = 0
        · rw [if_pos hex, hdec] at hr
          have hpos : (if append_coalesces ring b = true then bufs
              else evpl_bvec_incref bufs b).refcnt b.buffer ≠ 0 := by
            rw [hXb, hinv b.buffer, hlive]
            have := hcount b.buffer
            split <;> omega
          rw [if_neg hpos] at hr
          cases hr
        · rw [if_neg hex] at hr
          cases hr
    obtain ⟨⟨bufs1, ring1, b1⟩, hr⟩ := hret
    obtain ⟨h1, h2, h3⟩ := hsome bufs1 ring1 b1 hr
    refine ⟨bufs1, ring1, b1, hr, fun B => ?_⟩
    subst h1 h2
    rw [h3, hinv B]
    by_cases hc : append_coalesces ring b = true
    · have hent : ring_entries ring1 = ring_entries ring := by rw [hentries, if_pos hc]
      rw [hent]
      unfold live_refs
      by_cases hB : B = b.buffer
      · subst hB
        by_cases hnl : n = b.length
        · have h0 : b.length - n = 0 := by omega
          simp [hc, hnl]
          omega
        · have h0 : b.length - n ≠ 0 := by omega
          have hb0 : b.length ≠ 0 := by omega
          simp [hc, hnl, h0, hb0]
      · have hB2 : ¬ b.buffer = B := fun h => hB h.symm
        simp [hB, hB2]
    · have hent : ring_entries ring1 =
          ring_entries ring ++ [{ b with length := n, eom := eom }] := by
        rw [hentries, if_neg hc]
      rw [hent, live_refs_append]
      unfold live_refs
      by_cases hB : B = b.buffer
      · subst hB
        by_cases hnl : n = b.length
        · have h0 : b.length - n = 0 := by omega
          have hb0 : b.length ≠ 0 := by omega
          simp [hc, hnl]
          omega
        · have h0 : b.length - n ≠ 0 := by omega
          have hb0 : b.length ≠ 0 := by omega
          simp [hc, hnl, h0, hb0]
          omega
      · have hB2 : ¬ b.buffer = B := fun h => hB h.symm
        simp [hB, hB2]

/-- C14 applied to `one_ring` (one entry on buffer 1), a source vector of 20
bytes on buffer 1 and `n = 5`: the refcount of buffer 1 is 2 before the call,
the call returns, and every refcount is again the number of live vectors. -/
theorem append_refcount_witness :
    (ring_wf one_ring ∧ 0 < 5 ∧ 5 ≤ coalesce_src.length ∧
      ∀ B, one_ring_buffers.refcnt B =
        live_refs (ring_entries one_ring) coalesce_src B + ((fun _ => 0 : Nat → Nat) B : Int)) ∧
    ∃ bufs1 ring1 b1,
      evpl_bvec_ring_append zero_mem one_ring_buffers one_ring coalesce_src 5 1 =
        some (bufs1, ring1, b1) ∧
      ∀ B, bufs1.refcnt B =
        live_refs (ring_entries ring1) b1 B + ((fun _ => 0 : Nat → Nat) B : Int) := by
  have hwf : ring_wf one_ring := ⟨⟨2, by decide⟩, by decide, by decide, by decide⟩
  have hent : ring_entries one_ring = [coalesce_last] := by decide
  have hinv : ∀ B, one_ring_buffers.refcnt B =
      live_refs (ring_entries one_ring) coalesce_src B + ((fun _ => 0 : Nat → Nat) B : Int) := by
    intro B
    rw [hent]
    by_cases hB : B = 1
    · subst hB
      decide
    · have hB2 : ¬ 1 = B := fun h => hB h.symm
      simp [one_ring_buffers, live_refs, coalesce_last, coalesce_src, hB, hB2]
  exact ⟨⟨hwf, by decide, by decide, hinv⟩,
    (append_refcount zero_mem one_ring_buffers one_ring coalesce_src 5 1 hwf
      (by decide) (by decide)).2.2 (fun _ => 0) hinv⟩

/-! ## Traversal -/

theorem next_index {ring : evpl_bvec_ring} (hwf : ring_wf ring) (j : Nat) (hj : j < ring.size) :
    evpl_bvec_ring_next ring ((ring.tail + j) % ring.size) =
      if j + 1 = ring.size then none else some ((ring.tail + (j + 1)) % ring.size) := by
  have ht := hwf.2.2.2
  unfold evpl_bvec_ring_next
  simp only
  rw [mask_mod hwf, Nat.mod_add_mod, Nat.add_assoc]
  by_cases hlast : j + 1 = ring.size
  · rw [if_pos hlast, hlast, Nat.add_mod_right, Nat.mod_eq_of_lt ht, if_pos rfl]
  · rw [if_neg hlast]
    have hne : ¬ (ring.tail + (j + 1)) % ring.size = ring.tail := by
      intro h
      have h0 : (ring.tail + (j + 1)) % ring.size = (ring.tail + 0) % ring.size := by
        rw [h, Nat.add_zero, Nat.mod_eq_of_lt ht]
      have := mod_add_inj (by omega) (by omega) h0
      omega
    rw [if_neg hne]

theorem next_walk_spec {ring : evpl_bvec_ring} (hwf : ring_wf ring) :
    ∀ (fuel j : Nat), j < ring.size →
      ring_next_walk ring fuel (some ((ring.tail + j) % ring.size)) =
        (List.range' j (min fuel (ring.size - j))).map (fun i => (ring.tail + i) % ring.size) := by
  intro fuel
  induction fuel with
  | zero => intro j _; simp [ring_next_walk]
  | succ fuel ih =>
    intro j hj
    have hmin : min (fuel + 1) (ring.size - j) = min fuel (ring.size - (j + 1)) + 1 := by
      omega
    rw [ring_next_walk, next_index hwf j hj, hmin, List.range'_succ, List.map_cons]
    by_cases hlast : j + 1 = ring.size
    · rw [if_pos hlast]
      have h0 : min fuel (ring.size - (j + 1)) = 0 := by omega
      rw [h0]
      cases fuel <;> simp [ring_next_walk]
    · rw [if_neg hlast, ih (j + 1) (by omega)]

/-- On every well-formed non-empty ring, the traversal from
`evpl_bvec_ring_tail` with `evpl_bvec_ring_next` visits the slots
`tail, tail + 1, ...` modulo `size` until it has visited all `size` slots
(`evpl_bvec_ring_next` tests the next index against `tail`, not `head`). -/
theorem traverse_all_slots {ring : evpl_bvec_ring} (hwf : ring_wf ring)
    (hne : ring.head ≠ ring.tail) (fuel : Nat) :
    ring_traverse ring fuel =
      (List.range (min fuel ring.size)).map (fun i => (ring.tail + i) % ring.size) := by
  have hs := wf_size_pos hwf
  have ht := hwf.2.2.2
  unfold ring_traverse evpl_bvec_ring_tail
  rw [if_neg hne]
  have h := next_walk_spec hwf fuel 0 (by omega)
  rw [Nat.add_zero, Nat.mod_eq_of_lt ht] at h
  rw [h, Nat.sub_zero, List.range_eq_range']

/-- C15 evaluated on the code: `one_ring` has 4 slots and holds one entry, in
slot 0 (`tail = 0`, `head = 1`, count 1).  The traversal from
`evpl_bvec_ring_tail` with `evpl_bvec_ring_next` does not stop after slot 0:
`evpl_bvec_ring_next` returns slot 1, then slots 2 and 3, all outside
`[tail, head)`, and NULL only when the index is back at `tail`. -/
theorem next_overruns_head :
    ring_wf one_ring ∧ evpl_bvec_ring_is_empty one_ring = false ∧
    one_ring.tail = 0 ∧ one_ring.head = 1 ∧ ring_count one_ring = 1 ∧
    evpl_bvec_ring_tail one_ring = some 0 ∧
    evpl_bvec_ring_next one_ring 0 = some 1 ∧
    evpl_bvec_ring_next one_ring 1 = some 2 ∧
    evpl_bvec_ring_next one_ring 2 = some 3 ∧
    evpl_bvec_ring_next one_ring 3 = none ∧
    ring_traverse one_ring 8 = [0, 1, 2, 3] :=
  ⟨⟨⟨2, by decide⟩, by decide, by decide, by decide⟩, by decide, by decide, by decide,
    by decide, by decide, by decide, by decide, by decide, by decide, by decide⟩

/-! ## The end-of-message flag in `evpl_bvec_ring_append` -/

/-- Whenever the test of the first branch of `evpl_bvec_ring_append` passes,
the call leaves the `eom` field of every slot of the array as it was, whatever
the `eom` argument: `head->length += length` is the only store of that branch,
and the test required `head->eom` to be 0. -/
theorem append_coalesce_eom (mem : Nat → evpl_bvec) (bufs : evpl_buffers)
    (ring : evpl_bvec_ring) (b : evpl_bvec) (n eom : Nat)
    (hc : append_coalesces ring b = true)
    (r : evpl_buffers × evpl_bvec_ring × evpl_bvec)
    (hr : evpl_bvec_ring_append mem bufs ring b n eom = some r) :
    (∀ i, (r.2.1.bvec i).eom = (ring.bvec i).eom) ∧
    ∃ h, evpl_bvec_ring_head ring = some h ∧ (r.2.1.bvec h).eom = 0 ∧
      (r.2.1.bvec h).length = (ring.bvec h).length + n := by
  unfold append_coalesces at hc
  unfold evpl_bvec_ring_append at hr
  cases hh : evpl_bvec_ring_head ring with
  | none => rw [hh] at hc; cases hc
  | some h =>
    rw [hh] at hc hr
    have hc2 := of_decide_eq_true hc
    simp only [if_pos hc2] at hr
    have hring : r.2.1 =
        { ring with
          bvec := Function.update ring.bvec h
            ({ ring.bvec h with length := (ring.bvec h).length + n }) } := by
      split at hr
      · cases hd : evpl_bvec_decref bufs
            { b with data := b.data + n, length := b.length - n } with
        | none => rw [hd] at hr; cases hr
        | some bufs1 =>
          rw [hd, Option.map_some', Option.some.injEq] at hr
          rw [← hr]
      · rw [Option.some.injEq] at hr
        rw [← hr]
    rw [hring]
    refine ⟨fun i => ?_, h, rfl, ?_, ?_⟩
    · by_cases hi : i = h
      · subst hi
        simp
      · simp [Function.update_noteq hi]
    · simp [hc2.1]
    · simp

/-- C16 evaluated on the code: `stale_ring` holds the single entry
`sample_bvec 2`; slot `head` (slot 0) still has the bytes of a removed entry
that ends at address 110 with `eom = 0`.  Appending 5 bytes at address 110
with `eom = 1` takes the first branch of `evpl_bvec_ring_append`: slot 0 grows
to 15 bytes and keeps `eom = 0`, no entry is added, and no entry of the ring
has `eom` set after the call. -/
theorem append_coalesce_drops_eom :
    ring_wf stale_ring ∧ ring_entries stale_ring = [sample_bvec 2] ∧
    evpl_bvec_ring_head stale_ring = some 0 ∧
    stale_ring.bvec 0 = coalesce_last ∧
    append_coalesces stale_ring coalesce_src = true ∧
    (evpl_bvec_ring_append zero_mem sample_buffers stale_ring coalesce_src 5 1).map
      (fun r => (ring_entries r.2.1, r.2.1.bvec 0, r.2.2,
        (ring_entries r.2.1).map (fun e => e.eom))) =
      some ([sample_bvec 2], { buffer := 1, data := 100, length := 15, eom := 0 },
        { buffer := 1, data := 115, length := 15, eom := 0 }, [0]) :=
  ⟨⟨⟨1, by decide⟩, by decide, by decide, by decide⟩, by decide, by decide, by decide,
    by decide, by decide⟩

end Evpl
